import Mathlib

/-!
# Verification of `SGA8Queens.py` (8-queens simple genetic algorithm)

Shallow embedding of `src/8-rainhas/SGA8Queens.py` and proofs about it.

Conventions of the embedding:

* An individual in the integer representation is a `List ℕ` of queen
  positions (values 1..8, one per row).  In the binary-string
  representation each gene is a bit string, embedded as `List Bool`
  (most significant bit first, as Python's `'{0:03b}'.format`).
* numpy arrays used as occurrence counters are embedded as total
  functions `ℕ → ℕ` updated pointwise; Python's negative indexing
  (`a[-1]` is the last cell) is embedded by `pyIdx`, which reduces an
  integer index modulo the array size.
* Randomness (`np.random.default_rng()` draws) is made explicit: every
  method that draws random values takes the drawn values as arguments.
* `self.num_fitness_eval` is threaded explicitly through the state
  passing functions.
-/

namespace SGA8Queens


/-- Python/numpy indexing into an array of size `n`: a negative index
`i` addresses cell `n + i`.  (Embedded as `i mod n`; all indices used by
the program lie in `[-n, n)`, where this agrees with Python.) -/
def pyIdx (n : ℕ) (i : ℤ) : ℕ := (i % (n : ℤ)).toNat

/-- One `+= 1` update of an occurrence counter at index `i`. -/
def bump (f : ℕ → ℕ) (i : ℕ) : ℕ → ℕ := fun j => if j = i then f j + 1 else f j

/-- Build an occurrence counter from a list of (already reduced) indices:
the result of the `for i in range(N)` loop of `fitness` for one of the
three counter arrays. -/
def tally (ks : List ℕ) : ℕ → ℕ := ks.foldl bump (fun _ => 0)

/-- Queen position of row `i` (`table[i]`), as an integer. -/
def queenPos (t : List ℕ) (i : ℕ) : ℤ := (t.getD i 0 : ℤ)

/-- Index into `f_row` used by row `i`: `queen_pos - 1` (array size 8). -/
def rowKey (t : List ℕ) (i : ℕ) : ℕ := pyIdx 8 (queenPos t i - 1)

/-- Index into `f_mdiag` used by row `i`: `queen_pos + i - 1` (size 16). -/
def mdiagKey (t : List ℕ) (i : ℕ) : ℕ := pyIdx 16 (queenPos t i + i - 1)

/-- Index into `f_sdiag` used by row `i`: `N - queen_pos + i - 1`
(size 16; for `queen_pos = 8, i = 0` this index is `-1`, which numpy
wraps to cell 15). -/
def sdiagKey (t : List ℕ) (i : ℕ) : ℕ := pyIdx 16 (8 - queenPos t i + i - 1)

/-- The `f_row` array after the first loop of `fitness`. -/
def rowTally (t : List ℕ) : ℕ → ℕ := tally ((List.range 8).map (rowKey t))

/-- The `f_mdiag` array after the first loop of `fitness`. -/
def mdiagTally (t : List ℕ) : ℕ → ℕ := tally ((List.range 8).map (mdiagKey t))

/-- The `f_sdiag` array after the first loop of `fitness`. -/
def sdiagTally (t : List ℕ) : ℕ → ℕ := tally ((List.range 8).map (sdiagKey t))

/-- Body of the second loop of `fitness`: with `x` the row occupancy
(only read for `i < 8`), `y` and `z` the diagonal occupancies, the
contribution of index `i` is `(x*(x-1) + y*(y-1) + z*(z-1)) / 2`.  The
Python code divides floats; every `k*(k-1)` is even, so the float is
exactly this natural number. -/
def lineTerm (fr fm fs : ℕ → ℕ) (i : ℕ) : ℕ :=
  ((if i < 8 then fr i else 0) * ((if i < 8 then fr i else 0) - 1)
    + fm i * (fm i - 1) + fs i * (fs i - 1)) / 2

/-- The conflict count computed by `fitness` (the variable `result`):
occupancy counters are built for rows and both diagonal directions, and
every line with `k` queens contributes `k*(k-1)/2`. -/
def conflicts (t : List ℕ) : ℕ :=
  (List.range 16).foldl
    (fun acc i => acc + lineTerm (rowTally t) (mdiagTally t) (sdiagTally t) i) 0

/-- Return value of `fitness`: `1 / (result + eps)` with `eps = 1`.
(The `num_fitness_eval` side effect is modelled by `fitnessM` below.) -/
def fitnessVal (t : List ℕ) : ℚ := 1 / (conflicts t + 1)

/-! ## Specification-side conflict counting

Brute-force pairwise attack check, following the spec's description of a
conflict: two queens share a row (equal position values), a main
diagonal (equal `pos + row`), or an anti-diagonal (equal `pos - row`). -/

/-- Queens of rows `i` and `j` attack each other. -/
def attacksAt (t : List ℕ) (i j : ℕ) : Prop :=
  queenPos t i = queenPos t j ∨
  queenPos t i + i = queenPos t j + j ∨
  queenPos t i - i = queenPos t j - j

instance (t : List ℕ) (i j : ℕ) : Decidable (attacksAt t i j) := by
  unfold attacksAt; infer_instance

/-- The board is non-attacking: no pair of distinct rows attacks. -/
def NonAttacking (t : List ℕ) : Prop :=
  ∀ j, j < 8 → ∀ i, i < j → ¬ attacksAt t i j

instance (t : List ℕ) : Decidable (NonAttacking t) := by
  unfold NonAttacking; infer_instance

/-- Number of unordered pairs of equal elements of a list
(`k` equal copies contribute `k*(k-1)/2`). -/
def dupPairs {α : Type} [DecidableEq α] : List α → ℕ
  | [] => 0
  | a :: t => t.count a + dupPairs t

/-- Pairwise conflict count as the spec words it: over every occupied
row line, main-diagonal line and anti-diagonal line, `k` queens on the
line contribute `k*(k-1)/2`. -/
def specConflicts (t : List ℕ) : ℕ :=
  dupPairs ((List.range 8).map (queenPos t)) +
  dupPairs ((List.range 8).map (fun i => queenPos t i + i)) +
  dupPairs ((List.range 8).map (fun i => queenPos t i - i))

/-! ### From the program's counter arrays to line-value lists -/

/-- All decoded queen positions of the 8 rows lie in `[1, 8]`
(true of every individual the program builds). -/
def Bounded (t : List ℕ) : Prop := ∀ i, i < 8 → 1 ≤ t.getD i 0 ∧ t.getD i 0 ≤ 8

instance (t : List ℕ) : Decidable (Bounded t) := by
  unfold Bounded; infer_instance

/-! ## Binary-string representation codec (`_to_binary_string`, `int(s, 2)`) -/

/-- Binary digits, least significant bit first (`[]` for 0); the first
argument is fuel, which is large enough whenever `n ≤ fuel`. -/
def natBitsRevAux : ℕ → ℕ → List Bool
  | _, 0 => []
  | 0, _ + 1 => []
  | fuel + 1, n + 1 => ((n + 1) % 2 == 1) :: natBitsRevAux fuel ((n + 1) / 2)

/-- Binary digits of `n`, least significant bit first (`[]` for 0). -/
def natBitsRev (n : ℕ) : List Bool := natBitsRevAux n n

/-- Python `'{0:b}'.format(n)`: unsigned binary of `n`, most significant
bit first, no leading zeros (`"0"` for `n = 0`). -/
def pyBin (n : ℕ) : List Bool :=
  if n = 0 then [false] else (natBitsRev n).reverse

/-- One gene of `_to_binary_string`, Python `'{0:03b}'.format(gene)`:
pad the binary representation on the left with zeros up to a minimum
width of 3.  (The format never truncates: a representation longer than
3 bits is returned as is.) -/
def format3b (n : ℕ) : List Bool :=
  List.replicate (3 - (pyBin n).length) false ++ pyBin n

/-- `_to_binary_string`: encode every gene of a permutation. -/
def toBinaryString (int_p : List ℕ) : List (List Bool) := int_p.map format3b

/-- Python `int(s, 2)` on a binary string (used by `fitness` to decode
a gene when `use_binary_rep` is set). -/
def binToNat (bs : List Bool) : ℕ :=
  bs.foldl (fun a b => 2 * a + (if b then 1 else 0)) 0

/-! ## Constructor (`__init__`) -/

inductive RecombineOp | cutAndCrossfill | pmx | edge | cyclic

inductive MutateOp | swapM | insertM | scrambleM | inversionM

inductive ParentSelOp | best2of5 | rouletteSel

inductive SurvivorSelOp | replaceWorstSel | replaceParentsSel

/-- The state `__init__` leaves on the instance. -/
structure SGAConfig where
  p_c : ℚ
  p_m : ℚ
  pop_size : ℤ
  use_binary_rep : Bool
  recombine : RecombineOp
  mutate : MutateOp
  select_parents : ParentSelOp
  select_survivors : SurvivorSelOp
  num_fitness_eval : ℕ

/-- The `recombination_method` dispatch chain of `__init__`. -/
def setRecombine (recombination_method : ℤ) : Except String RecombineOp :=
  if recombination_method = 1 then .ok .cutAndCrossfill
  else if recombination_method = 2 then .ok .pmx
  else if recombination_method = 3 then .ok .edge
  else if recombination_method = 4 then .ok .cyclic
  else .error "Invalid option value for the recombination method."

/-- The `mutation_method` dispatch chain of `__init__`. -/
def setMutate (mutation_method : ℤ) : Except String MutateOp :=
  if mutation_method = 1 then .ok .swapM
  else if mutation_method = 2 then .ok .insertM
  else if mutation_method = 3 then .ok .scrambleM
  else if mutation_method = 4 then .ok .inversionM
  else .error "Invalid option value for the mutation method."

/-- The `parents_sel_method` dispatch chain of `__init__`. -/
def setParentsSel (parents_sel_method : ℤ) : Except String ParentSelOp :=
  if parents_sel_method = 1 then .ok .best2of5
  else if parents_sel_method = 2 then .ok .rouletteSel
  else .error "Invalid option value for the parents selection method."

/-- The `survivor_sel_method` dispatch chain of `__init__`. -/
def setSurvivorsSel (survivor_sel_method : ℤ) : Except String SurvivorSelOp :=
  if survivor_sel_method = 1 then .ok .replaceWorstSel
  else if survivor_sel_method = 2 then .ok .replaceParentsSel
  else .error "Invalid option value for the survivor selection method."

/-- `__init__`: stores `crossover_prob`, `mutation_prob`, `pop_size`,
`use_binary_rep` and a zero evaluation counter unconditionally, then
resolves the four strategy selectors, raising (`ValueError`) for an
unrecognized selector value.  No other validation is performed. -/
def initSGA (crossover_prob mutation_prob : ℚ) (pop_size : ℤ) (use_binary_rep : Bool)
    (recombination_method mutation_method parents_sel_method survivor_sel_method : ℤ) :
    Except String SGAConfig := do
  let recombine ← setRecombine recombination_method
  let mutate ← setMutate mutation_method
  let select_parents ← setParentsSel parents_sel_method
  let select_survivors ← setSurvivorsSel survivor_sel_method
  pure { p_c := crossover_prob, p_m := mutation_prob, pop_size := pop_size,
         use_binary_rep := use_binary_rep, recombine := recombine, mutate := mutate,
         select_parents := select_parents, select_survivors := select_survivors,
         num_fitness_eval := 0 }

/-! ## Survivor selection: `replace_parents_by_childs` -/

/-- `replace_parents_by_childs`: look up the slots currently holding the
two parents (Python `list.index`: first occurrence by value equality,
both computed before any write), then overwrite the slot of `p1` with
`c1` and the slot of `p2` with `c2`.  The fitness table is not touched. -/
def replace_parents_by_childs (population : List (List ℕ)) (c1 c2 p1 p2 : List ℕ) :
    List (List ℕ) :=
  let p1_index := population.indexOf p1
  let p2_index := population.indexOf p2
  (population.set p1_index c1).set p2_index c2

/-! ## Recombination operators

Each operator takes the random draws it makes as explicit arguments:
`u` is the `rng.uniform()` draw compared against the crossover
probability `pc`; index draws follow.  Individuals are integer-gene
permutations (`List ℕ`). -/

/-- A valid individual: a permutation of `[1..8]`. -/
def isPerm (l : List ℕ) : Prop := l.Perm (List.range' 1 8)

instance (l : List ℕ) : Decidable (isPerm l) := by
  unfold isPerm; infer_instance

/-- One child of `cut_and_crossfill_crossover`: prefix `pa[:i]`, then
scan `pb` left to right appending values not yet present.  (The source
writes into an array prefilled with `''` placeholders at a moving
cursor; a placeholder never equals a gene, so the membership test sees
exactly the prefix plus the values appended so far, and the cursor
write is an append.) -/
def crossfillChild (i : ℕ) (pa pb : List ℕ) : List ℕ :=
  pb.foldl (fun c x => if x ∈ c then c else c ++ [x]) (pa.take i)

/-- `cut_and_crossfill_crossover` with cut point `i` (`rng.choice(8)`). -/
def cut_and_crossfill_crossover (u pc : ℚ) (i : ℕ) (p1 p2 : List ℕ) :
    List ℕ × List ℕ :=
  if u < pc then (crossfillChild i p1 p2, crossfillChild i p2 p1)
  else (p1, p2)

/-- The slice `p[i:j+1]`. -/
def segList (p : List ℕ) (i j : ℕ) : List ℕ := (p.drop i).take (j + 1 - i)

/-- `c1` after the segment copy `c1[i:j+1] = p1[i:j+1]` on a list of
zeros. -/
def pmxInit (p1 : List ℕ) (i j : ℕ) : List ℕ :=
  (List.range 8).map (fun k => if i ≤ k ∧ k ≤ j then p1.getD k 0 else 0)

/-- The chained position lookup of `pmx_crossover`: starting from a
segment position, repeatedly move to `p2.index(p1[t])` while `p1[t]`
lies in `p2`'s segment; the final lookup (on a value outside `p2`'s
segment) is the write position.  This folds the `if`/`while` chain of
the source into one recursion (fuel 8 always suffices, proved below). -/
def pmxTarget (p1 p2 : List ℕ) (i j : ℕ) : ℕ → ℕ → ℕ
  | 0, t => p2.indexOf (p1.getD t 0)
  | fuel + 1, t =>
    if p1.getD t 0 ∈ segList p2 i j then
      pmxTarget p1 p2 i j fuel (p2.indexOf (p1.getD t 0))
    else p2.indexOf (p1.getD t 0)

/-- The placement loop of `pmx_crossover`: for each segment position
`k`, if `p2[k]` is not in `p1`'s segment, write it at the chased
position. -/
def pmxPlace (p1 p2 : List ℕ) (i j : ℕ) (c : List ℕ) : List ℕ :=
  (List.range' i (j + 1 - i)).foldl (fun c k =>
    if p2.getD k 0 ∈ segList p1 i j then c
    else c.set (pmxTarget p1 p2 i j 8 k) (p2.getD k 0)) c

/-- The fill loop of `pmx_crossover`: remaining zero positions are
copied from `p2`. -/
def pmxFill (p2 c : List ℕ) : List ℕ :=
  (List.range 8).foldl (fun c k => if c.getD k 0 = 0 then c.set k (p2.getD k 0) else c) c

/-- One child of `pmx_crossover` for cut points `i ≤ j`. -/
def pmxChild (p1 p2 : List ℕ) (i j : ℕ) : List ℕ :=
  pmxFill p2 (pmxPlace p1 p2 i j (pmxInit p1 i j))

/-- `pmx_crossover` with cut-point draws `i0 ≠ j0` (`rng.choice(8, 2)`),
swapped into order as in the source. -/
def pmx_crossover (u pc : ℚ) (i0 j0 : ℕ) (p1 p2 : List ℕ) : List ℕ × List ℕ :=
  if u < pc then
    let i := if i0 > j0 then j0 else i0
    let j := if i0 > j0 then i0 else j0
    (pmxChild p1 p2 i j, pmxChild p2 p1 i j)
  else (p1, p2)

/-- Neighbor list of value `index` in `_edge_table`: previous and next
element in each parent, treating the permutations as circular (Python's
`p[i-1]` at `i = 0` is the last element), then sorted
(`list.sort()`, ascending stable). -/
def edgeNeighbors (p1 p2 : List ℕ) (index : ℕ) : List ℕ :=
  let p1_index := p1.indexOf index
  let p2_index := p2.indexOf index
  List.insertionSort (· ≤ ·)
    [p1.getD (pyIdx p1.length ((p1_index : ℤ) - 1)) 0,
     p1.getD ((p1_index + 1) % p1.length) 0,
     p2.getD (pyIdx p2.length ((p2_index : ℤ) - 1)) 0,
     p2.getD ((p2_index + 1) % p2.length) 0]

/-- `_edge_table`: a dict with keys `1..len(p1)`, modelled as a total
function that is `[]` off the keys. -/
def edgeTable (p1 p2 : List ℕ) : ℕ → List ℕ :=
  fun index =>
    if 1 ≤ index ∧ index ≤ p1.length then edgeNeighbors p1 p2 index else []

/-- The distinct elements of a list in order of first appearance
(insertion order of a Python `Counter`). -/
def firstOccs : List ℕ → List ℕ
  | [] => []
  | a :: t => a :: (firstOccs t).filter (fun x => x ≠ a)

/-- `Counter(l).most_common(2)`: (element, count) pairs, stably sorted
by descending count, first two. -/
def mostCommon2 (l : List ℕ) : List (ℕ × ℕ) :=
  (List.insertionSort (fun a b : ℕ × ℕ => b.2 ≤ a.2)
    ((firstOccs l).map (fun x => (x, l.count x)))).take 2

/-- `select_next` of `edge_crossover`.  `dT` is the random draw used by
whichever `rng.choice` fires (reduced modulo the number of options).
In the final branch (empty neighbor list) the source calls
`rng.choice(remaining_elements)` on a Python *set*;
`numpy.random.Generator.choice` converts its argument with
`np.asarray`, a set becomes a 0-dimensional object array, and the call
raises `ValueError: a must be at least 1-dimensional` — so that branch
is an error, embedded as `none`. -/
def selectNext (dT : ℕ) (table : ℕ → List ℕ) (current_key : ℕ)
    (current_child : List ℕ) : Option ℕ :=
  if 0 < (table current_key).length then
    let most_common := mostCommon2 (table current_key)
    let with_common_edges := most_common.filter (fun x => x.2 = 2)
    if with_common_edges.length = 1 then some (most_common.getD 0 (0, 0)).1
    else if 1 < with_common_edges.length then
      some (most_common.getD (dT % most_common.length) (0, 0)).1
    else
      let lists_length := (table current_key).map
        (fun x => (x, (firstOccs (table x)).length))
      let sorted := List.insertionSort (fun a b : ℕ × ℕ => a.2 ≤ b.2) lists_length
      let smallest_length := (sorted.getD 0 (0, 0)).2
      let elements_with_smallest := sorted.filter (fun x => x.2 = smallest_length)
      some (elements_with_smallest.getD (dT % elements_with_smallest.length) (0, 0)).1
  else none

/-- The child-growing loop of `edge_crossover`: while the child is
short of `n` elements, remove the current element from every neighbor
list, pick the next element, append it; a `ValueError` in
`select_next` propagates.  One random draw is consumed per iteration
(stream `ds`). -/
def edgeLoop (ds : ℕ → ℕ) (n : ℕ) : ℕ → (ℕ → List ℕ) → ℕ → List ℕ → Option (List ℕ)
  | 0, _, _, child => some child
  | fuel + 1, table, curr_el, child =>
    if child.length < n then
      let table' := fun key => (table key).filter (fun x => x ≠ curr_el)
      (selectNext (ds 0) table' curr_el child).bind (fun nxt =>
        edgeLoop (fun k => ds (k + 1)) n fuel table' nxt (child ++ [nxt]))
    else some child

/-- One child of `edge_crossover`: start from a random element of `p1`
(`child = [rng.choice(p1)]`, and `curr_el = rng.choice(child)` is that
same element), then grow. -/
def edgeChild (ds : ℕ → ℕ) (p1 p2 : List ℕ) : Option (List ℕ) :=
  let e0 := p1.getD (ds 0 % p1.length) 0
  edgeLoop (fun k => ds (k + 1)) p1.length 8 (edgeTable p1 p2) e0 [e0]

/-- `edge_crossover`; the two children are built independently, each
from a fresh edge table, with their own draw streams; a `ValueError`
raised while building either child aborts the whole call. -/
def edge_crossover (u pc : ℚ) (ds1 ds2 : ℕ → ℕ) (p1 p2 : List ℕ) :
    Option (List ℕ × List ℕ) :=
  if u < pc then
    match edgeChild ds1 p1 p2, edgeChild ds2 p1 p2 with
    | some c1, some c2 => some (c1, c2)
    | _, _ => none
  else some (p1, p2)

/-- Random draws reaching the `ValueError` branch of `edge_crossover`
on parents `[1..8]` and `[3,4,5,6,1,8,2,7]`: start at element `4`,
then tie-break picks grow the child `4, 3, 7, 6, 5`, after which the
neighbor list of `5` is exhausted with `{1, 2, 8}` still unused. -/
def edgeErrorDraws : ℕ → ℕ := fun k => [3, 0, 1, 1].getD k 0

/-- One position assignment of `cyclic_crossover` (children swap
sources on odd turns). -/
def cyclicAssign (p1 p2 : List ℕ) (turn pos : ℕ) (cs : List ℕ × List ℕ) :
    List ℕ × List ℕ :=
  if turn = 0 then (cs.1.set pos (p1.getD pos 0), cs.2.set pos (p2.getD pos 0))
  else (cs.1.set pos (p2.getD pos 0), cs.2.set pos (p1.getD pos 0))

/-- Inner `while curr_i != start_i` loop of `cyclic_crossover`
(fuel 8 always suffices: the cycle returns to `start`). -/
def cyclicInner (p1 p2 : List ℕ) (turn start : ℕ) :
    ℕ → ℕ → List ℕ × List ℕ → List ℕ × List ℕ
  | 0, _, cs => cs
  | fuel + 1, curr, cs =>
    if curr = start then cs
    else cyclicInner p1 p2 turn start fuel (p1.indexOf (p2.getD curr 0))
      (cyclicAssign p1 p2 turn curr cs)

/-- Outer `while 0 in c1 or 0 in c2` loop of `cyclic_crossover`
(fuel 8 always suffices: every pass fills at least one zero). -/
def cyclicOuter (p1 p2 : List ℕ) : ℕ → ℕ → List ℕ × List ℕ → List ℕ × List ℕ
  | 0, _, cs => cs
  | fuel + 1, turn, cs =>
    if 0 ∈ cs.1 ∨ 0 ∈ cs.2 then
      let start_i := cs.1.indexOf 0
      let cs1 := cyclicAssign p1 p2 turn start_i cs
      let cs2 := cyclicInner p1 p2 turn start_i 8
        (p1.indexOf (p2.getD start_i 0)) cs1
      cyclicOuter p1 p2 fuel ((turn + 1) % 2) cs2
    else cs

/-- `cyclic_crossover`. -/
def cyclic_crossover (u pc : ℚ) (p1 p2 : List ℕ) : List ℕ × List ℕ :=
  if u < pc then cyclicOuter p1 p2 8 0 (List.replicate 8 0, List.replicate 8 0)
  else (p1, p2)

/-! ## Mutation operators -/

/-- `swap_mutation` with position draws `i ≠ j` (`rng.choice(8, 2)`);
Python's simultaneous assignment reads both old values first. -/
def swap_mutation (u pm : ℚ) (i j : ℕ) (child : List ℕ) : List ℕ :=
  if u < pm then (child.set i (child.getD j 0)).set j (child.getD i 0)
  else child

/-- `insert_mutation`: move the `j`-th gene to directly after the
`i`-th (draws swapped into order as in the source). -/
def insert_mutation (u pm : ℚ) (i0 j0 : ℕ) (child : List ℕ) : List ℕ :=
  if u < pm then
    let i := if j0 < i0 then j0 else i0
    let j := if j0 < i0 then i0 else j0
    child.take (i + 1) ++ [child.getD j 0]
      ++ (child.drop (i + 1)).take (j - (i + 1)) ++ child.drop (j + 1)
  else child

/-- `scramble_mutation`: replace `child[i:j+1]` by the shuffled block
produced by `np.random.shuffle` (passed in as `shuffled`; the theorem
below constrains it to a permutation of the slice). -/
def scramble_mutation (u pm : ℚ) (i0 j0 : ℕ) (shuffled : List ℕ) (child : List ℕ) :
    List ℕ :=
  if u < pm then
    let i := if j0 < i0 then j0 else i0
    let j := if j0 < i0 then i0 else j0
    child.take i ++ shuffled ++ child.drop (j + 1)
  else child

/-- `inversion_mutation`: reverse `child[i:j+1]` in place. -/
def inversion_mutation (u pm : ℚ) (i0 j0 : ℕ) (child : List ℕ) : List ℕ :=
  if u < pm then
    let i := if j0 < i0 then j0 else i0
    let j := if j0 < i0 then i0 else j0
    child.take i ++ ((child.drop i).take (j + 1 - i)).reverse ++ child.drop (j + 1)
  else child

/-! ## Algorithm state and the evolutionary loop

The mutable instance state used by `run`: `self.population`,
`self.pop_fitness` and `self.num_fitness_eval` (integer
representation).  Every `self.fitness(...)` call site is modelled with
`fitnessM`, which bumps the counter. -/

structure SGAState where
  population : List (List ℕ)
  pop_fitness : List ℚ
  num_fitness_eval : ℕ
deriving DecidableEq

/-- A call `self.fitness(t)`: returns the fitness value and bumps
`self.num_fitness_eval` by one, leaving all other state alone. -/
def fitnessM (t : List ℕ) (s : SGAState) : ℚ × SGAState :=
  (fitnessVal t, { s with num_fitness_eval := s.num_fitness_eval + 1 })

/-- Evaluate `fitness` on each element in order, threading the counter
(the list comprehension of `random_init_population`, the candidate
evaluation of `select_2_out_5`). -/
def evalAll : List (List ℕ) → ℕ → List ℚ × ℕ
  | [], n => ([], n)
  | x :: xs, n =>
    let r := evalAll xs (n + 1)
    (fitnessVal x :: r.1, r.2)

/-- `random_init_population`: `pop_size` fresh individuals (the
`rng.permutation` draws are the oracle `perms`), and the initial
fitness table, each entry a counted evaluation.  `n0` is the counter
value at entry (0 after construction). -/
def random_init_population (perms : ℕ → List ℕ) (pop_size : ℕ) (n0 : ℕ) : SGAState :=
  let population := (List.range pop_size).map perms
  let r := evalAll population n0
  { population := population, pop_fitness := r.1, num_fitness_eval := r.2 }

/-- Index of the first maximum of a list (numpy `argmax`). -/
def argmaxAux : List ℚ → ℕ → ℕ → ℚ → ℕ
  | [], _, bi, _ => bi
  | x :: xs, i, bi, bv =>
    if bv < x then argmaxAux xs (i + 1) i x else argmaxAux xs (i + 1) bi bv

/-- numpy `argmax` (first index attaining the maximum). -/
def argmaxIdx : List ℚ → ℕ
  | [] => 0
  | x :: xs => argmaxAux xs 1 0 x

/-- Index of the first minimum of a list. -/
def argminAux : List ℚ → ℕ → ℕ → ℚ → ℕ
  | [], _, bi, _ => bi
  | x :: xs, i, bi, bv =>
    if x < bv then argminAux xs (i + 1) i x else argminAux xs (i + 1) bi bv

/-- First index attaining the minimum (`np.argsort(fit)[0]`). -/
def argminIdx : List ℚ → ℕ
  | [] => 0
  | x :: xs => argminAux xs 1 0 x

/-- First index attaining the minimum among indices other than `skip`
(`np.argsort(fit)[1]`, modelled with stable tie-breaking). -/
def argminIdxExcept (l : List ℚ) (skip : ℕ) : ℕ :=
  let idxs := (List.range l.length).filter (fun x => x ≠ skip)
  idxs.foldl (fun acc i => if l.getD i 0 < l.getD acc 0 then i else acc) (idxs.getD 0 0)

/-- First index attaining the maximum among indices other than `skip`
(`np.argsort(-fit)[1]`, stable tie-breaking). -/
def argmaxIdxExcept (l : List ℚ) (skip : ℕ) : ℕ :=
  let idxs := (List.range l.length).filter (fun x => x ≠ skip)
  idxs.foldl (fun acc i => if l.getD acc 0 < l.getD i 0 then i else acc) (idxs.getD 0 0)

/-- `self.pop_fitness.max()` (numpy max of a nonempty array). -/
def maxFit (l : List ℚ) : ℚ := l.foldl max (l.getD 0 0)

/-- `select_2_out_5`: five random population members (indices drawn by
the rng, oracle `idxs`), one counted fitness evaluation each, and the
two best of the five (`np.argsort(-fitness)[:2]`, modelled with stable
tie-breaking).  Population and fitness table are untouched. -/
def select_2_out_5 (idxs : ℕ → ℕ) (s : SGAState) :
    (List ℕ × List ℕ) × SGAState :=
  let candidates := (List.range 5).map (fun m => s.population.getD (idxs m) [])
  let r := evalAll candidates s.num_fitness_eval
  let i1 := argmaxIdx r.1
  let i2 := argmaxIdxExcept r.1 i1
  ((candidates.getD i1 [], candidates.getD i2 []),
    { s with num_fitness_eval := r.2 })

/-- The cumulative-probability walk of `roulette_selection` for one
draw `r`: the first index where `rand_val < cum_prob + f/total` wins. -/
def rouletteAux (total r : ℚ) : List ℚ → ℕ → ℚ → Option ℕ
  | [], _, _ => none
  | f :: fs, i, cum =>
    if r < cum + f / total then some i
    else rouletteAux total r fs (i + 1) (cum + f / total)

/-- `roulette_selection` with the two `rng.random()` draws `r1, r2`.
No fitness evaluations: it reads only the stored fitness table. -/
def roulette_selection (r1 r2 : ℚ) (s : SGAState) :
    (List ℕ × List ℕ) × SGAState :=
  let total := s.pop_fitness.sum
  let pick := fun r =>
    match rouletteAux total r s.pop_fitness 0 0 with
    | some i => s.population.getD i []
    | none => []
  ((pick r1, pick r2), s)

/-- `replace_worst`: overwrite the two lowest-fitness slots with the
children and refresh their fitness entries (two counted evaluations). -/
def replace_worst (c1 c2 : List ℕ) (s : SGAState) : SGAState :=
  let w0 := argminIdx s.pop_fitness
  let w1 := argminIdxExcept s.pop_fitness w0
  let r1 := fitnessM c1 s
  let r2 := fitnessM c2 r1.2
  { r2.2 with
    population := (s.population.set w0 c1).set w1 c2,
    pop_fitness := (s.pop_fitness.set w0 r1.1).set w1 r2.1 }

/-- `replace_parents_by_childs` acting on the instance state: the
population slots are overwritten, the fitness table and the counter are
not touched. -/
def replace_parents_by_childs_state (c1 c2 p1 p2 : List ℕ) (s : SGAState) : SGAState :=
  { s with population := replace_parents_by_childs s.population c1 c2 p1 p2 }

/-- The random draws one generation consumes (beyond those of
recombination and mutation, which are already explicit arguments of the
operators). -/
structure GenDraws where
  tournIdxs : ℕ → ℕ
  r1 : ℚ
  r2 : ℚ

/-- One generation of `run`'s loop body: select two parents, produce
and mutate two children (`rm` is the composite
`mutate (recombine p1 p2)` with its explicit draws already applied; it
is a pure function of the parents, as in the source, where those
operators never touch the instance state), then survivor selection. -/
def genStep (ps : ParentSelOp) (ss : SurvivorSelOp)
    (rm : List ℕ → List ℕ → List ℕ × List ℕ) (d : GenDraws) (s : SGAState) : SGAState :=
  let pr := match ps with
    | .best2of5 => select_2_out_5 d.tournIdxs s
    | .rouletteSel => roulette_selection d.r1 d.r2 s
  let p1 := pr.1.1
  let p2 := pr.1.2
  let c := rm p1 p2
  match ss with
  | .replaceWorstSel => replace_worst c.1 c.2 pr.2
  | .replaceParentsSel => replace_parents_by_childs_state c.1 c.2 p1 p2 pr.2

/-- The loop guard of `run`:
`self.num_fitness_eval < 10000 and self.pop_fitness.max() < 1`. -/
def loopGuard (s : SGAState) : Prop :=
  s.num_fitness_eval < 10000 ∧ maxFit s.pop_fitness < 1

instance (s : SGAState) : Decidable (loopGuard s) := by
  unfold loopGuard; infer_instance

/-- The state after `n` generations (generation `k` uses draws
`stepAt k`). -/
def runTrace (stepAt : ℕ → SGAState → SGAState) (s : SGAState) : ℕ → SGAState
  | 0 => s
  | n + 1 => stepAt n (runTrace stepAt s n)

/-- The `while` loop of `run` terminates from state `s`: after some
number of generations the guard fails. -/
def LoopTerminates (stepAt : ℕ → SGAState → SGAState) (s : SGAState) : Prop :=
  ∃ n, ¬ loopGuard (runTrace stepAt s n)

/-! ## The final report of `run` -/

/-- A Python value as stored in a gene slot: an `int`, or a bit string
(the `use_binary_rep` representation). -/
inductive PyVal
  | intV (n : ℕ)
  | strV (bits : List Bool)
deriving DecidableEq

/-- Decoding used by `fitness`: `int(table[i], 2)` when the gene is a
binary string, the value itself when it is an integer. -/
def decodePyVal : PyVal → ℕ
  | .intV n => n
  | .strV bits => binToNat bits

/-- An individual of the binary-string representation as built by
`random_init_population` (`self._to_binary_string(...)`). -/
def toBinaryInd (p : List ℕ) : List PyVal := (toBinaryString p).map PyVal.strV

/-- `fitness` on a binary-representation individual. -/
def fitnessValB (t : List PyVal) : ℚ := fitnessVal (t.map decodePyVal)

/-- Is the gene an `int`? -/
def isIntV : PyVal → Bool
  | .intV _ => true
  | .strV _ => false

/-- The individual is a sequence of integers (canonical decoded form). -/
def IsIntSeq (l : List PyVal) : Prop := ∀ g ∈ l, isIntV g = true

instance (l : List PyVal) : Decidable (IsIntSeq l) := by
  unfold IsIntSeq; infer_instance

/-- The report dict built at the end of `run`, generic in the gene type
(integer or binary-string representation). -/
structure RunReport (γ : Type) where
  num_fitness_eval : ℕ
  convergence : Bool
  num_solutions : ℕ
  solution : List γ

/-- The report expression of `run`: evaluation count, convergence flag
(`self.pop_fitness.max() == 1`), number of individuals tied at the best
fitness, and `self.population[self.pop_fitness.argmax()]` — the best
individual exactly as stored, with no decoding. -/
def makeReport {γ : Type} (population : List (List γ)) (pop_fitness : List ℚ)
    (neval : ℕ) : RunReport γ :=
  { num_fitness_eval := neval,
    convergence := decide (maxFit pop_fitness = 1),
    num_solutions := (pop_fitness.filter (fun p => p = maxFit pop_fitness)).length,
    solution := population.getD (argmaxIdx pop_fitness) [] }

/-! ### Cyclic crossover preserves validity -/

/-- The position-to-position step of `cyclic_crossover`:
`curr_i = p1.index(p2[curr_i])`. -/
def cycIdx (p1 p2 : List ℕ) (q : ℕ) : ℕ := p1.indexOf (p2.getD q 0)

/-- The positions visited by one cycle, starting at `curr`. -/
def orbitList (sf : ℕ → ℕ) (curr m : ℕ) : List ℕ :=
  (List.range m).map (fun k => sf^[k] curr)

/-- Folding `cyclicAssign` over a list of positions. -/
def applyAssigns (p1 p2 : List ℕ) (turn : ℕ) (L : List ℕ)
    (cs : List ℕ × List ℕ) : List ℕ × List ℕ :=
  L.foldl (fun cs q => cyclicAssign p1 p2 turn q cs) cs

/-- The per-child invariant of the outer cyclic-crossover loop: the
positions in `S` hold, injectively, exactly parent values (image of
`P` over `S`), and the positions outside `S` still hold the `0`
placeholder. -/
@[reducible] def CompInv (P c : List ℕ) (S : Finset ℕ) : Prop :=
  c.length = 8
  ∧ (∀ q, q < 8 → (c.getD q 0 ≠ 0 ↔ q ∈ S))
  ∧ Set.InjOn (fun q => c.getD q 0) ↑S
  ∧ Finset.image (fun q => c.getD q 0) S = Finset.image (fun q => P.getD q 0) S

/-! ### The stale fitness table of `replace_parents_by_childs` (C4) -/

/-- Two concrete initial individuals: the identity permutation (28
anti-diagonal conflicts, fitness 1/29) and its reverse. -/
def c4Perms : ℕ → List ℕ := fun i =>
  if i = 0 then [1,2,3,4,5,6,7,8] else [8,7,6,5,4,3,2,1]

/-- The state right after `random_init_population` on those two
individuals (population size 2, counter 0 at entry). -/
def c4State : SGAState := random_init_population c4Perms 2 0

/-! ### The report (C9) -/

/-- Two concrete binary-representation individuals. -/
def c9Perms : List (List ℕ) := [[1,2,3,4,5,6,7,8], [4,2,7,3,6,8,5,1]]

/-- Their stored (encoded) forms. -/
def c9Pop : List (List PyVal) := c9Perms.map toBinaryInd

/-- Their fitness table. -/
def c9Fits : List ℚ := c9Pop.map fitnessValB

/-! ### Termination of the run loop (C3) -/

/-- Recombination and mutation for one concrete generation: the actual
operators with draws that leave both untriggered
(`rng.uniform() = 0.95` is not below `p_c = 0.9` nor `p_m = 0.4`). -/
def rmC3 : List ℕ → List ℕ → List ℕ × List ℕ := fun a b =>
  let c := cut_and_crossfill_crossover (95/100) (9/10) 0 a b
  (swap_mutation (95/100) (4/10) 0 1 c.1, swap_mutation (95/100) (4/10) 0 1 c.2)

/-- Draws for one generation: both roulette draws are 0 (picking the
first individual twice). -/
def c3Draws : GenDraws := { tournIdxs := fun _ => 0, r1 := 0, r2 := 0 }

/-- One generation under roulette parent selection and
replace-parents-by-children survivor selection. -/
def c3Step : SGAState → SGAState :=
  genStep ParentSelOp.rouletteSel SurvivorSelOp.replaceParentsSel rmC3 c3Draws

/-! ## Theorems -/

/-! ### Counter lemmas -/

theorem foldl_bump (ks : List ℕ) : ∀ (f : ℕ → ℕ) (x : ℕ),
    ks.foldl bump f x = f x + ks.count x := by
  induction ks with
  | nil => intro f x; simp
  | cons a t ih =>
    intro f x
    simp only [List.foldl_cons, List.count_cons, ih, bump]
    by_cases h : x = a
    · subst h; simp; omega
    · simp [h, Ne.symm h]

theorem tally_eq_count (ks : List ℕ) (x : ℕ) : tally ks x = ks.count x := by
  simp [tally, foldl_bump]

theorem foldl_add_range (g : ℕ → ℕ) : ∀ (n : ℕ) (a : ℕ),
    (List.range n).foldl (fun acc i => acc + g i) a = a + ∑ i ∈ Finset.range n, g i := by
  intro n
  induction n with
  | zero => simp
  | succ n ih =>
    intro a
    rw [List.range_succ, List.foldl_append, ih, Finset.sum_range_succ]
    simp [Nat.add_assoc]

theorem two_dvd_mul_pred (x : ℕ) : 2 ∣ x * (x - 1) := by
  rcases x with _ | m
  · simp
  · simpa [Nat.succ_sub_one, Nat.mul_comm] using (Nat.even_mul_succ_self m).two_dvd

/-- `choose 2` step: `(k+1)*k/2 = k*(k-1)/2 + k`. -/
theorem choose2_succ (k : ℕ) : (k + 1) * (k + 1 - 1) / 2 = k * (k - 1) / 2 + k := by
  obtain ⟨m, hm⟩ := two_dvd_mul_pred k
  have h1 : (k + 1) * (k + 1 - 1) = k * (k - 1) + 2 * k := by
    rcases k with _ | n
    · simp
    · simp only [Nat.add_sub_cancel]
      ring
  rw [h1, hm]
  omega

theorem sum_choose2_count {α : Type} [DecidableEq α] (l : List α) :
    ∀ (S : Finset α), (∀ a ∈ l, a ∈ S) →
    ∑ x ∈ S, (l.count x) * (l.count x - 1) / 2 = dupPairs l := by
  induction l with
  | nil => intro S _; simp [dupPairs]
  | cons a t ih =>
    intro S hS
    have haS : a ∈ S := hS a (by simp)
    have htS : ∀ b ∈ t, b ∈ S := fun b hb => hS b (by simp [hb])
    have hsplit : ∀ x ∈ S, (a :: t).count x * ((a :: t).count x - 1) / 2 =
        t.count x * (t.count x - 1) / 2 + (if x = a then t.count a else 0) := by
      intro x _
      by_cases hx : x = a
      · subst hx
        simp only [List.count_cons_self, if_pos rfl]
        exact choose2_succ _
      · simp [List.count_cons, hx, Ne.symm hx]
    rw [Finset.sum_congr rfl hsplit, Finset.sum_add_distrib, ih S htS,
      Finset.sum_ite_eq' S a (fun _ => t.count a)]
    simp [haS, dupPairs, Nat.add_comm]

theorem count_map_inj {α β : Type} [DecidableEq α] [DecidableEq β] (g : α → β) (a : α) :
    ∀ (t : List α), (∀ y ∈ t, g y = g a → y = a) → (t.map g).count (g a) = t.count a := by
  intro t
  induction t with
  | nil => simp
  | cons b t' ih =>
    intro h
    have hb := h b (by simp)
    have ht' : ∀ y ∈ t', g y = g a → y = a := fun y hy => h y (by simp [hy])
    simp only [List.map_cons, List.count_cons, ih ht']
    by_cases hba : b = a
    · subst hba; simp
    · have : g b ≠ g a := fun hgb => hba (hb hgb)
      simp [hba, this, Ne.symm this, Ne.symm hba]

theorem dupPairs_map {α β : Type} [DecidableEq α] [DecidableEq β] (g : α → β) :
    ∀ (l : List α), (∀ x ∈ l, ∀ y ∈ l, g x = g y → x = y) →
    dupPairs (l.map g) = dupPairs l := by
  intro l
  induction l with
  | nil => intro _; rfl
  | cons a t ih =>
    intro h
    have ht : ∀ x ∈ t, ∀ y ∈ t, g x = g y → x = y :=
      fun x hx y hy => h x (by simp [hx]) y (by simp [hy])
    have hcnt : (t.map g).count (g a) = t.count a :=
      count_map_inj g a t (fun y hy => h y (by simp [hy]) a (by simp))
    simp [dupPairs, hcnt, ih ht]

theorem dupPairs_eq_zero_iff {α : Type} [DecidableEq α] (l : List α) :
    dupPairs l = 0 ↔ l.Nodup := by
  induction l with
  | nil => simp [dupPairs]
  | cons a t ih =>
    simp only [dupPairs, Nat.add_eq_zero, List.nodup_cons, ih, List.count_eq_zero]

theorem pyIdx_lt (n : ℕ) (hn : 0 < n) (i : ℤ) : pyIdx n i < n := by
  unfold pyIdx
  have h1 : 0 ≤ i % (n : ℤ) := Int.emod_nonneg i (by exact_mod_cast hn.ne')
  have h2 : i % (n : ℤ) < n := Int.emod_lt_of_pos i (by exact_mod_cast hn)
  omega

theorem pyIdx8_inj {a b : ℤ} (h1 : 0 ≤ a) (h2 : a ≤ 7) (h3 : 0 ≤ b) (h4 : b ≤ 7)
    (h : pyIdx 8 a = pyIdx 8 b) : a = b := by
  unfold pyIdx at h
  omega

theorem pyIdx16_inj {a b : ℤ} (h1 : -1 ≤ a) (h2 : a ≤ 14) (h3 : -1 ≤ b) (h4 : b ≤ 14)
    (h : pyIdx 16 a = pyIdx 16 b) : a = b := by
  unfold pyIdx at h
  omega

theorem queenPos_bounds {t : List ℕ} (hb : Bounded t) {i : ℕ} (hi : i < 8) :
    1 ≤ queenPos t i ∧ queenPos t i ≤ 8 := by
  have := hb i hi
  unfold queenPos
  omega

/-- The program's conflict count coincides with the specification's
per-line `k*(k-1)/2` count, for any individual whose decoded positions
are in `[1, 8]`. -/
theorem conflicts_eq_specConflicts {t : List ℕ} (hb : Bounded t) :
    conflicts t = specConflicts t := by
  -- Abbreviations for the three key lists.
  have hrk : ∀ i, rowTally t i = ((List.range 8).map (rowKey t)).count i :=
    fun i => tally_eq_count _ i
  have hmk : ∀ i, mdiagTally t i = ((List.range 8).map (mdiagKey t)).count i :=
    fun i => tally_eq_count _ i
  have hsk : ∀ i, sdiagTally t i = ((List.range 8).map (sdiagKey t)).count i :=
    fun i => tally_eq_count _ i
  -- 1. The foldl is a sum over `Finset.range 16`.
  have hfold : conflicts t = ∑ i ∈ Finset.range 16,
      lineTerm (rowTally t) (mdiagTally t) (sdiagTally t) i := by
    have := foldl_add_range (lineTerm (rowTally t) (mdiagTally t) (sdiagTally t)) 16 0
    rw [Nat.zero_add] at this
    exact this
  -- 2. Split the division over the three (even) products.
  have hsplit : conflicts t =
      (∑ i ∈ Finset.range 16,
        (if i < 8 then rowTally t i else 0) * ((if i < 8 then rowTally t i else 0) - 1) / 2)
      + (∑ i ∈ Finset.range 16, mdiagTally t i * (mdiagTally t i - 1) / 2)
      + (∑ i ∈ Finset.range 16, sdiagTally t i * (sdiagTally t i - 1) / 2) := by
    rw [hfold, ← Finset.sum_add_distrib, ← Finset.sum_add_distrib]
    refine Finset.sum_congr rfl fun i _ => ?_
    unfold lineTerm
    obtain ⟨a, ha⟩ := two_dvd_mul_pred (if i < 8 then rowTally t i else 0)
    obtain ⟨b, hbb⟩ := two_dvd_mul_pred (mdiagTally t i)
    obtain ⟨c, hc⟩ := two_dvd_mul_pred (sdiagTally t i)
    omega
  -- 3. The row sum only carries mass below 8.
  have hrow : (∑ i ∈ Finset.range 16,
      (if i < 8 then rowTally t i else 0) * ((if i < 8 then rowTally t i else 0) - 1) / 2)
      = ∑ i ∈ Finset.range 8, rowTally t i * (rowTally t i - 1) / 2 := by
    rw [← Finset.sum_subset (Finset.range_subset.2 (by norm_num : (8:ℕ) ≤ 16))
      (fun x _ hx => by
        have : ¬ x < 8 := fun h => hx (Finset.mem_range.2 h)
        simp [this])]
    refine Finset.sum_congr rfl fun i hi => ?_
    have : i < 8 := Finset.mem_range.1 hi
    simp [this]
  -- 4. Each family sum is the duplicate-pair count of its key list.
  have hkeyrow : ∀ a ∈ (List.range 8).map (rowKey t), a ∈ Finset.range 8 := by
    intro a ha
    obtain ⟨i, _, rfl⟩ := List.mem_map.1 ha
    exact Finset.mem_range.2 (pyIdx_lt 8 (by norm_num) _)
  have hkeym : ∀ a ∈ (List.range 8).map (mdiagKey t), a ∈ Finset.range 16 := by
    intro a ha
    obtain ⟨i, _, rfl⟩ := List.mem_map.1 ha
    exact Finset.mem_range.2 (pyIdx_lt 16 (by norm_num) _)
  have hkeys : ∀ a ∈ (List.range 8).map (sdiagKey t), a ∈ Finset.range 16 := by
    intro a ha
    obtain ⟨i, _, rfl⟩ := List.mem_map.1 ha
    exact Finset.mem_range.2 (pyIdx_lt 16 (by norm_num) _)
  have erow : (∑ i ∈ Finset.range 8, rowTally t i * (rowTally t i - 1) / 2)
      = dupPairs ((List.range 8).map (rowKey t)) := by
    have e : (∑ i ∈ Finset.range 8, rowTally t i * (rowTally t i - 1) / 2)
        = ∑ i ∈ Finset.range 8, ((List.range 8).map (rowKey t)).count i
            * (((List.range 8).map (rowKey t)).count i - 1) / 2 :=
      Finset.sum_congr rfl fun i _ => by rw [hrk]
    rw [e]
    exact sum_choose2_count _ _ hkeyrow
  have em : (∑ i ∈ Finset.range 16, mdiagTally t i * (mdiagTally t i - 1) / 2)
      = dupPairs ((List.range 8).map (mdiagKey t)) := by
    have e : (∑ i ∈ Finset.range 16, mdiagTally t i * (mdiagTally t i - 1) / 2)
        = ∑ i ∈ Finset.range 16, ((List.range 8).map (mdiagKey t)).count i
            * (((List.range 8).map (mdiagKey t)).count i - 1) / 2 :=
      Finset.sum_congr rfl fun i _ => by rw [hmk]
    rw [e]
    exact sum_choose2_count _ _ hkeym
  have es : (∑ i ∈ Finset.range 16, sdiagTally t i * (sdiagTally t i - 1) / 2)
      = dupPairs ((List.range 8).map (sdiagKey t)) := by
    have e : (∑ i ∈ Finset.range 16, sdiagTally t i * (sdiagTally t i - 1) / 2)
        = ∑ i ∈ Finset.range 16, ((List.range 8).map (sdiagKey t)).count i
            * (((List.range 8).map (sdiagKey t)).count i - 1) / 2 :=
      Finset.sum_congr rfl fun i _ => by rw [hsk]
    rw [e]
    exact sum_choose2_count _ _ hkeys
  have hdup : conflicts t = dupPairs ((List.range 8).map (rowKey t))
      + dupPairs ((List.range 8).map (mdiagKey t))
      + dupPairs ((List.range 8).map (sdiagKey t)) := by
    rw [hsplit, hrow, erow, em, es]
  -- 5. Reduce each key list to the corresponding line-value list.
  have hrowline : dupPairs ((List.range 8).map (rowKey t))
      = dupPairs ((List.range 8).map (queenPos t)) := by
    have h1 : (List.range 8).map (rowKey t)
        = ((List.range 8).map (fun i => queenPos t i - 1)).map (pyIdx 8) := by
      rw [List.map_map]; rfl
    have h2 : dupPairs (((List.range 8).map (fun i => queenPos t i - 1)).map (pyIdx 8))
        = dupPairs ((List.range 8).map (fun i => queenPos t i - 1)) := by
      apply dupPairs_map
      intro x hx y hy hxy
      obtain ⟨i, hi, rfl⟩ := List.mem_map.1 hx
      obtain ⟨j, hj, rfl⟩ := List.mem_map.1 hy
      have hbi := queenPos_bounds hb (List.mem_range.1 hi)
      have hbj := queenPos_bounds hb (List.mem_range.1 hj)
      exact pyIdx8_inj (by omega) (by omega) (by omega) (by omega) hxy
    have h3 : dupPairs ((List.range 8).map (fun i => queenPos t i - 1))
        = dupPairs ((List.range 8).map (queenPos t)) := by
      have : (List.range 8).map (fun i => queenPos t i - 1)
          = ((List.range 8).map (queenPos t)).map (fun z => z - 1) := by
        rw [List.map_map]; rfl
      rw [this]
      apply dupPairs_map
      intro x _ y _ h
      omega
    rw [h1, h2, h3]
  have hmline : dupPairs ((List.range 8).map (mdiagKey t))
      = dupPairs ((List.range 8).map (fun i => queenPos t i + i)) := by
    have h1 : (List.range 8).map (mdiagKey t)
        = ((List.range 8).map (fun i => queenPos t i + i - 1)).map (pyIdx 16) := by
      rw [List.map_map]; rfl
    have h2 : dupPairs (((List.range 8).map (fun i => queenPos t i + i - 1)).map (pyIdx 16))
        = dupPairs ((List.range 8).map (fun i => queenPos t i + i - 1)) := by
      apply dupPairs_map
      intro x hx y hy hxy
      obtain ⟨i, hi, rfl⟩ := List.mem_map.1 hx
      obtain ⟨j, hj, rfl⟩ := List.mem_map.1 hy
      have hbi := queenPos_bounds hb (List.mem_range.1 hi)
      have hbj := queenPos_bounds hb (List.mem_range.1 hj)
      have hi8 : (i : ℤ) ≤ 7 := by exact_mod_cast Nat.lt_succ_iff.1 (List.mem_range.1 hi)
      have hj8 : (j : ℤ) ≤ 7 := by exact_mod_cast Nat.lt_succ_iff.1 (List.mem_range.1 hj)
      exact pyIdx16_inj (by omega) (by omega) (by omega) (by omega) hxy
    have h3 : dupPairs ((List.range 8).map (fun i => queenPos t i + i - 1))
        = dupPairs ((List.range 8).map (fun i => queenPos t i + i)) := by
      have : (List.range 8).map (fun i => queenPos t i + i - 1)
          = ((List.range 8).map (fun i => queenPos t i + i)).map (fun z => z - 1) := by
        rw [List.map_map]; rfl
      rw [this]
      apply dupPairs_map
      intro x _ y _ h
      omega
    rw [h1, h2, h3]
  have hsline : dupPairs ((List.range 8).map (sdiagKey t))
      = dupPairs ((List.range 8).map (fun i => queenPos t i - i)) := by
    have h1 : (List.range 8).map (sdiagKey t)
        = ((List.range 8).map (fun i => 7 - (queenPos t i - i))).map (pyIdx 16) := by
      rw [List.map_map]
      refine List.map_congr_left fun i _ => ?_
      show pyIdx 16 (8 - queenPos t i + i - 1) = pyIdx 16 (7 - (queenPos t i - i))
      have e : (8 - queenPos t i + (i : ℤ) - 1) = 7 - (queenPos t i - i) := by ring
      rw [e]
    have h2 : dupPairs (((List.range 8).map (fun i => 7 - (queenPos t i - i))).map (pyIdx 16))
        = dupPairs ((List.range 8).map (fun i => 7 - (queenPos t i - i))) := by
      apply dupPairs_map
      intro x hx y hy hxy
      obtain ⟨i, hi, rfl⟩ := List.mem_map.1 hx
      obtain ⟨j, hj, rfl⟩ := List.mem_map.1 hy
      have hbi := queenPos_bounds hb (List.mem_range.1 hi)
      have hbj := queenPos_bounds hb (List.mem_range.1 hj)
      have hi8 : (i : ℤ) ≤ 7 := by exact_mod_cast Nat.lt_succ_iff.1 (List.mem_range.1 hi)
      have hj8 : (j : ℤ) ≤ 7 := by exact_mod_cast Nat.lt_succ_iff.1 (List.mem_range.1 hj)
      have hi0 : (0 : ℤ) ≤ (i : ℤ) := Int.ofNat_nonneg i
      have hj0 : (0 : ℤ) ≤ (j : ℤ) := Int.ofNat_nonneg j
      exact pyIdx16_inj (by omega) (by omega) (by omega) (by omega) hxy
    have h3 : dupPairs ((List.range 8).map (fun i => 7 - (queenPos t i - i)))
        = dupPairs ((List.range 8).map (fun i => queenPos t i - i)) := by
      have : (List.range 8).map (fun i => 7 - (queenPos t i - i))
          = ((List.range 8).map (fun i => queenPos t i - i)).map (fun z => 7 - z) := by
        rw [List.map_map]; rfl
      rw [this]
      apply dupPairs_map
      intro x _ y _ h
      omega
    rw [h1, h2, h3]
  rw [hdup, hrowline, hmline, hsline]
  rfl

/-- Zero spec-conflicts means exactly that the board is non-attacking. -/
theorem specConflicts_eq_zero_iff (t : List ℕ) :
    specConflicts t = 0 ↔ NonAttacking t := by
  unfold specConflicts
  rw [Nat.add_eq_zero, Nat.add_eq_zero, dupPairs_eq_zero_iff, dupPairs_eq_zero_iff,
    dupPairs_eq_zero_iff, List.nodup_map_iff_inj_on (List.nodup_range 8),
    List.nodup_map_iff_inj_on (List.nodup_range 8),
    List.nodup_map_iff_inj_on (List.nodup_range 8)]
  constructor
  · rintro ⟨⟨hr, hm⟩, hs⟩ j hj i hij hat
    have hi8 : i < 8 := lt_trans hij hj
    have hne : i ≠ j := Nat.ne_of_lt hij
    rcases hat with h | h | h
    · exact hne (hr i (List.mem_range.2 hi8) j (List.mem_range.2 hj) h)
    · exact hne (hm i (List.mem_range.2 hi8) j (List.mem_range.2 hj) h)
    · exact hne (hs i (List.mem_range.2 hi8) j (List.mem_range.2 hj) h)
  · intro hNA
    refine ⟨⟨?_, ?_⟩, ?_⟩ <;>
    · intro x hx y hy hxy
      rcases lt_trichotomy x y with h | h | h
      · exact absurd (by unfold attacksAt; tauto)
          (hNA y (List.mem_range.1 hy) x h)
      · exact h
      · exact absurd (by unfold attacksAt; tauto)
          (hNA x (List.mem_range.1 hx) y h)

/-- **C1.** For every individual whose decoded queen positions (all in
`[1,8]`) yield `n` pairwise conflicts — rows, main diagonals and
anti-diagonals counted as `k*(k-1)/2` per occupied line
(`specConflicts`) — the fitness function returns `1/(n+1)`; hence
fitness is always in `(0, 1]` and equals `1` exactly when the board is
non-attacking. -/
theorem fitness_returns_inverse_conflicts (t : List ℕ) (hb : Bounded t) :
    fitnessVal t = 1 / (specConflicts t + 1)
    ∧ 0 < fitnessVal t
    ∧ fitnessVal t ≤ 1
    ∧ (fitnessVal t = 1 ↔ NonAttacking t) := by
  have hc : conflicts t = specConflicts t := conflicts_eq_specConflicts hb
  have hval : fitnessVal t = 1 / (specConflicts t + 1) := by
    unfold fitnessVal
    rw [hc]
  have hpos : (0 : ℚ) < (specConflicts t : ℚ) + 1 := by positivity
  refine ⟨hval, ?_, ?_, ?_⟩
  · rw [hval]
    positivity
  · rw [hval]
    rw [div_le_one hpos]
    have : (0 : ℚ) ≤ (specConflicts t : ℚ) := Nat.cast_nonneg _
    linarith
  · rw [hval, div_eq_one_iff_eq hpos.ne']
    rw [← specConflicts_eq_zero_iff t]
    constructor
    · intro h
      have : ((specConflicts t : ℚ)) = 0 := by linarith
      exact_mod_cast this
    · intro h
      rw [h]
      norm_num

/-- Witness for `fitness_returns_inverse_conflicts` at the known
solution board `[4,2,7,3,6,8,5,1]`. -/
theorem fitness_returns_inverse_conflicts_witness :
    fitnessVal [4,2,7,3,6,8,5,1] = 1 / (specConflicts [4,2,7,3,6,8,5,1] + 1)
    ∧ 0 < fitnessVal [4,2,7,3,6,8,5,1]
    ∧ fitnessVal [4,2,7,3,6,8,5,1] ≤ 1
    ∧ (fitnessVal [4,2,7,3,6,8,5,1] = 1 ↔ NonAttacking [4,2,7,3,6,8,5,1]) :=
  fitness_returns_inverse_conflicts [4,2,7,3,6,8,5,1] (by decide)

theorem binToNat_natBitsRevAux :
    ∀ fuel n, n ≤ fuel → binToNat ((natBitsRevAux fuel n).reverse) = n := by
  intro fuel
  induction fuel with
  | zero =>
    intro n hn
    interval_cases n
    rfl
  | succ f ih =>
    intro n hn
    match n with
    | 0 => rfl
    | m + 1 =>
      rw [show natBitsRevAux (f + 1) (m + 1)
          = ((m + 1) % 2 == 1) :: natBitsRevAux f ((m + 1) / 2) from rfl,
        List.reverse_cons]
      unfold binToNat
      rw [List.foldl_append]
      have hle : (m + 1) / 2 ≤ f := by omega
      have hq := ih ((m + 1) / 2) hle
      unfold binToNat at hq
      rw [hq]
      simp only [List.foldl_cons, List.foldl_nil]
      rcases Nat.mod_two_eq_zero_or_one (m + 1) with h | h <;> simp [h] <;> omega

theorem binToNat_natBitsRev (n : ℕ) : binToNat ((natBitsRev n).reverse) = n :=
  binToNat_natBitsRevAux n n le_rfl

theorem binToNat_cons_false (l : List Bool) : binToNat (false :: l) = binToNat l := rfl

theorem binToNat_replicate_false (k : ℕ) (l : List Bool) :
    binToNat (List.replicate k false ++ l) = binToNat l := by
  induction k with
  | zero => rfl
  | succ k ih => rw [List.replicate_succ, List.cons_append, binToNat_cons_false, ih]

/-- Decoding inverts encoding on every single gene. -/
theorem binToNat_format3b (n : ℕ) : binToNat (format3b n) = n := by
  unfold format3b
  rw [binToNat_replicate_false]
  unfold pyBin
  by_cases h : n = 0
  · subst h; rfl
  · rw [if_neg h, binToNat_natBitsRev]

/-- **C7.** For every valid 8-length permutation `p` of `[1,8]`,
decoding the binary-string encoding of `p` (each gene read as an
unsigned base-2 integer) yields `p` again. -/
theorem decode_encode_roundtrip (p : List ℕ) (hp : p.Perm (List.range' 1 8)) :
    (toBinaryString p).map binToNat = p := by
  unfold toBinaryString
  rw [List.map_map]
  have : binToNat ∘ format3b = id := funext binToNat_format3b
  rw [this, List.map_id]

/-- Witness for `decode_encode_roundtrip` at `[4,2,7,3,6,8,5,1]`. -/
theorem decode_encode_roundtrip_witness :
    (toBinaryString [4,2,7,3,6,8,5,1]).map binToNat = [4,2,7,3,6,8,5,1] :=
  decode_encode_roundtrip [4,2,7,3,6,8,5,1] (by decide)

/-- **C8, counterexample.** The claim says every gene value in `{1..8}`
is encoded in exactly 3 bits; but the encoding of the value 8 is
`'1000'`, which has 4 bits. -/
theorem encoding_of_eight_is_not_3_bits : (format3b 8).length ≠ 3 := by decide

/-- **C8, amended.** The binary encoding of a gene is its unsigned
binary representation padded on the left with zeros to a minimum width
of 3: values `1..7` are encoded in exactly 3 bits and decode back to
themselves, while the value 8 is encoded as the 4-bit string `'1000'`. -/
theorem encoding_minimum_width_3 :
    (∀ v, 1 ≤ v → v ≤ 7 → (format3b v).length = 3 ∧ binToNat (format3b v) = v)
    ∧ format3b 8 = [true, false, false, false] := by
  constructor
  · intro v h1 h7
    interval_cases v <;> exact ⟨by decide, by decide⟩
  · decide

/-- Witness for `encoding_minimum_width_3` at gene value 5. -/
theorem encoding_minimum_width_3_witness :
    (format3b 5).length = 3 ∧ binToNat (format3b 5) = 5 :=
  encoding_minimum_width_3.1 5 (by decide) (by decide)

/-- **C5, counterexample.** The claim says construction must fail when
a probability is outside `[0,1]` or the population size is non-positive;
but with crossover probability 2, mutation probability -3 and population
size -5 (and recognized strategy selectors) construction succeeds. -/
theorem construction_accepts_invalid_numbers :
    (initSGA 2 (-3) (-5) false 1 1 1 1).isOk = true := rfl

theorem setRecombine_isOk (r : ℤ) :
    (setRecombine r).isOk = true ↔ (r = 1 ∨ r = 2 ∨ r = 3 ∨ r = 4) := by
  unfold setRecombine
  split_ifs with h1 h2 h3 h4 <;> simp [Except.isOk, Except.toBool, *]

theorem setMutate_isOk (m : ℤ) :
    (setMutate m).isOk = true ↔ (m = 1 ∨ m = 2 ∨ m = 3 ∨ m = 4) := by
  unfold setMutate
  split_ifs with h1 h2 h3 h4 <;> simp [Except.isOk, Except.toBool, *]

theorem setParentsSel_isOk (p : ℤ) :
    (setParentsSel p).isOk = true ↔ (p = 1 ∨ p = 2) := by
  unfold setParentsSel
  split_ifs with h1 h2 <;> simp [Except.isOk, Except.toBool, *]

theorem setSurvivorsSel_isOk (s : ℤ) :
    (setSurvivorsSel s).isOk = true ↔ (s = 1 ∨ s = 2) := by
  unfold setSurvivorsSel
  split_ifs with h1 h2 <;> simp [Except.isOk, Except.toBool, *]

/-- **C5, amended.** Construction fails exactly when one of the four
strategy selectors is unrecognized; the probabilities and the population
size are accepted without any validation. -/
theorem construction_ok_iff (pc pm : ℚ) (ps : ℤ) (ub : Bool) (r m p s : ℤ) :
    (initSGA pc pm ps ub r m p s).isOk = true ↔
      ((r = 1 ∨ r = 2 ∨ r = 3 ∨ r = 4) ∧ (m = 1 ∨ m = 2 ∨ m = 3 ∨ m = 4)
        ∧ (p = 1 ∨ p = 2) ∧ (s = 1 ∨ s = 2)) := by
  rw [← setRecombine_isOk, ← setMutate_isOk, ← setParentsSel_isOk, ← setSurvivorsSel_isOk]
  unfold initSGA
  rcases setRecombine r with eR | vR <;> rcases setMutate m with eM | vM <;>
    rcases setParentsSel p with eP | vP <;> rcases setSurvivorsSel s with eS | vS <;>
    simp [Except.isOk, Except.toBool, Bind.bind, Except.bind, Pure.pure, Except.pure]

theorem indexOf_lt_length_of_mem {α : Type} [BEq α] [LawfulBEq α] {a : α} {l : List α}
    (h : a ∈ l) : l.indexOf a < l.length := by
  induction l with
  | nil => simp at h
  | cons b t ih =>
    rw [List.indexOf_cons]
    by_cases hba : (b == a) = true
    · simp [hba]
    · rw [Bool.not_eq_true] at hba
      rw [hba, cond_false]
      rcases List.mem_cons.1 h with rfl | ht
      · simp at hba
      · have := ih ht
        simp only [List.length_cons]
        omega

/-- **C10.** When the two selected parents are value-equal, both lookups
find the same slot, the two children are written into it in sequence, so
only the second child survives (the result does not depend on `c1`), and
the population length is unchanged. -/
theorem replace_parents_same_slot (population : List (List ℕ)) (c1 c2 p : List ℕ)
    (hp : p ∈ population) :
    replace_parents_by_childs population c1 c2 p p
      = population.set (population.indexOf p) c2
    ∧ (replace_parents_by_childs population c1 c2 p p).getD (population.indexOf p) [] = c2
    ∧ (replace_parents_by_childs population c1 c2 p p).length = population.length := by
  have hidx : population.indexOf p < population.length := indexOf_lt_length_of_mem hp
  have heq : replace_parents_by_childs population c1 c2 p p
      = population.set (population.indexOf p) c2 := List.set_set _ _ _ _
  refine ⟨heq, ?_, ?_⟩
  · rw [heq, List.getD_eq_getElem?_getD, List.getElem?_set_eq_of_lt c2 hidx]
    rfl
  · rw [heq, List.length_set]

/-- Witness for `replace_parents_same_slot`. -/
theorem replace_parents_same_slot_witness :
    replace_parents_by_childs [[1,2],[3,4]] [9,9] [7,7] [1,2] [1,2]
      = [[1,2],[3,4]].set ([[1,2],[3,4]].indexOf [1,2]) [7,7]
    ∧ (replace_parents_by_childs [[1,2],[3,4]] [9,9] [7,7] [1,2] [1,2]).getD
        ([[1,2],[3,4]].indexOf [1,2]) [] = [7,7]
    ∧ (replace_parents_by_childs [[1,2],[3,4]] [9,9] [7,7] [1,2] [1,2]).length
        = ([[1,2],[3,4]] : List (List ℕ)).length :=
  replace_parents_same_slot [[1,2],[3,4]] [9,9] [7,7] [1,2] (by decide)

/-! ### Permutation-validity toolkit (C2) -/

theorem nodup_range18 : (List.range' 1 8).Nodup := by decide

theorem mem_range18 {x : ℕ} : x ∈ List.range' 1 8 ↔ 1 ≤ x ∧ x < 9 := by
  rw [List.mem_range']
  constructor
  · rintro ⟨i, hi, rfl⟩
    omega
  · intro hx
    exact ⟨x - 1, by omega, by omega⟩

theorem isPerm_length {l : List ℕ} (h : isPerm l) : l.length = 8 := by
  have := h.length_eq
  simpa using this

theorem isPerm_nodup {l : List ℕ} (h : isPerm l) : l.Nodup :=
  h.nodup_iff.2 nodup_range18

theorem isPerm_mem {l : List ℕ} (h : isPerm l) {x : ℕ} :
    x ∈ l ↔ 1 ≤ x ∧ x < 9 := by
  rw [h.mem_iff, mem_range18]

/-- Pigeonhole form of validity: a duplicate-free list of 8 values from
`[1,8]` is a permutation of `[1..8]`. -/
theorem isPerm_of (l : List ℕ) (hlen : l.length = 8) (hnd : l.Nodup)
    (hmem : ∀ x ∈ l, 1 ≤ x ∧ x ≤ 8) : isPerm l := by
  have hsub : l.toFinset ⊆ Finset.Icc 1 8 := by
    intro x hx
    rw [List.mem_toFinset] at hx
    rw [Finset.mem_Icc]
    exact hmem x hx
  have hcard : l.toFinset.card = 8 := by
    rw [List.toFinset_card_of_nodup hnd, hlen]
  have hIcc : (Finset.Icc (1:ℕ) 8).card = 8 := by
    rw [Nat.card_Icc]
  have heq : l.toFinset = Finset.Icc 1 8 :=
    Finset.eq_of_subset_of_card_le hsub (by omega)
  rw [isPerm, List.perm_ext_iff_of_nodup hnd nodup_range18]
  intro a
  rw [mem_range18]
  constructor
  · intro ha
    have : a ∈ Finset.Icc 1 8 := heq ▸ List.mem_toFinset.2 ha
    rw [Finset.mem_Icc] at this
    omega
  · intro ha
    have : a ∈ l.toFinset := heq ▸ Finset.mem_Icc.2 (by omega)
    exact List.mem_toFinset.1 this

theorem cons_set_perm (a : ℕ) : ∀ (t : List ℕ) (m : ℕ), m < t.length →
    (t.getD m 0 :: t.set m a).Perm (a :: t) := by
  intro t
  induction t with
  | nil => intro m hm; simp at hm
  | cons b t' ih =>
    intro m hm
    match m with
    | 0 => exact List.Perm.swap a b t'
    | k + 1 =>
      have hk : k < t'.length := by simpa using hm
      exact ((List.Perm.swap b (t'.getD k 0) (t'.set k a)).trans
        ((ih k hk).cons b)).trans (List.Perm.swap a b t')

theorem swap_set_perm : ∀ (l : List ℕ) (i j : ℕ), i < l.length → j < l.length →
    i ≠ j → ((l.set i (l.getD j 0)).set j (l.getD i 0)).Perm l := by
  intro l
  induction l with
  | nil => intro i j hi _ _; simp at hi
  | cons x t ih =>
    intro i j hi hj hij
    match i, j with
    | 0, 0 => exact absurd rfl hij
    | 0, m + 1 =>
      have hm : m < t.length := by simpa using hj
      show (t.getD m 0 :: t.set m x).Perm (x :: t)
      exact cons_set_perm x t m hm
    | k + 1, 0 =>
      have hk : k < t.length := by simpa using hi
      show (t.getD k 0 :: t.set k x).Perm (x :: t)
      exact cons_set_perm x t k hk
    | k + 1, m + 1 =>
      have hk : k < t.length := by simpa using hi
      have hm : m < t.length := by simpa using hj
      have hkm : k ≠ m := by omega
      show (x :: (t.set k (t.getD m 0)).set m (t.getD k 0)).Perm (x :: t)
      exact (ih k m hk hm hkm).cons x

/-- Slice decomposition `l = l[:i] + l[i:j+1] + l[j+1:]`. -/
theorem take_mid_drop (l : List ℕ) (i j : ℕ) (hij : i ≤ j) :
    l = l.take i ++ ((l.drop i).take (j + 1 - i) ++ l.drop (j + 1)) := by
  have h1 : l = l.take i ++ l.drop i := (List.take_append_drop i l).symm
  have h2 : l.drop i = (l.drop i).take (j + 1 - i) ++ (l.drop i).drop (j + 1 - i) :=
    (List.take_append_drop (j + 1 - i) (l.drop i)).symm
  have h3 : (l.drop i).drop (j + 1 - i) = l.drop (j + 1) := by
    rw [List.drop_drop]
    congr 1
    omega
  rw [h3] at h2
  conv_lhs => rw [h1, h2]

theorem insert_expr_perm (child : List ℕ) (i j : ℕ) (hij : i < j) (hj : j < child.length) :
    (child.take (i+1) ++ [child.getD j 0] ++ (child.drop (i+1)).take (j - (i+1))
      ++ child.drop (j+1)).Perm child := by
  have hdj : child.drop j = child.getD j 0 :: child.drop (j+1) := by
    rw [List.getD_eq_getElem _ _ hj]
    exact List.drop_eq_getElem_cons hj
  have hmid : child.drop (i+1)
      = (child.drop (i+1)).take (j - (i+1)) ++ (child.getD j 0 :: child.drop (j+1)) := by
    conv_lhs => rw [← List.take_append_drop (j - (i+1)) (child.drop (i+1))]
    congr 1
    rw [List.drop_drop, show i + 1 + (j - (i+1)) = j by omega]
    exact hdj
  conv_rhs => rw [← List.take_append_drop (i+1) child, hmid]
  simp only [List.append_assoc, List.singleton_append]
  exact List.Perm.append_left _ List.perm_middle.symm

theorem scramble_expr_perm (child : List ℕ) (i j : ℕ) (hij : i ≤ j) (shuffled : List ℕ)
    (hs : shuffled.Perm ((child.drop i).take (j + 1 - i))) :
    (child.take i ++ shuffled ++ child.drop (j+1)).Perm child := by
  conv_rhs => rw [take_mid_drop child i j hij]
  rw [List.append_assoc]
  exact List.Perm.append_left _ (hs.append_right _)

/-- `swap_mutation` maps valid permutations to valid permutations. -/
theorem swap_mutation_isPerm (u pm : ℚ) {i j : ℕ} (hi : i < 8) (hj : j < 8)
    (hij : i ≠ j) {child : List ℕ} (hc : isPerm child) :
    isPerm (swap_mutation u pm i j child) := by
  unfold swap_mutation
  split_ifs with h
  · exact (swap_set_perm child i j (by rw [isPerm_length hc]; exact hi)
      (by rw [isPerm_length hc]; exact hj) hij).trans hc
  · exact hc

/-- `insert_mutation` maps valid permutations to valid permutations. -/
theorem insert_mutation_isPerm (u pm : ℚ) {i0 j0 : ℕ} (h0 : i0 < 8) (h1 : j0 < 8)
    (hne : i0 ≠ j0) {child : List ℕ} (hc : isPerm child) :
    isPerm (insert_mutation u pm i0 j0 child) := by
  unfold insert_mutation
  split_ifs with h hlt
  · exact (insert_expr_perm child j0 i0 (by omega)
      (by rw [isPerm_length hc]; omega)).trans hc
  · exact (insert_expr_perm child i0 j0 (by omega)
      (by rw [isPerm_length hc]; omega)).trans hc
  · exact hc

/-- `scramble_mutation` maps valid permutations to valid permutations,
for any shuffle of the selected slice. -/
theorem scramble_mutation_isPerm (u pm : ℚ) (i0 j0 : ℕ) {shuffled child : List ℕ}
    (hc : isPerm child)
    (hs : shuffled.Perm ((child.drop (if j0 < i0 then j0 else i0)).take
      ((if j0 < i0 then i0 else j0) + 1 - (if j0 < i0 then j0 else i0)))) :
    isPerm (scramble_mutation u pm i0 j0 shuffled child) := by
  unfold scramble_mutation
  split_ifs with h hlt
  · simp only [if_pos hlt] at hs
    exact (scramble_expr_perm child j0 i0 (by omega) shuffled hs).trans hc
  · simp only [if_neg hlt] at hs
    exact (scramble_expr_perm child i0 j0 (by omega) shuffled hs).trans hc
  · exact hc

/-- `inversion_mutation` maps valid permutations to valid permutations. -/
theorem inversion_mutation_isPerm (u pm : ℚ) (i0 j0 : ℕ) {child : List ℕ}
    (hc : isPerm child) :
    isPerm (inversion_mutation u pm i0 j0 child) := by
  unfold inversion_mutation
  split_ifs with h hlt
  · exact (scramble_expr_perm child j0 i0 (by omega) _ (List.reverse_perm _)).trans hc
  · exact (scramble_expr_perm child i0 j0 (by omega) _ (List.reverse_perm _)).trans hc
  · exact hc

/-! ### Cut-and-crossfill preserves validity -/

theorem foldl_crossfill_eq : ∀ (pb pre : List ℕ), pb.Nodup →
    pb.foldl (fun c x => if x ∈ c then c else c ++ [x]) pre
      = pre ++ pb.filter (fun x => x ∉ pre) := by
  intro pb
  induction pb with
  | nil => intro pre _; simp
  | cons x pb' ih =>
    intro pre hnd
    rw [List.nodup_cons] at hnd
    simp only [List.foldl_cons]
    by_cases hxp : x ∈ pre
    · rw [if_pos hxp, ih pre hnd.2, List.filter_cons]
      simp [hxp]
    · rw [if_neg hxp, ih (pre ++ [x]) hnd.2, List.filter_cons]
      have hpx : (decide (x ∉ pre) : Bool) = true := by simp [hxp]
      rw [if_pos hpx, List.append_assoc, List.singleton_append]
      congr 1
      refine congrArg (List.cons x) (List.filter_congr fun y hy => ?_)
      have hyx : y ≠ x := fun e => hnd.1 (e ▸ hy)
      simp [List.mem_append, hyx]

theorem crossfillChild_isPerm (i : ℕ) {p1 p2 : List ℕ} (h1 : isPerm p1)
    (h2 : isPerm p2) : isPerm (crossfillChild i p1 p2) := by
  unfold crossfillChild
  rw [foldl_crossfill_eq p2 (p1.take i) (isPerm_nodup h2)]
  have hAnd : (p1.take i).Nodup := (List.take_sublist i p1).nodup (isPerm_nodup h1)
  have hperm : (p2.filter (fun x => x ∈ p1.take i)).Perm (p1.take i) := by
    refine (List.perm_ext_iff_of_nodup ((isPerm_nodup h2).filter _) hAnd).2 fun a => ?_
    simp only [List.mem_filter, decide_eq_true_eq]
    constructor
    · exact fun ha => ha.2
    · intro ha
      refine ⟨?_, ha⟩
      have hap1 : a ∈ p1 := (List.take_sublist i p1).mem ha
      rw [isPerm_mem h2]
      rw [isPerm_mem h1] at hap1
      exact hap1
  have hsplit : (p2.filter (fun x => x ∈ p1.take i)
      ++ p2.filter (fun x => x ∉ p1.take i)).Perm p2 := by
    have := List.filter_append_perm (fun x => decide (x ∈ p1.take i)) p2
    simpa [decide_not] using this
  exact ((hperm.symm.append_right _).trans hsplit).trans h2

/-- `cut_and_crossfill_crossover` returns two valid permutations. -/
theorem cut_and_crossfill_isPerm (u pc : ℚ) (i : ℕ) {p1 p2 : List ℕ}
    (h1 : isPerm p1) (h2 : isPerm p2) :
    isPerm (cut_and_crossfill_crossover u pc i p1 p2).1
    ∧ isPerm (cut_and_crossfill_crossover u pc i p1 p2).2 := by
  unfold cut_and_crossfill_crossover
  split_ifs with h
  · exact ⟨crossfillChild_isPerm i h1 h2, crossfillChild_isPerm i h2 h1⟩
  · exact ⟨h1, h2⟩

/-! ### Edge crossover preserves validity -/

theorem getD_mem_of_lt {l : List ℕ} {i : ℕ} (h : i < l.length) (d : ℕ) :
    l.getD i d ∈ l := by
  rw [List.getD_eq_getElem _ _ h]
  exact List.getElem_mem h

theorem getD_pair_mem_of_lt {l : List (ℕ × ℕ)} {i : ℕ} (h : i < l.length)
    (d : ℕ × ℕ) : l.getD i d ∈ l := by
  rw [List.getD_eq_getElem _ _ h]
  exact List.getElem_mem h

theorem firstOccs_subset : ∀ (l : List ℕ), ∀ x ∈ firstOccs l, x ∈ l := by
  intro l
  induction l with
  | nil => intro x hx; exact absurd hx (by simp [firstOccs])
  | cons a t ih =>
    intro x hx
    unfold firstOccs at hx
    rcases List.mem_cons.1 hx with rfl | hx'
    · exact List.mem_cons_self _ _
    · exact List.mem_cons_of_mem a (ih x (List.mem_of_mem_filter hx'))

theorem firstOccs_length_pos {l : List ℕ} (h : 0 < l.length) :
    0 < (firstOccs l).length := by
  cases l with
  | nil => simp at h
  | cons a t => simp [firstOccs]

theorem mostCommon2_fst_mem {l : List ℕ} : ∀ pr ∈ mostCommon2 l, pr.1 ∈ l := by
  intro pr hpr
  unfold mostCommon2 at hpr
  have h1 := List.mem_of_mem_take hpr
  have h2 := (List.perm_insertionSort
    (fun a b : ℕ × ℕ => b.2 ≤ a.2) ((firstOccs l).map (fun x => (x, l.count x)))).mem_iff.1 h1
  obtain ⟨x, hx, rfl⟩ := List.mem_map.1 h2
  exact firstOccs_subset l x hx

theorem mostCommon2_length_pos {l : List ℕ} (h : 0 < l.length) :
    0 < (mostCommon2 l).length := by
  unfold mostCommon2
  rw [List.length_take]
  have hs := (List.perm_insertionSort
    (fun a b : ℕ × ℕ => b.2 ≤ a.2) ((firstOccs l).map (fun x => (x, l.count x)))).length_eq
  rw [List.length_map] at hs
  have := firstOccs_length_pos h
  omega

/-- When `select_next` succeeds it returns a value in `[1,8]` that is
not yet in the child, provided every neighbor list consists of such
values (only the empty-neighbor-list branch fails). -/
theorem selectNext_mem (dT : ℕ) (table : ℕ → List ℕ) (ck : ℕ) (child : List ℕ)
    (htab : ∀ v, ∀ y ∈ table v, (1 ≤ y ∧ y ≤ 8) ∧ y ∉ child) :
    ∀ x, selectNext dT table ck child = some x → (1 ≤ x ∧ x ≤ 8) ∧ x ∉ child := by
  intro x hx
  dsimp only [selectNext] at hx
  split_ifs at hx with h0 h1 h2
  · -- exactly one common edge: head of most_common
    rw [Option.some_inj] at hx
    subst hx
    have hpos := mostCommon2_length_pos h0
    have hmem := mostCommon2_fst_mem _
      (getD_pair_mem_of_lt hpos ((0 : ℕ), (0 : ℕ)))
    exact ⟨(htab _ _ hmem).1, (htab _ _ hmem).2⟩
  · -- several common edges: random pick among most_common
    rw [Option.some_inj] at hx
    subst hx
    have hpos := mostCommon2_length_pos h0
    have hlt : dT % (mostCommon2 (table ck)).length < (mostCommon2 (table ck)).length :=
      Nat.mod_lt _ hpos
    have hmem := mostCommon2_fst_mem _ (getD_pair_mem_of_lt hlt ((0 : ℕ), (0 : ℕ)))
    exact ⟨(htab _ _ hmem).1, (htab _ _ hmem).2⟩
  · -- shortest-list tie-break
    rw [Option.some_inj] at hx
    subst hx
    have hslen : 0 < (List.insertionSort (fun a b : ℕ × ℕ => a.2 ≤ b.2)
        ((table ck).map (fun x => (x, (firstOccs (table x)).length)))).length := by
      rw [(List.perm_insertionSort _ _).length_eq, List.length_map]
      exact h0
    set sorted := List.insertionSort (fun a b : ℕ × ℕ => a.2 ≤ b.2)
      ((table ck).map (fun x => (x, (firstOccs (table x)).length))) with hsorted
    have hhead : sorted.getD 0 (0, 0) ∈ sorted := getD_pair_mem_of_lt hslen _
    have hfpos : 0 < (sorted.filter
        (fun x => x.2 = (sorted.getD 0 (0, 0)).2)).length := by
      have hmemf : sorted.getD 0 (0, 0) ∈ sorted.filter
          (fun x => x.2 = (sorted.getD 0 (0, 0)).2) :=
        List.mem_filter.2 ⟨hhead, by simp⟩
      exact List.length_pos_iff_ne_nil.2 (List.ne_nil_of_mem hmemf)
    have hlt : dT % (sorted.filter
        (fun x => x.2 = (sorted.getD 0 (0, 0)).2)).length
        < (sorted.filter (fun x => x.2 = (sorted.getD 0 (0, 0)).2)).length :=
      Nat.mod_lt _ hfpos
    have hpick := getD_pair_mem_of_lt hlt ((0 : ℕ), (0 : ℕ))
    have hsortmem := List.mem_of_mem_filter hpick
    have hmapmem := (List.perm_insertionSort
      (fun a b : ℕ × ℕ => a.2 ≤ b.2)
      ((table ck).map (fun x => (x, (firstOccs (table x)).length)))).mem_iff.1 hsortmem
    obtain ⟨x, hx, hxeq⟩ := List.mem_map.1 hmapmem
    have : (((sorted.filter (fun x => x.2 = (sorted.getD 0 (0, 0)).2)).getD
        (dT % (sorted.filter (fun x => x.2 = (sorted.getD 0 (0, 0)).2)).length)
        ((0 : ℕ), (0 : ℕ)))).1 = x := by rw [← hxeq]
    rw [this]
    exact ⟨(htab _ _ hx).1, (htab _ _ hx).2⟩

/-- The edge-crossover growing loop yields a permutation whenever it
completes without a `ValueError`, started from a consistent
configuration. -/
theorem edgeLoop_isPerm : ∀ (fuel : ℕ) (ds : ℕ → ℕ) (table : ℕ → List ℕ)
    (curr : ℕ) (child out : List ℕ),
    child.Nodup → (∀ x ∈ child, 1 ≤ x ∧ x ≤ 8) →
    (∀ v, ∀ y ∈ table v, (1 ≤ y ∧ y ≤ 8) ∧ (y ∈ child → y = curr)) →
    child.length ≤ 8 → 8 ≤ child.length + fuel →
    edgeLoop ds 8 fuel table curr child = some out → isPerm out := by
  intro fuel
  induction fuel with
  | zero =>
    intro ds table curr child out hnd hmem _ hle hge hout
    unfold edgeLoop at hout
    rw [Option.some_inj] at hout
    subst hout
    exact isPerm_of child (by omega) hnd hmem
  | succ f ih =>
    intro ds table curr child out hnd hmem htab hle hge hout
    unfold edgeLoop at hout
    split_ifs at hout with hshort
    · dsimp only [] at hout
      have htab' : ∀ v, ∀ y ∈ (fun key => (table key).filter (fun x => x ≠ curr)) v,
          (1 ≤ y ∧ y ≤ 8) ∧ y ∉ child := by
        intro v y hy
        have hyt := List.mem_of_mem_filter hy
        have hyc := List.of_mem_filter hy
        have hne : y ≠ curr := by simpa using hyc
        refine ⟨(htab v y hyt).1, fun hyc' => hne ((htab v y hyt).2 hyc')⟩
      rcases hnxt : selectNext (ds 0)
          (fun key => (table key).filter (fun x => x ≠ curr)) curr child with _ | nxt
      · rw [hnxt] at hout
        exact Option.noConfusion hout
      · rw [hnxt] at hout
        have hsel := selectNext_mem (ds 0)
          (fun key => (table key).filter (fun x => x ≠ curr)) curr child htab' nxt hnxt
        refine ih (fun k => ds (k + 1)) _ _ (child ++ [nxt]) out ?_ ?_ ?_ ?_ ?_ hout
        · rw [List.nodup_append]
          exact ⟨hnd, List.nodup_singleton _, by simpa using fun h => hsel.2 h⟩
        · intro x hx
          rcases List.mem_append.1 hx with hx | hx
          · exact hmem x hx
          · rw [List.mem_singleton] at hx
            subst hx
            exact hsel.1
        · intro v y hy
          have hyt := List.mem_of_mem_filter hy
          have hyc : y ≠ curr := by simpa using List.of_mem_filter hy
          refine ⟨(htab v y hyt).1, fun hyc' => ?_⟩
          rcases List.mem_append.1 hyc' with hy' | hy'
          · exact absurd ((htab v y hyt).2 hy') hyc
          · simpa using hy'
        · rw [List.length_append, List.length_singleton]
          omega
        · rw [List.length_append, List.length_singleton]
          omega
    · rw [Option.some_inj] at hout
      subst hout
      exact isPerm_of child (by omega) hnd hmem

theorem edgeTable_mem {p1 p2 : List ℕ} (h1 : isPerm p1) (h2 : isPerm p2) :
    ∀ v, ∀ y ∈ edgeTable p1 p2 v, 1 ≤ y ∧ y ≤ 8 := by
  intro v y hy
  unfold edgeTable at hy
  split_ifs at hy with hv
  · unfold edgeNeighbors at hy
    have hmem := (List.perm_insertionSort (· ≤ ·) _).mem_iff.1 hy
    have hl1 : 0 < p1.length := by rw [isPerm_length h1]; omega
    have hl2 : 0 < p2.length := by rw [isPerm_length h2]; omega
    simp only [List.mem_cons, List.not_mem_nil, or_false] at hmem
    have hin : y ∈ p1 ∨ y ∈ p2 := by
      rcases hmem with h | h | h | h
      · exact Or.inl (h ▸ getD_mem_of_lt (pyIdx_lt _ hl1 _) 0)
      · exact Or.inl (h ▸ getD_mem_of_lt (Nat.mod_lt _ hl1) 0)
      · exact Or.inr (h ▸ getD_mem_of_lt (pyIdx_lt _ hl2 _) 0)
      · exact Or.inr (h ▸ getD_mem_of_lt (Nat.mod_lt _ hl2) 0)
    rcases hin with h | h
    · have := (isPerm_mem h1).1 h
      omega
    · have := (isPerm_mem h2).1 h
      omega
  · simp at hy

/-- Whenever `edgeChild` completes without a `ValueError`, the child
is a valid permutation. -/
theorem edgeChild_isPerm (ds : ℕ → ℕ) {p1 p2 : List ℕ}
    (h1 : isPerm p1) (h2 : isPerm p2) :
    ∀ c, edgeChild ds p1 p2 = some c → isPerm c := by
  intro c hc
  unfold edgeChild at hc
  rw [isPerm_length h1] at hc
  have he0 : p1.getD (ds 0 % 8) 0 ∈ p1 :=
    getD_mem_of_lt (by rw [isPerm_length h1]; exact Nat.mod_lt _ (by omega)) 0
  have hb := (isPerm_mem h1).1 he0
  refine edgeLoop_isPerm 8 _ _ _ _ c (List.nodup_singleton _) ?_ ?_ (by simp) (by simp) hc
  · intro x hx
    rw [List.mem_singleton] at hx
    subst hx
    omega
  · intro v y hy
    refine ⟨edgeTable_mem h1 h2 v y hy, fun hyc => ?_⟩
    simpa using hyc

/-- Whenever `edge_crossover` completes without a `ValueError`, both
children are valid permutations. -/
theorem edge_crossover_isPerm (u pc : ℚ) (ds1 ds2 : ℕ → ℕ) {p1 p2 : List ℕ}
    (h1 : isPerm p1) (h2 : isPerm p2) :
    ∀ c1 c2, edge_crossover u pc ds1 ds2 p1 p2 = some (c1, c2) →
      isPerm c1 ∧ isPerm c2 := by
  intro c1 c2 hc
  unfold edge_crossover at hc
  split_ifs at hc with h
  · rcases he1 : edgeChild ds1 p1 p2 with _ | d1 <;>
      rcases he2 : edgeChild ds2 p1 p2 with _ | d2 <;>
      rw [he1, he2] at hc
    · exact Option.noConfusion hc
    · exact Option.noConfusion hc
    · exact Option.noConfusion hc
    · have hpair : (d1, d2) = (c1, c2) := Option.some_inj.1 hc
      injection hpair with e1 e2
      subst e1
      subst e2
      exact ⟨edgeChild_isPerm ds1 h1 h2 d1 he1, edgeChild_isPerm ds2 h1 h2 d2 he2⟩
  · have hpair : (p1, p2) = (c1, c2) := Option.some_inj.1 hc
    injection hpair with e1 e2
    subst e1
    subst e2
    exact ⟨h1, h2⟩

theorem getD_set_self {l : List ℕ} {i : ℕ} (h : i < l.length) (v d : ℕ) :
    (l.set i v).getD i d = v := by
  rw [List.getD_eq_getElem?_getD, List.getElem?_set_eq_of_lt v h]
  rfl

theorem getD_set_ne {l : List ℕ} {i j : ℕ} (h : i ≠ j) (v d : ℕ) :
    (l.set i v).getD j d = l.getD j d := by
  rw [List.getD_eq_getElem?_getD, List.getElem?_set_ne h, ← List.getD_eq_getElem?_getD]

theorem nodup_getD_inj {l : List ℕ} (hnd : l.Nodup) {i j : ℕ}
    (hi : i < l.length) (hj : j < l.length) (h : l.getD i 0 = l.getD j 0) : i = j := by
  rw [List.getD_eq_getElem _ _ hi, List.getD_eq_getElem _ _ hj] at h
  have hfin : (⟨i, hi⟩ : Fin l.length) = ⟨j, hj⟩ :=
    List.nodup_iff_injective_get.1 hnd (by simpa [List.get_eq_getElem] using h)
  simpa using congrArg Fin.val hfin

theorem getD_indexOf : ∀ (l : List ℕ) (a : ℕ), a ∈ l →
    l.getD (l.indexOf a) 0 = a := by
  intro l
  induction l with
  | nil => intro a ha; simp at ha
  | cons b t ih =>
    intro a ha
    rw [List.indexOf_cons]
    by_cases hba : (b == a) = true
    · rw [hba, cond_true]
      simpa using hba
    · rw [Bool.not_eq_true] at hba
      rw [hba, cond_false]
      rcases List.mem_cons.1 ha with rfl | ht
      · simp at hba
      · show t.getD (t.indexOf a) 0 = a
        exact ih a ht

theorem cycIdx_lt {p1 p2 : List ℕ} (h1 : isPerm p1) (h2 : isPerm p2) {q : ℕ}
    (hq : q < 8) : cycIdx p1 p2 q < 8 := by
  have hmem : p2.getD q 0 ∈ p2 := getD_mem_of_lt (by rw [isPerm_length h2]; omega) 0
  have hmem1 : p2.getD q 0 ∈ p1 := by
    rw [isPerm_mem h1]
    rw [isPerm_mem h2] at hmem
    exact hmem
  have := indexOf_lt_length_of_mem hmem1
  rw [isPerm_length h1] at this
  exact this

theorem p1_getD_cycIdx {p1 p2 : List ℕ} (h1 : isPerm p1) (h2 : isPerm p2) {q : ℕ}
    (hq : q < 8) : p1.getD (cycIdx p1 p2 q) 0 = p2.getD q 0 := by
  have hmem : p2.getD q 0 ∈ p2 := getD_mem_of_lt (by rw [isPerm_length h2]; omega) 0
  have hmem1 : p2.getD q 0 ∈ p1 := by
    rw [isPerm_mem h1]
    rw [isPerm_mem h2] at hmem
    exact hmem
  exact getD_indexOf p1 _ hmem1

theorem cycIdx_inj {p1 p2 : List ℕ} (h1 : isPerm p1) (h2 : isPerm p2) {q q' : ℕ}
    (hq : q < 8) (hq' : q' < 8) (h : cycIdx p1 p2 q = cycIdx p1 p2 q') : q = q' := by
  have e1 := p1_getD_cycIdx h1 h2 hq
  have e2 := p1_getD_cycIdx h1 h2 hq'
  rw [h, e2] at e1
  exact nodup_getD_inj (isPerm_nodup h2) (by rw [isPerm_length h2]; omega)
    (by rw [isPerm_length h2]; omega) e1.symm

theorem cycIdx_iterate_lt {p1 p2 : List ℕ} (h1 : isPerm p1) (h2 : isPerm p2)
    {s : ℕ} (hs : s < 8) : ∀ k, (cycIdx p1 p2)^[k] s < 8 := by
  intro k
  induction k with
  | zero => simpa using hs
  | succ k ih =>
    rw [Function.iterate_succ_apply']
    exact cycIdx_lt h1 h2 ih

theorem cycIdx_iterate_inj {p1 p2 : List ℕ} (h1 : isPerm p1) (h2 : isPerm p2)
    {x y : ℕ} (hx : x < 8) (hy : y < 8) :
    ∀ a, (cycIdx p1 p2)^[a] x = (cycIdx p1 p2)^[a] y → x = y := by
  intro a
  induction a with
  | zero => simpa using id
  | succ a ih =>
    intro h
    rw [Function.iterate_succ_apply', Function.iterate_succ_apply'] at h
    exact ih (cycIdx_inj h1 h2 (cycIdx_iterate_lt h1 h2 hx a)
      (cycIdx_iterate_lt h1 h2 hy a) h)

/-- Every position returns to itself within 8 steps of the cycle map. -/
theorem cycIdx_return {p1 p2 : List ℕ} (h1 : isPerm p1) (h2 : isPerm p2)
    {s : ℕ} (hs : s < 8) :
    ∃ m, 1 ≤ m ∧ m ≤ 8 ∧ (cycIdx p1 p2)^[m] s = s := by
  have hmaps : ∀ k ∈ Finset.range 9, (cycIdx p1 p2)^[k] s ∈ Finset.range 8 :=
    fun k _ => Finset.mem_range.2 (cycIdx_iterate_lt h1 h2 hs k)
  obtain ⟨a, ha, b, hb, hab, heq⟩ :=
    Finset.exists_ne_map_eq_of_card_lt_of_maps_to
      (by simp : (Finset.range 9).card > (Finset.range 8).card) hmaps
  rw [Finset.mem_range] at ha hb
  rcases Nat.lt_or_ge a b with hlt | hge
  · refine ⟨b - a, by omega, by omega, ?_⟩
    have : (cycIdx p1 p2)^[a] ((cycIdx p1 p2)^[b - a] s) = (cycIdx p1 p2)^[a] s := by
      rw [← Function.iterate_add_apply, show a + (b - a) = b by omega]
      exact heq.symm
    exact cycIdx_iterate_inj h1 h2 (cycIdx_iterate_lt h1 h2 hs _) hs a this
  · have hlt : b < a := by omega
    refine ⟨a - b, by omega, by omega, ?_⟩
    have : (cycIdx p1 p2)^[b] ((cycIdx p1 p2)^[a - b] s) = (cycIdx p1 p2)^[b] s := by
      rw [← Function.iterate_add_apply, show b + (a - b) = a by omega]
      exact heq
    exact cycIdx_iterate_inj h1 h2 (cycIdx_iterate_lt h1 h2 hs _) hs b this

theorem orbitList_succ (sf : ℕ → ℕ) (curr m : ℕ) :
    orbitList sf curr (m + 1) = curr :: orbitList sf (sf curr) m := by
  unfold orbitList
  rw [List.range_succ_eq_map, List.map_cons, List.map_map]
  congr 1

theorem foldl_set_length (f : ℕ → ℕ) : ∀ (L : List ℕ) (c : List ℕ),
    (L.foldl (fun c p => c.set p (f p)) c).length = c.length := by
  intro L
  induction L with
  | nil => intro c; rfl
  | cons a L' ih =>
    intro c
    rw [List.foldl_cons, ih, List.length_set]

theorem foldl_set_getD (f : ℕ → ℕ) : ∀ (L : List ℕ) (c : List ℕ) (q : ℕ),
    (L.foldl (fun c p => c.set p (f p)) c).getD q 0
      = if q ∈ L ∧ q < c.length then f q else c.getD q 0 := by
  intro L
  induction L with
  | nil => intro c q; simp
  | cons p L' ih =>
    intro c q
    rw [List.foldl_cons, ih, List.length_set]
    by_cases hqL : q ∈ L' ∧ q < c.length
    · rw [if_pos hqL, if_pos ⟨by simp [hqL.1], hqL.2⟩]
    · rw [if_neg hqL]
      by_cases hqp : q = p
      · subst hqp
        by_cases hlen : q < c.length
        · rw [getD_set_self hlen, if_pos ⟨by simp, hlen⟩]
        · rw [List.set_eq_of_length_le (by omega), if_neg (by tauto)]
      · rw [getD_set_ne (Ne.symm hqp)]
        refine (if_neg ?_).symm
        rintro ⟨hmem, hlt⟩
        rcases List.mem_cons.1 hmem with h | h
        · exact hqp h
        · exact hqL ⟨h, hlt⟩

theorem cyclicAssign_fst (p1 p2 : List ℕ) (turn pos : ℕ) (cs : List ℕ × List ℕ) :
    (cyclicAssign p1 p2 turn pos cs).1
      = cs.1.set pos ((if turn = 0 then p1 else p2).getD pos 0) := by
  unfold cyclicAssign
  split_ifs <;> rfl

theorem cyclicAssign_snd (p1 p2 : List ℕ) (turn pos : ℕ) (cs : List ℕ × List ℕ) :
    (cyclicAssign p1 p2 turn pos cs).2
      = cs.2.set pos ((if turn = 0 then p2 else p1).getD pos 0) := by
  unfold cyclicAssign
  split_ifs <;> rfl

theorem applyAssigns_fst (p1 p2 : List ℕ) (turn : ℕ) : ∀ (L : List ℕ) (cs : List ℕ × List ℕ),
    (applyAssigns p1 p2 turn L cs).1
      = L.foldl (fun c p => c.set p ((if turn = 0 then p1 else p2).getD p 0)) cs.1 := by
  intro L
  induction L with
  | nil => intro cs; rfl
  | cons a L' ih =>
    intro cs
    show (applyAssigns p1 p2 turn L' (cyclicAssign p1 p2 turn a cs)).1 = _
    rw [ih, cyclicAssign_fst, List.foldl_cons]

theorem applyAssigns_snd (p1 p2 : List ℕ) (turn : ℕ) : ∀ (L : List ℕ) (cs : List ℕ × List ℕ),
    (applyAssigns p1 p2 turn L cs).2
      = L.foldl (fun c p => c.set p ((if turn = 0 then p2 else p1).getD p 0)) cs.2 := by
  intro L
  induction L with
  | nil => intro cs; rfl
  | cons a L' ih =>
    intro cs
    show (applyAssigns p1 p2 turn L' (cyclicAssign p1 p2 turn a cs)).2 = _
    rw [ih, cyclicAssign_snd, List.foldl_cons]

/-- The inner `while` loop of `cyclic_crossover` walks the cycle from
`curr` and assigns every visited position, stopping on return to
`start`. -/
theorem cyclicInner_eq_applyAssigns (p1 p2 : List ℕ) (turn start : ℕ) :
    ∀ (m curr fuel : ℕ) (cs : List ℕ × List ℕ),
      (cycIdx p1 p2)^[m] curr = start →
      (∀ r, r < m → (cycIdx p1 p2)^[r] curr ≠ start) → m ≤ fuel →
      cyclicInner p1 p2 turn start fuel curr cs
        = applyAssigns p1 p2 turn (orbitList (cycIdx p1 p2) curr m) cs := by
  intro m
  induction m with
  | zero =>
    intro curr fuel cs hret _ _
    simp only [Function.iterate_zero_apply] at hret
    subst hret
    cases fuel with
    | zero => rfl
    | succ f =>
      unfold cyclicInner
      rw [if_pos rfl]
      rfl
  | succ m ih =>
    intro curr fuel cs hret hmin hfuel
    have hne : curr ≠ start := by simpa using hmin 0 (by omega)
    cases fuel with
    | zero => omega
    | succ f =>
      unfold cyclicInner
      rw [if_neg hne]
      have hret' : (cycIdx p1 p2)^[m] (cycIdx p1 p2 curr) = start := by
        rw [← Function.iterate_succ_apply]
        exact hret
      have hmin' : ∀ r, r < m → (cycIdx p1 p2)^[r] (cycIdx p1 p2 curr) ≠ start := by
        intro r hr
        rw [← Function.iterate_succ_apply]
        exact hmin (r + 1) (by omega)
      show cyclicInner p1 p2 turn start f (cycIdx p1 p2 curr)
        (cyclicAssign p1 p2 turn curr cs) = _
      rw [ih (cycIdx p1 p2 curr) f (cyclicAssign p1 p2 turn curr cs) hret' hmin'
        (by omega), orbitList_succ]
      rfl

/-- A closed subset of positions is mapped onto itself by the cycle
map. -/
theorem image_cycIdx_eq {p1 p2 : List ℕ} (h1 : isPerm p1) (h2 : isPerm p2)
    {T : Finset ℕ} (hsub : ∀ q ∈ T, q < 8)
    (hclosed : ∀ q ∈ T, cycIdx p1 p2 q ∈ T) :
    Finset.image (cycIdx p1 p2) T = T := by
  refine Finset.eq_of_subset_of_card_le (fun x hx => ?_) (le_of_eq ?_)
  · obtain ⟨q, hq, rfl⟩ := Finset.mem_image.1 hx
    exact hclosed q hq
  · exact (Finset.card_image_of_injOn fun q hq q' hq' h =>
      cycIdx_inj h1 h2 (hsub q hq) (hsub q' hq') h).symm

theorem mem_of_iterate_mem {p1 p2 : List ℕ} (h1 : isPerm p1) (h2 : isPerm p2)
    {S : Finset ℕ} (hsub : ∀ q ∈ S, q < 8)
    (hclosed : ∀ q ∈ S, cycIdx p1 p2 q ∈ S) {s : ℕ} (hs : s < 8) :
    ∀ k, (cycIdx p1 p2)^[k] s ∈ S → s ∈ S := by
  intro k
  induction k with
  | zero => simpa using id
  | succ k ih =>
    intro hmem
    rw [Function.iterate_succ_apply'] at hmem
    have himg := image_cycIdx_eq h1 h2 hsub hclosed
    have : cycIdx p1 p2 ((cycIdx p1 p2)^[k] s) ∈ Finset.image (cycIdx p1 p2) S := by
      rw [himg]
      exact hmem
    obtain ⟨y, hy, hyeq⟩ := Finset.mem_image.1 this
    have : y = (cycIdx p1 p2)^[k] s :=
      cycIdx_inj h1 h2 (hsub y hy) (cycIdx_iterate_lt h1 h2 hs k) hyeq
    exact ih (this ▸ hy)

theorem image_getD_eq_of_closed {p1 p2 : List ℕ} (h1 : isPerm p1) (h2 : isPerm p2)
    {T : Finset ℕ} (hsub : ∀ q ∈ T, q < 8)
    (hclosed : ∀ q ∈ T, cycIdx p1 p2 q ∈ T) :
    Finset.image (fun q => p2.getD q 0) T = Finset.image (fun q => p1.getD q 0) T := by
  have h1' : Finset.image (fun q => p2.getD q 0) T
      = Finset.image ((fun q => p1.getD q 0) ∘ cycIdx p1 p2) T :=
    Finset.image_congr fun q hq => (p1_getD_cycIdx h1 h2 (hsub q hq)).symm
  rw [h1', ← Finset.image_image, image_cycIdx_eq h1 h2 hsub hclosed]

/-- A length-8 list is the table of its `getD` values. -/
theorem eq_map_getD {l : List ℕ} (h : l.length = 8) :
    l = (List.range 8).map (fun q => l.getD q 0) := by
  refine List.ext_getElem (by simp [h]) fun i h1 h2 => ?_
  rw [List.getElem_map, List.getElem_range, List.getD_eq_getElem]

/-- Invariant step for one child list: overwriting the (fresh, closed)
orbit positions with one parent's values preserves the component
invariant. -/
theorem compInv_step {P A : List ℕ} (hP : isPerm P) (hA : isPerm A)
    (c : List ℕ) (S : Finset ℕ) (O : List ℕ)
    (hc : c.length = 8)
    (hzero : ∀ q, q < 8 → (c.getD q 0 ≠ 0 ↔ q ∈ S))
    (hinj : Set.InjOn (fun q => c.getD q 0) ↑S)
    (himg : Finset.image (fun q => c.getD q 0) S = Finset.image (fun q => P.getD q 0) S)
    (hSsub : ∀ q ∈ S, q < 8) (hOsub : ∀ q ∈ O, q < 8)
    (hdisj : ∀ q ∈ O, q ∉ S)
    (himgAP : Finset.image (fun q => A.getD q 0) O.toFinset
      = Finset.image (fun q => P.getD q 0) O.toFinset) :
    (O.foldl (fun l q => l.set q (A.getD q 0)) c).length = 8
    ∧ (∀ q, q < 8 → ((O.foldl (fun l q => l.set q (A.getD q 0)) c).getD q 0 ≠ 0
        ↔ q ∈ S ∪ O.toFinset))
    ∧ Set.InjOn (fun q => (O.foldl (fun l q => l.set q (A.getD q 0)) c).getD q 0)
        ↑(S ∪ O.toFinset)
    ∧ Finset.image (fun q => (O.foldl (fun l q => l.set q (A.getD q 0)) c).getD q 0)
        (S ∪ O.toFinset)
      = Finset.image (fun q => P.getD q 0) (S ∪ O.toFinset) := by
  have hval : ∀ q, (O.foldl (fun l q => l.set q (A.getD q 0)) c).getD q 0
      = if q ∈ O ∧ q < c.length then A.getD q 0 else c.getD q 0 :=
    fun q => foldl_set_getD (fun p => A.getD p 0) O c q
  have hvalO : ∀ q ∈ O, (O.foldl (fun l q => l.set q (A.getD q 0)) c).getD q 0
      = A.getD q 0 := by
    intro q hq
    rw [hval q, if_pos ⟨hq, by rw [hc]; exact hOsub q hq⟩]
  have hvalS : ∀ q, q ∉ O → (O.foldl (fun l q => l.set q (A.getD q 0)) c).getD q 0
      = c.getD q 0 := by
    intro q hq
    rw [hval q, if_neg (by tauto)]
  have hAbound : ∀ q, q < 8 → 1 ≤ A.getD q 0 ∧ A.getD q 0 < 9 := by
    intro q hq
    exact (isPerm_mem hA).1 (getD_mem_of_lt (by rw [isPerm_length hA]; omega) 0)
  have hPbound : ∀ q, q < 8 → 1 ≤ P.getD q 0 ∧ P.getD q 0 < 9 := by
    intro q hq
    exact (isPerm_mem hP).1 (getD_mem_of_lt (by rw [isPerm_length hP]; omega) 0)
  refine ⟨by rw [foldl_set_length, hc], ?_, ?_, ?_⟩
  · intro q hq
    by_cases hqO : q ∈ O
    · rw [hvalO q hqO]
      have := hAbound q hq
      simp only [Finset.mem_union, List.mem_toFinset]
      constructor
      · intro _; exact Or.inr hqO
      · intro _; omega
    · rw [hvalS q hqO]
      rw [hzero q hq]
      simp only [Finset.mem_union, List.mem_toFinset]
      constructor
      · exact Or.inl
      · rintro (h | h)
        · exact h
        · exact absurd h hqO
  · intro q hq q' hq' heq
    have hmem : ∀ x, x ∈ (↑(S ∪ O.toFinset) : Set ℕ) → x ∈ S ∨ x ∈ O := by
      intro x hx
      rcases Finset.mem_union.1 (Finset.mem_coe.1 hx) with h | h
      · exact Or.inl h
      · exact Or.inr (List.mem_toFinset.1 h)
    have hmO : ∀ x, x ∈ S ∨ x ∈ O → x ∈ O ∨ (x ∈ S ∧ x ∉ O) := by
      intro x hx
      by_cases hxO : x ∈ O
      · exact Or.inl hxO
      · rcases hx with hx | hx
        · exact Or.inr ⟨hx, hxO⟩
        · exact absurd hx hxO
    dsimp only [] at heq
    rcases hmO q (hmem q hq) with hqc | hqc <;> rcases hmO q' (hmem q' hq') with hqc' | hqc'
    · -- both on the orbit: parent `A` values, injective
      rw [hvalO q hqc, hvalO q' hqc'] at heq
      exact nodup_getD_inj (isPerm_nodup hA) (by rw [isPerm_length hA]; exact hOsub q hqc)
        (by rw [isPerm_length hA]; exact hOsub q' hqc') heq
    · -- orbit versus old: both values are `P` values at distinct positions
      rw [hvalO q hqc, hvalS q' hqc'.2] at heq
      have e1 : A.getD q 0 ∈ Finset.image (fun q => P.getD q 0) O.toFinset := by
        rw [← himgAP]
        exact Finset.mem_image_of_mem _ (List.mem_toFinset.2 hqc)
      have e2 : c.getD q' 0 ∈ Finset.image (fun q => P.getD q 0) S := by
        rw [← himg]
        exact Finset.mem_image_of_mem _ hqc'.1
      obtain ⟨r, hr, hre⟩ := Finset.mem_image.1 e1
      obtain ⟨r', hr', hre'⟩ := Finset.mem_image.1 e2
      rw [List.mem_toFinset] at hr
      have : r = r' := nodup_getD_inj (isPerm_nodup hP)
        (by rw [isPerm_length hP]; exact hOsub r hr)
        (by rw [isPerm_length hP]; exact hSsub r' hr')
        (by rw [hre, hre', heq])
      exact absurd (this ▸ hr') (hdisj r hr)
    · rw [hvalS q hqc.2, hvalO q' hqc'] at heq
      have e1 : A.getD q' 0 ∈ Finset.image (fun q => P.getD q 0) O.toFinset := by
        rw [← himgAP]
        exact Finset.mem_image_of_mem _ (List.mem_toFinset.2 hqc')
      have e2 : c.getD q 0 ∈ Finset.image (fun q => P.getD q 0) S := by
        rw [← himg]
        exact Finset.mem_image_of_mem _ hqc.1
      obtain ⟨r, hr, hre⟩ := Finset.mem_image.1 e1
      obtain ⟨r', hr', hre'⟩ := Finset.mem_image.1 e2
      rw [List.mem_toFinset] at hr
      have : r = r' := nodup_getD_inj (isPerm_nodup hP)
        (by rw [isPerm_length hP]; exact hOsub r hr)
        (by rw [isPerm_length hP]; exact hSsub r' hr')
        (by rw [hre, hre', heq])
      exact absurd (this ▸ hr') (hdisj r hr)
    · rw [hvalS q hqc.2, hvalS q' hqc'.2] at heq
      exact hinj (Finset.mem_coe.2 hqc.1) (Finset.mem_coe.2 hqc'.1) heq
  · rw [Finset.image_union, Finset.image_union]
    congr 1
    · have e : Finset.image (fun q => (O.foldl (fun l q => l.set q (A.getD q 0)) c).getD q 0) S
          = Finset.image (fun q => c.getD q 0) S :=
        Finset.image_congr fun q hq => hvalS q (fun hO => hdisj q hO hq)
      rw [e, himg]
    · have e : Finset.image
          (fun q => (O.foldl (fun l q => l.set q (A.getD q 0)) c).getD q 0) O.toFinset
          = Finset.image (fun q => A.getD q 0) O.toFinset :=
        Finset.image_congr fun q hq => hvalO q (List.mem_toFinset.1 hq)
      rw [e, himgAP]

theorem mem_orbitList {sf : ℕ → ℕ} {s m q : ℕ} :
    q ∈ orbitList sf s m ↔ ∃ k, k < m ∧ sf^[k] s = q := by
  unfold orbitList
  simp only [List.mem_map, List.mem_range]

theorem orbitList_closed {sf : ℕ → ℕ} {s M : ℕ} (hret : sf^[M + 1] s = s) :
    ∀ q ∈ orbitList sf s (M + 1), sf q ∈ orbitList sf s (M + 1) := by
  intro q hq
  obtain ⟨k, hk, rfl⟩ := mem_orbitList.1 hq
  rcases Nat.lt_or_ge (k + 1) (M + 1) with hlt | hge
  · exact mem_orbitList.2 ⟨k + 1, hlt, Function.iterate_succ_apply' sf k s⟩
  · have hk' : k = M := by omega
    subst hk'
    refine mem_orbitList.2 ⟨0, by omega, ?_⟩
    simp only [Function.iterate_zero_apply]
    have e : sf (sf^[k] s) = sf^[k + 1] s := (Function.iterate_succ_apply' sf k s).symm
    rw [e, hret]

/-- A child whose invariant set has filled all 8 positions is a valid
permutation. -/
theorem isPerm_of_filled {P c : List ℕ} (hP : isPerm P) {S : Finset ℕ}
    (hc : c.length = 8)
    (hinj : Set.InjOn (fun q => c.getD q 0) ↑S)
    (himg : Finset.image (fun q => c.getD q 0) S
      = Finset.image (fun q => P.getD q 0) S)
    (hful : S = Finset.range 8) : isPerm c := by
  subst hful
  refine isPerm_of c hc ?_ ?_
  · rw [eq_map_getD hc]
    refine List.Nodup.map_on ?_ (List.nodup_range _)
    intro x hx y hy h
    exact hinj (Finset.mem_coe.2 (Finset.mem_range.2 (List.mem_range.1 hx)))
      (Finset.mem_coe.2 (Finset.mem_range.2 (List.mem_range.1 hy))) h
  · intro x hx
    obtain ⟨i, hi, hie⟩ := List.mem_iff_getElem.1 hx
    have hx' : c.getD i 0 = x := by rw [List.getD_eq_getElem _ _ hi, hie]
    have hmem : x ∈ Finset.image (fun q => c.getD q 0) (Finset.range 8) :=
      Finset.mem_image.2 ⟨i, Finset.mem_range.2 (by omega), hx'⟩
    rw [himg] at hmem
    obtain ⟨r, hr, hre⟩ := Finset.mem_image.1 hmem
    rw [Finset.mem_range] at hr
    have hxP : x ∈ P := by
      rw [← hre]
      exact getD_mem_of_lt (by rw [isPerm_length hP]; omega) 0
    have := (isPerm_mem hP).1 hxP
    omega

/-- One pass of the outer loop: overwriting a fresh closed orbit `O`
(containing the start position) with parent values extends both
children's invariants from `S` to `S ∪ O` and strictly grows the
filled set. -/
theorem outer_step_inv {p1 p2 : List ℕ} (h1 : isPerm p1) (h2 : isPerm p2)
    (cs : List ℕ × List ℕ) (S : Finset ℕ) (turn : ℕ) (O : List ℕ) (start : ℕ)
    (hI1 : CompInv p1 cs.1 S) (hI2 : CompInv p1 cs.2 S)
    (hsub : ∀ q ∈ S, q < 8) (hclosed : ∀ q ∈ S, cycIdx p1 p2 q ∈ S)
    (hOsub : ∀ q ∈ O, q < 8)
    (hOclosed : ∀ q ∈ O, cycIdx p1 p2 q ∈ O)
    (hdisjO : ∀ q ∈ O, q ∉ S)
    (hstartO : start ∈ O) (hstartS : start ∉ S) :
    CompInv p1 (applyAssigns p1 p2 turn O cs).1 (S ∪ O.toFinset)
    ∧ CompInv p1 (applyAssigns p1 p2 turn O cs).2 (S ∪ O.toFinset)
    ∧ (∀ q ∈ S ∪ O.toFinset, q < 8)
    ∧ (∀ q ∈ S ∪ O.toFinset, cycIdx p1 p2 q ∈ S ∪ O.toFinset)
    ∧ S.card + 1 ≤ (S ∪ O.toFinset).card := by
  obtain ⟨hc1, hz1, hi1, hm1⟩ := hI1
  obtain ⟨hc2, hz2, hi2, hm2⟩ := hI2
  have hOsubF : ∀ q ∈ O.toFinset, q < 8 := fun q hq => hOsub q (List.mem_toFinset.1 hq)
  have hOclosedF : ∀ q ∈ O.toFinset, cycIdx p1 p2 q ∈ O.toFinset :=
    fun q hq => List.mem_toFinset.2 (hOclosed q (List.mem_toFinset.1 hq))
  have hA1 : isPerm (if turn = 0 then p1 else p2) := by
    split_ifs
    exacts [h1, h2]
  have hA2 : isPerm (if turn = 0 then p2 else p1) := by
    split_ifs
    exacts [h2, h1]
  have himgO1 : Finset.image (fun q => (if turn = 0 then p1 else p2).getD q 0) O.toFinset
      = Finset.image (fun q => p1.getD q 0) O.toFinset := by
    split_ifs with ht
    · rfl
    · exact image_getD_eq_of_closed h1 h2 hOsubF hOclosedF
  have himgO2 : Finset.image (fun q => (if turn = 0 then p2 else p1).getD q 0) O.toFinset
      = Finset.image (fun q => p1.getD q 0) O.toFinset := by
    split_ifs with ht
    · exact image_getD_eq_of_closed h1 h2 hOsubF hOclosedF
    · rfl
  have hS1 := compInv_step h1 hA1 cs.1 S O hc1 hz1 hi1 hm1 hsub hOsub hdisjO himgO1
  have hS2 := compInv_step h1 hA2 cs.2 S O hc2 hz2 hi2 hm2 hsub hOsub hdisjO himgO2
  refine ⟨?_, ?_, ?_, ?_, ?_⟩
  · rw [CompInv, applyAssigns_fst]
    exact hS1
  · rw [CompInv, applyAssigns_snd]
    exact hS2
  · intro q hq
    rcases Finset.mem_union.1 hq with h | h
    · exact hsub q h
    · exact hOsubF q h
  · intro q hq
    rcases Finset.mem_union.1 hq with h | h
    · exact Finset.mem_union_left _ (hclosed q h)
    · exact Finset.mem_union_right _ (hOclosedF q h)
  · have hins : insert start S ⊆ S ∪ O.toFinset := by
      intro x hx
      rcases Finset.mem_insert.1 hx with rfl | hx
      · exact Finset.mem_union_right _ (List.mem_toFinset.2 hstartO)
      · exact Finset.mem_union_left _ hx
    have hle := Finset.card_le_card hins
    rw [Finset.card_insert_of_not_mem hstartS] at hle
    omega

/-- Outer-loop induction for `cyclic_crossover`: from any state
satisfying the invariant, with enough fuel for the unfilled positions,
both children come out as valid permutations. -/
theorem cyclicOuter_perm {p1 p2 : List ℕ} (h1 : isPerm p1) (h2 : isPerm p2) :
    ∀ (fuel turn : ℕ) (cs : List ℕ × List ℕ) (S : Finset ℕ),
      CompInv p1 cs.1 S → CompInv p1 cs.2 S →
      (∀ q ∈ S, q < 8) → (∀ q ∈ S, cycIdx p1 p2 q ∈ S) →
      8 ≤ S.card + fuel →
      isPerm (cyclicOuter p1 p2 fuel turn cs).1
      ∧ isPerm (cyclicOuter p1 p2 fuel turn cs).2 := by
  intro fuel
  induction fuel with
  | zero =>
    intro turn cs S hI1 hI2 hsub hclosed hcard
    obtain ⟨hc1, hz1, hi1, hm1⟩ := hI1
    obtain ⟨hc2, hz2, hi2, hm2⟩ := hI2
    have hful : S = Finset.range 8 := by
      refine Finset.eq_of_subset_of_card_le (fun q hq => Finset.mem_range.2 (hsub q hq)) ?_
      simpa using hcard
    exact ⟨isPerm_of_filled h1 hc1 hi1 hm1 hful, isPerm_of_filled h1 hc2 hi2 hm2 hful⟩
  | succ fuel ih =>
    intro turn cs S hI1 hI2 hsub hclosed hcard
    obtain ⟨hc1, hz1, hi1, hm1⟩ := hI1
    obtain ⟨hc2, hz2, hi2, hm2⟩ := hI2
    by_cases hguard : 0 ∈ cs.1 ∨ 0 ∈ cs.2
    · -- a zero slot is left: the first child always still holds one
      have h0mem : 0 ∈ cs.1 := by
        rcases hguard with h | h
        · exact h
        · obtain ⟨i, hi, hie⟩ := List.mem_iff_getElem.1 h
          have hi8 : i < 8 := by rw [hc2] at hi; omega
          have h0 : cs.2.getD i 0 = 0 := by rw [List.getD_eq_getElem _ _ hi, hie]
          have hiS : i ∉ S := fun hmem => ((hz2 i hi8).2 hmem) h0
          have h01 : cs.1.getD i 0 = 0 := by
            by_contra hne
            exact hiS ((hz1 i hi8).1 hne)
          rw [← h01]
          exact getD_mem_of_lt (by omega) 0
      have hstart8 : cs.1.indexOf 0 < 8 := by
        have := indexOf_lt_length_of_mem h0mem
        omega
      have hstart0 : cs.1.getD (cs.1.indexOf 0) 0 = 0 := getD_indexOf cs.1 0 h0mem
      have hstartS : cs.1.indexOf 0 ∉ S :=
        fun hmem => ((hz1 _ hstart8).2 hmem) hstart0
      have hex : ∃ m, (cycIdx p1 p2)^[m + 1] (cs.1.indexOf 0) = cs.1.indexOf 0 := by
        obtain ⟨m, hm1', hm8, hmret⟩ := cycIdx_return h1 h2 hstart8
        exact ⟨m - 1, by rw [show m - 1 + 1 = m by omega]; exact hmret⟩
      have hret : (cycIdx p1 p2)^[Nat.find hex + 1] (cs.1.indexOf 0) = cs.1.indexOf 0 :=
        Nat.find_spec hex
      have hmin : ∀ k, k < Nat.find hex →
          (cycIdx p1 p2)^[k + 1] (cs.1.indexOf 0) ≠ cs.1.indexOf 0 :=
        fun k hk => Nat.find_min hex hk
      have hM7 : Nat.find hex ≤ 7 := by
        obtain ⟨m, hm1', hm8, hmret⟩ := cycIdx_return h1 h2 hstart8
        have hle : Nat.find hex ≤ m - 1 :=
          Nat.find_min' hex (by rw [show m - 1 + 1 = m by omega]; exact hmret)
        omega
      have hstep : cyclicOuter p1 p2 (fuel + 1) turn cs
          = cyclicOuter p1 p2 fuel ((turn + 1) % 2)
            (cyclicInner p1 p2 turn (cs.1.indexOf 0) 8
              (p1.indexOf (p2.getD (cs.1.indexOf 0) 0))
              (cyclicAssign p1 p2 turn (cs.1.indexOf 0) cs)) := by
        conv_lhs => unfold cyclicOuter
        rw [if_pos hguard]
      have hinner : cyclicInner p1 p2 turn (cs.1.indexOf 0) 8
            (p1.indexOf (p2.getD (cs.1.indexOf 0) 0))
            (cyclicAssign p1 p2 turn (cs.1.indexOf 0) cs)
          = applyAssigns p1 p2 turn
              (orbitList (cycIdx p1 p2) (cs.1.indexOf 0) (Nat.find hex + 1)) cs := by
        have h1' : (cycIdx p1 p2)^[Nat.find hex] (cycIdx p1 p2 (cs.1.indexOf 0))
            = cs.1.indexOf 0 := by
          rw [← Function.iterate_succ_apply]
          exact hret
        have h2' : ∀ r, r < Nat.find hex →
            (cycIdx p1 p2)^[r] (cycIdx p1 p2 (cs.1.indexOf 0)) ≠ cs.1.indexOf 0 := by
          intro r hr
          rw [← Function.iterate_succ_apply]
          exact hmin r hr
        show cyclicInner p1 p2 turn (cs.1.indexOf 0) 8
            (cycIdx p1 p2 (cs.1.indexOf 0))
            (cyclicAssign p1 p2 turn (cs.1.indexOf 0) cs) = _
        rw [cyclicInner_eq_applyAssigns p1 p2 turn (cs.1.indexOf 0) (Nat.find hex)
          (cycIdx p1 p2 (cs.1.indexOf 0)) 8
          (cyclicAssign p1 p2 turn (cs.1.indexOf 0) cs) h1' h2' (by omega),
          orbitList_succ]
        rfl
      have hOsub : ∀ q ∈ orbitList (cycIdx p1 p2) (cs.1.indexOf 0) (Nat.find hex + 1),
          q < 8 := by
        intro q hq
        obtain ⟨k, hk, rfl⟩ := mem_orbitList.1 hq
        exact cycIdx_iterate_lt h1 h2 hstart8 k
      have hOclosed := orbitList_closed hret
      have hstartO : cs.1.indexOf 0
          ∈ orbitList (cycIdx p1 p2) (cs.1.indexOf 0) (Nat.find hex + 1) :=
        mem_orbitList.2 ⟨0, by omega, rfl⟩
      have hdisjO : ∀ q ∈ orbitList (cycIdx p1 p2) (cs.1.indexOf 0) (Nat.find hex + 1),
          q ∉ S := by
        intro q hq hqS
        obtain ⟨k, hk, rfl⟩ := mem_orbitList.1 hq
        exact hstartS (mem_of_iterate_mem h1 h2 hsub hclosed hstart8 k hqS)
      obtain ⟨hI1', hI2', hsub', hclosed', hcard'⟩ :=
        outer_step_inv h1 h2 cs S turn
          (orbitList (cycIdx p1 p2) (cs.1.indexOf 0) (Nat.find hex + 1))
          (cs.1.indexOf 0) ⟨hc1, hz1, hi1, hm1⟩ ⟨hc2, hz2, hi2, hm2⟩
          hsub hclosed hOsub hOclosed hdisjO hstartO hstartS
      rw [hstep, hinner]
      exact ih ((turn + 1) % 2) _ _ hI1' hI2' hsub' hclosed' (by omega)
    · -- the loop exits: both children are fully assigned
      have hdone : cyclicOuter p1 p2 (fuel + 1) turn cs = cs := by
        unfold cyclicOuter
        rw [if_neg hguard]
      have hno1 : 0 ∉ cs.1 := fun h => hguard (Or.inl h)
      have hful : S = Finset.range 8 := by
        refine Finset.Subset.antisymm (fun q hq => Finset.mem_range.2 (hsub q hq)) ?_
        intro q hq
        rw [Finset.mem_range] at hq
        refine (hz1 q hq).1 ?_
        intro h0
        exact hno1 (by rw [← h0]; exact getD_mem_of_lt (by omega) 0)
      rw [hdone]
      exact ⟨isPerm_of_filled h1 hc1 hi1 hm1 hful, isPerm_of_filled h1 hc2 hi2 hm2 hful⟩

theorem replicate_getD (q : ℕ) : (List.replicate 8 (0 : ℕ)).getD q 0 = 0 := by
  rw [List.getD_eq_getElem?_getD]
  rcases h : (List.replicate 8 (0 : ℕ))[q]? with _ | v
  · rfl
  · have hv : v ∈ List.replicate 8 (0 : ℕ) := List.getElem?_mem h
    have hv0 : v = 0 := List.eq_of_mem_replicate hv
    simp [hv0]

/-- `cyclic_crossover` preserves validity of both children. -/
theorem cyclic_crossover_isPerm {p1 p2 : List ℕ} (u pc : ℚ)
    (h1 : isPerm p1) (h2 : isPerm p2) :
    isPerm (cyclic_crossover u pc p1 p2).1
    ∧ isPerm (cyclic_crossover u pc p1 p2).2 := by
  unfold cyclic_crossover
  split_ifs with hu
  · have hinit : CompInv p1 (List.replicate 8 (0 : ℕ)) (∅ : Finset ℕ) := by
      refine ⟨by simp, ?_, ?_, by simp⟩
      · intro q hq
        rw [replicate_getD]
        simp
      · rw [Finset.coe_empty]
        exact Set.injOn_empty _
    refine cyclicOuter_perm h1 h2 8 0 (List.replicate 8 0, List.replicate 8 0) ∅
      hinit hinit ?_ ?_ ?_
    · intro q hq
      exact absurd hq (Finset.not_mem_empty q)
    · intro q hq
      exact absurd hq (Finset.not_mem_empty q)
    · simp
  · exact ⟨h1, h2⟩

/-! ### PMX crossover preserves validity -/

theorem segList_length {p : List ℕ} (hp : p.length = 8) {j : ℕ} (hj : j < 8) (i : ℕ) :
    (segList p i j).length = j + 1 - i := by
  unfold segList
  rw [List.length_take, List.length_drop, hp]
  omega

theorem segList_getD {p : List ℕ} (hp : p.length = 8) {i j r : ℕ} (hj : j < 8)
    (hr : r < j + 1 - i) : (segList p i j).getD r 0 = p.getD (i + r) 0 := by
  rw [List.getD_eq_getElem _ _ (by rw [segList_length hp hj]; omega),
    List.getD_eq_getElem _ _ (by rw [hp]; omega)]
  unfold segList
  rw [List.getElem_take, List.getElem_drop]

theorem segList_sublist (p : List ℕ) (i j : ℕ) : (segList p i j).Sublist p :=
  ((p.drop i).take_sublist _).trans (p.drop_sublist i)

theorem mem_segList {p : List ℕ} (hp : p.length = 8) {i j : ℕ} (hij : i ≤ j)
    (hj : j < 8) {x : ℕ} :
    x ∈ segList p i j ↔ ∃ q, i ≤ q ∧ q ≤ j ∧ p.getD q 0 = x := by
  constructor
  · intro hx
    obtain ⟨r, hr, hre⟩ := List.mem_iff_getElem.1 hx
    have hr' : r < j + 1 - i := by rw [segList_length hp hj] at hr; omega
    refine ⟨i + r, by omega, by omega, ?_⟩
    rw [← segList_getD hp hj hr', List.getD_eq_getElem _ _ hr]
    exact hre
  · rintro ⟨q, h1, h2, rfl⟩
    have hq : q - i < j + 1 - i := by omega
    have : (segList p i j).getD (q - i) 0 = p.getD q 0 := by
      rw [segList_getD hp hj hq, show i + (q - i) = q by omega]
    rw [← this]
    exact getD_mem_of_lt (by rw [segList_length hp hj]; omega) 0

/-- For a valid permutation, a board value lies in its own slice iff
its position lies in the cut window. -/
theorem getD_self_mem_segList_iff {p : List ℕ} (hp : isPerm p) {i j q : ℕ}
    (hij : i ≤ j) (hj : j < 8) (hq : q < 8) :
    p.getD q 0 ∈ segList p i j ↔ (i ≤ q ∧ q ≤ j) := by
  constructor
  · intro hx
    obtain ⟨q', h1, h2, he⟩ := (mem_segList (isPerm_length hp) hij hj).1 hx
    have : q' = q := nodup_getD_inj (isPerm_nodup hp)
      (by rw [isPerm_length hp]; omega) (by rw [isPerm_length hp]; omega) he
    omega
  · intro ⟨h1, h2⟩
    exact (mem_segList (isPerm_length hp) hij hj).2 ⟨q, h1, h2, rfl⟩

/-- Skipping branches of a fold are dropped by filtering the index
list. -/
theorem foldl_ite_skip {α : Type} (P : ℕ → Prop) [DecidablePred P] (g : α → ℕ → α) :
    ∀ (L : List ℕ) (c : α),
      L.foldl (fun c k => if P k then c else g c k) c
        = (L.filter (fun k => decide (¬ P k))).foldl g c := by
  intro L
  induction L with
  | nil => intro c; rfl
  | cons a L' ih =>
    intro c
    rw [List.foldl_cons]
    by_cases hP : P a
    · rw [if_pos hP, ih c]
      have he : (a :: L').filter (fun k => decide (¬ P k))
          = L'.filter (fun k => decide (¬ P k)) := by
        simp [hP]
      rw [he]
    · rw [if_neg hP]
      have he : (a :: L').filter (fun k => decide (¬ P k))
          = a :: L'.filter (fun k => decide (¬ P k)) := by
        simp [hP]
      rw [he, List.foldl_cons]
      exact ih (g c a)

theorem foldl_set_map_length (t v : ℕ → ℕ) : ∀ (W : List ℕ) (c : List ℕ),
    (W.foldl (fun c k => c.set (t k) (v k)) c).length = c.length := by
  intro W
  induction W with
  | nil => intro c; rfl
  | cons a W' ih =>
    intro c
    rw [List.foldl_cons, ih, List.length_set]

theorem foldl_set_map_getD_notin (t v : ℕ → ℕ) : ∀ (W : List ℕ) (c : List ℕ) (q : ℕ),
    (∀ k ∈ W, t k ≠ q) →
    (W.foldl (fun c k => c.set (t k) (v k)) c).getD q 0 = c.getD q 0 := by
  intro W
  induction W with
  | nil => intro c q _; rfl
  | cons a W' ih =>
    intro c q hne
    rw [List.foldl_cons, ih _ q (fun k hk => hne k (List.mem_cons.2 (Or.inr hk))),
      getD_set_ne (hne a (List.mem_cons_self a W'))]

theorem foldl_set_map_getD_mem (t v : ℕ → ℕ) : ∀ (W : List ℕ) (c : List ℕ) (k : ℕ),
    k ∈ W → (∀ k' ∈ W, t k' = t k → k' = k) → t k < c.length →
    (W.foldl (fun c k => c.set (t k) (v k)) c).getD (t k) 0 = v k := by
  intro W
  induction W with
  | nil => intro c k hk; simp at hk
  | cons a W' ih =>
    intro c k hk hinj hlt
    rw [List.foldl_cons]
    by_cases hkW : k ∈ W'
    · exact ih _ k hkW (fun k' hk' => hinj k' (List.mem_cons.2 (Or.inr hk')))
        (by rw [List.length_set]; exact hlt)
    · have hak : a = k := by
        rcases List.mem_cons.1 hk with h | h
        · exact h.symm
        · exact absurd h hkW
      subst hak
      rw [foldl_set_map_getD_notin t v W' _ (t a) ?_, getD_set_self hlt]
      intro k' hk' he
      exact hkW ((hinj k' (List.mem_cons.2 (Or.inr hk')) he) ▸ hk')

theorem foldl_fill_length (p2 : List ℕ) : ∀ (L : List ℕ) (c : List ℕ),
    (L.foldl (fun c k => if c.getD k 0 = 0 then c.set k (p2.getD k 0) else c) c).length
      = c.length := by
  intro L
  induction L with
  | nil => intro c; rfl
  | cons a L' ih =>
    intro c
    rw [List.foldl_cons, ih]
    split_ifs with h
    · rw [List.length_set]
    · rfl

theorem foldl_fill_getD (p2 : List ℕ) : ∀ (L : List ℕ) (c : List ℕ) (q : ℕ), L.Nodup →
    ((L.foldl (fun c k => if c.getD k 0 = 0 then c.set k (p2.getD k 0) else c) c).getD q 0)
      = if q ∈ L ∧ q < c.length ∧ c.getD q 0 = 0 then p2.getD q 0 else c.getD q 0 := by
  intro L
  induction L with
  | nil => intro c q _; simp
  | cons a L' ih =>
    intro c q hnd
    have hnd' : L'.Nodup := (List.nodup_cons.1 hnd).2
    have haL' : a ∉ L' := (List.nodup_cons.1 hnd).1
    rw [List.foldl_cons, ih _ q hnd']
    by_cases hqa : q = a
    · subst hqa
      have hqL' : q ∉ L' := haL'
      rw [if_neg (by tauto)]
      by_cases h0 : c.getD q 0 = 0
      · rw [if_pos h0]
        by_cases hlen : q < c.length
        · rw [getD_set_self hlen, if_pos ⟨List.mem_cons_self q L', hlen, h0⟩]
        · rw [List.set_eq_of_length_le (by omega), if_neg (by tauto)]
      · rw [if_neg h0, if_neg (by tauto)]
    · have hstep : (if c.getD a 0 = 0 then c.set a (p2.getD a 0) else c).getD q 0
          = c.getD q 0 := by
        split_ifs with h0
        · exact getD_set_ne (fun h => hqa h.symm) _ _
        · rfl
      have hlen : (if c.getD a 0 = 0 then c.set a (p2.getD a 0) else c).length
          = c.length := by
        split_ifs with h0
        · rw [List.length_set]
        · rfl
      rw [hstep, hlen]
      by_cases hq : q ∈ L' ∧ q < c.length ∧ c.getD q 0 = 0
      · rw [if_pos hq, if_pos ⟨List.mem_cons.2 (Or.inr hq.1), hq.2⟩]
      · rw [if_neg hq]
        refine (if_neg ?_).symm
        rintro ⟨hmem, hrest⟩
        rcases List.mem_cons.1 hmem with h | h
        · exact hqa h
        · exact hq ⟨h, hrest⟩

theorem pmxInit_getD (p1 : List ℕ) (i j q : ℕ) :
    (pmxInit p1 i j).getD q 0
      = if q < 8 ∧ i ≤ q ∧ q ≤ j then p1.getD q 0 else 0 := by
  rcases Nat.lt_or_ge q 8 with hq | hq
  · rw [List.getD_eq_getElem _ _ (by simp [pmxInit]; omega)]
    unfold pmxInit
    rw [List.getElem_map, List.getElem_range]
    by_cases hw : i ≤ q ∧ q ≤ j
    · rw [if_pos hw, if_pos ⟨hq, hw⟩]
    · rw [if_neg hw, if_neg (by tauto)]
  · rw [List.getD_eq_default _ _ (by simp [pmxInit]; omega), if_neg (by omega)]

/-- The placement loop, rewritten over the filtered list of segment
positions whose `p2` value escapes `p1`'s slice. -/
theorem pmxPlace_eq (p1 p2 : List ℕ) (i j : ℕ) (c : List ℕ) :
    pmxPlace p1 p2 i j c
      = ((List.range' i (j + 1 - i)).filter
          (fun k => decide (p2.getD k 0 ∉ segList p1 i j))).foldl
          (fun c k => c.set (pmxTarget p1 p2 i j 8 k) (p2.getD k 0)) c := by
  unfold pmxPlace
  exact foldl_ite_skip (fun k => p2.getD k 0 ∈ segList p1 i j) _ _ c

theorem mem_pmxW {p1 p2 : List ℕ} {i j : ℕ} (hij : i ≤ j) {k : ℕ} :
    k ∈ (List.range' i (j + 1 - i)).filter
        (fun k => decide (p2.getD k 0 ∉ segList p1 i j))
      ↔ (i ≤ k ∧ k ≤ j ∧ p2.getD k 0 ∉ segList p1 i j) := by
  simp only [List.mem_filter, List.mem_range'_1, decide_eq_true_eq]
  constructor
  · rintro ⟨⟨h1, h2⟩, h3⟩
    exact ⟨h1, by omega, h3⟩
  · rintro ⟨h1, h2, h3⟩
    exact ⟨⟨h1, by omega⟩, h3⟩

/-- Positions along the PMX chase chain, as long as the chased values
stay inside `p2`'s slice, remain inside the cut window. -/
theorem chain_interior {p1 p2 : List ℕ} (h1 : isPerm p1) (h2 : isPerm p2)
    {i j k N : ℕ} (hij : i ≤ j) (hj : j < 8) (hki : i ≤ k) (hkj : k ≤ j)
    (hmem : ∀ r, r < N → p1.getD ((cycIdx p2 p1)^[r] k) 0 ∈ segList p2 i j) :
    ∀ r, r ≤ N → i ≤ (cycIdx p2 p1)^[r] k ∧ (cycIdx p2 p1)^[r] k ≤ j := by
  have hk8 : k < 8 := by omega
  intro r
  induction r with
  | zero =>
    intro _
    exact ⟨hki, hkj⟩
  | succ r ih =>
    intro hr
    have hprev := hmem r (by omega)
    have hpos : (cycIdx p2 p1)^[r + 1] k < 8 := cycIdx_iterate_lt h2 h1 hk8 (r + 1)
    have he : p2.getD ((cycIdx p2 p1)^[r + 1] k) 0
        = p1.getD ((cycIdx p2 p1)^[r] k) 0 := by
      rw [Function.iterate_succ_apply']
      exact p1_getD_cycIdx h2 h1 (cycIdx_iterate_lt h2 h1 hk8 r)
    exact (getD_self_mem_segList_iff h2 hij hj hpos).1 (by rw [he]; exact hprev)

/-- The PMX chase escapes `p2`'s slice in at most 7 steps: otherwise
the whole cycle of the start position would sit inside the window and
carry its own `p2` value into `p1`'s slice. -/
theorem pmx_escape {p1 p2 : List ℕ} (h1 : isPerm p1) (h2 : isPerm p2)
    {i j k : ℕ} (hij : i ≤ j) (hj : j < 8) (hki : i ≤ k) (hkj : k ≤ j)
    (hk2 : p2.getD k 0 ∉ segList p1 i j) :
    ∃ N, N ≤ 7 ∧ p1.getD ((cycIdx p2 p1)^[N] k) 0 ∉ segList p2 i j := by
  by_contra hall
  push_neg at hall
  have hk8 : k < 8 := by omega
  obtain ⟨m, hm1, hm8, hret⟩ := cycIdx_return h2 h1 hk8
  have hmem : ∀ r, r < m - 1 → p1.getD ((cycIdx p2 p1)^[r] k) 0 ∈ segList p2 i j :=
    fun r hr => hall r (by omega)
  have hlast := chain_interior h1 h2 hij hj hki hkj hmem (m - 1) le_rfl
  have he : p2.getD k 0 = p1.getD ((cycIdx p2 p1)^[m - 1] k) 0 := by
    conv_lhs => rw [← hret, show m = (m - 1) + 1 by omega, Function.iterate_succ_apply']
    exact p1_getD_cycIdx h2 h1 (cycIdx_iterate_lt h2 h1 hk8 (m - 1))
  refine hk2 ?_
  rw [he]
  exact (getD_self_mem_segList_iff h1 hij hj
    (cycIdx_iterate_lt h2 h1 hk8 (m - 1))).2 hlast

/-- `pmxTarget` with enough fuel is one step past the first escaping
chain position. -/
theorem pmxTarget_eq (p1 p2 : List ℕ) (i j : ℕ) :
    ∀ (N fuel t : ℕ),
      (∀ r, r < N → p1.getD ((cycIdx p2 p1)^[r] t) 0 ∈ segList p2 i j) →
      p1.getD ((cycIdx p2 p1)^[N] t) 0 ∉ segList p2 i j → N < fuel →
      pmxTarget p1 p2 i j fuel t = (cycIdx p2 p1)^[N + 1] t := by
  intro N
  induction N with
  | zero =>
    intro fuel t _ hesc hfuel
    cases fuel with
    | zero => omega
    | succ f =>
      unfold pmxTarget
      rw [if_neg (by simpa using hesc)]
      rfl
  | succ N ih =>
    intro fuel t hmem hesc hfuel
    cases fuel with
    | zero => omega
    | succ f =>
      unfold pmxTarget
      rw [if_pos (by simpa using hmem 0 (by omega))]
      have hmem' : ∀ r, r < N →
          p1.getD ((cycIdx p2 p1)^[r] (cycIdx p2 p1 t)) 0 ∈ segList p2 i j := by
        intro r hr
        rw [← Function.iterate_succ_apply]
        exact hmem (r + 1) (by omega)
      have hesc' : p1.getD ((cycIdx p2 p1)^[N] (cycIdx p2 p1 t)) 0 ∉ segList p2 i j := by
        rw [← Function.iterate_succ_apply]
        exact hesc
      show pmxTarget p1 p2 i j f (cycIdx p2 p1 t) = _
      rw [ih f (cycIdx p2 p1 t) hmem' hesc' (by omega),
        ← Function.iterate_succ_apply]

/-- Full characterization of the chase for a processed position: the
minimal escape index, its minimality, and the resulting target. -/
theorem pmxTarget_spec {p1 p2 : List ℕ} (h1 : isPerm p1) (h2 : isPerm p2)
    {i j k : ℕ} (hij : i ≤ j) (hj : j < 8) (hki : i ≤ k) (hkj : k ≤ j)
    (hk2 : p2.getD k 0 ∉ segList p1 i j) :
    ∃ N, N ≤ 7 ∧
      (∀ r, r < N → p1.getD ((cycIdx p2 p1)^[r] k) 0 ∈ segList p2 i j) ∧
      p1.getD ((cycIdx p2 p1)^[N] k) 0 ∉ segList p2 i j ∧
      pmxTarget p1 p2 i j 8 k = (cycIdx p2 p1)^[N + 1] k := by
  obtain ⟨N0, hN0le, hN0⟩ := pmx_escape h1 h2 hij hj hki hkj hk2
  have hexN : ∃ N, p1.getD ((cycIdx p2 p1)^[N] k) 0 ∉ segList p2 i j := ⟨N0, hN0⟩
  have hNle : Nat.find hexN ≤ 7 := le_trans (Nat.find_min' hexN hN0) hN0le
  have hmin : ∀ r, r < Nat.find hexN →
      p1.getD ((cycIdx p2 p1)^[r] k) 0 ∈ segList p2 i j :=
    fun r hr => not_not.1 (Nat.find_min hexN hr)
  exact ⟨Nat.find hexN, hNle, hmin, Nat.find_spec hexN,
    pmxTarget_eq p1 p2 i j (Nat.find hexN) 8 k hmin (Nat.find_spec hexN) (by omega)⟩

/-- The chase target of a processed position is in range, outside the
cut window, and its `p2` value lies in `p1`'s slice. -/
theorem pmxTarget_good {p1 p2 : List ℕ} (h1 : isPerm p1) (h2 : isPerm p2)
    {i j k : ℕ} (hij : i ≤ j) (hj : j < 8) (hki : i ≤ k) (hkj : k ≤ j)
    (hk2 : p2.getD k 0 ∉ segList p1 i j) :
    pmxTarget p1 p2 i j 8 k < 8
    ∧ ¬(i ≤ pmxTarget p1 p2 i j 8 k ∧ pmxTarget p1 p2 i j 8 k ≤ j)
    ∧ p2.getD (pmxTarget p1 p2 i j 8 k) 0 ∈ segList p1 i j := by
  obtain ⟨N, hN7, hmemN, hescN, hTN⟩ := pmxTarget_spec h1 h2 hij hj hki hkj hk2
  have hk8 : k < 8 := by omega
  have htlt : (cycIdx p2 p1)^[N + 1] k < 8 := cycIdx_iterate_lt h2 h1 hk8 (N + 1)
  have hval : p2.getD ((cycIdx p2 p1)^[N + 1] k) 0
      = p1.getD ((cycIdx p2 p1)^[N] k) 0 := by
    rw [Function.iterate_succ_apply']
    exact p1_getD_cycIdx h2 h1 (cycIdx_iterate_lt h2 h1 hk8 N)
  have hint : i ≤ (cycIdx p2 p1)^[N] k ∧ (cycIdx p2 p1)^[N] k ≤ j :=
    chain_interior h1 h2 hij hj hki hkj hmemN N le_rfl
  refine ⟨by rw [hTN]; exact htlt, ?_, ?_⟩
  · rw [hTN]
    intro hin
    exact hescN (by rw [← hval]; exact (getD_self_mem_segList_iff h2 hij hj htlt).2 hin)
  · rw [hTN, hval]
    exact (getD_self_mem_segList_iff h1 hij hj (cycIdx_iterate_lt h2 h1 hk8 N)).2 hint

/-- If two chase chains land on the same position, the shorter start
lies on the longer chain, which forces its `p2` value into `p1`'s
slice — impossible for a processed position. -/
theorem pmx_chain_cancel {p1 p2 : List ℕ} (h1 : isPerm p1) (h2 : isPerm p2)
    {i j k k' N N' : ℕ} (hij : i ≤ j) (hj : j < 8)
    (hk8 : k < 8) (hk'8 : k' < 8) (hki' : i ≤ k') (hkj' : k' ≤ j)
    (hmem' : ∀ r, r < N' → p1.getD ((cycIdx p2 p1)^[r] k') 0 ∈ segList p2 i j)
    (hNle : N ≤ N') (hk2 : p2.getD k 0 ∉ segList p1 i j)
    (hiter : (cycIdx p2 p1)^[N] k = (cycIdx p2 p1)^[N'] k') : k = k' := by
  have hc : (cycIdx p2 p1)^[N] k
      = (cycIdx p2 p1)^[N] ((cycIdx p2 p1)^[N' - N] k') := by
    rw [← Function.iterate_add_apply, show N + (N' - N) = N' by omega]
    exact hiter
  have hkc : k = (cycIdx p2 p1)^[N' - N] k' :=
    cycIdx_iterate_inj h2 h1 hk8 (cycIdx_iterate_lt h2 h1 hk'8 _) N hc
  rcases Nat.eq_zero_or_pos (N' - N) with h0 | hpos
  · rw [h0] at hkc
    simpa using hkc
  · exfalso
    have hc1 : k = cycIdx p2 p1 ((cycIdx p2 p1)^[N' - N - 1] k') := by
      have e : (cycIdx p2 p1)^[N' - N] k'
          = cycIdx p2 p1 ((cycIdx p2 p1)^[N' - N - 1] k') := by
        conv_lhs => rw [show N' - N = (N' - N - 1) + 1 by omega]
        rw [Function.iterate_succ_apply']
      rw [hkc, e]
    have hposIn : i ≤ (cycIdx p2 p1)^[N' - N - 1] k'
        ∧ (cycIdx p2 p1)^[N' - N - 1] k' ≤ j :=
      chain_interior h1 h2 hij hj hki' hkj' hmem' (N' - N - 1) (by omega)
    have hval : p2.getD k 0 = p1.getD ((cycIdx p2 p1)^[N' - N - 1] k') 0 := by
      rw [hc1]
      exact p1_getD_cycIdx h2 h1 (cycIdx_iterate_lt h2 h1 hk'8 _)
    refine hk2 ?_
    rw [hval]
    exact (getD_self_mem_segList_iff h1 hij hj
      (cycIdx_iterate_lt h2 h1 hk'8 _)).2 hposIn

/-- Distinct processed positions get distinct chase targets. -/
theorem pmxTarget_inj {p1 p2 : List ℕ} (h1 : isPerm p1) (h2 : isPerm p2)
    {i j : ℕ} (hij : i ≤ j) (hj : j < 8) {k k' : ℕ}
    (hki : i ≤ k) (hkj : k ≤ j) (hk2 : p2.getD k 0 ∉ segList p1 i j)
    (hki' : i ≤ k') (hkj' : k' ≤ j) (hk2' : p2.getD k' 0 ∉ segList p1 i j)
    (heq : pmxTarget p1 p2 i j 8 k = pmxTarget p1 p2 i j 8 k') : k = k' := by
  have hk8 : k < 8 := by omega
  have hk'8 : k' < 8 := by omega
  obtain ⟨N, hN7, hmemN, hescN, hTN⟩ := pmxTarget_spec h1 h2 hij hj hki hkj hk2
  obtain ⟨N', hN7', hmemN', hescN', hTN'⟩ := pmxTarget_spec h1 h2 hij hj hki' hkj' hk2'
  rw [hTN, hTN'] at heq
  have e1 : p2.getD ((cycIdx p2 p1)^[N + 1] k) 0
      = p1.getD ((cycIdx p2 p1)^[N] k) 0 := by
    rw [Function.iterate_succ_apply']
    exact p1_getD_cycIdx h2 h1 (cycIdx_iterate_lt h2 h1 hk8 N)
  have e2 : p2.getD ((cycIdx p2 p1)^[N' + 1] k') 0
      = p1.getD ((cycIdx p2 p1)^[N'] k') 0 := by
    rw [Function.iterate_succ_apply']
    exact p1_getD_cycIdx h2 h1 (cycIdx_iterate_lt h2 h1 hk'8 N')
  have hval : p1.getD ((cycIdx p2 p1)^[N] k) 0
      = p1.getD ((cycIdx p2 p1)^[N'] k') 0 := by
    rw [← e1, ← e2, heq]
  have hiter : (cycIdx p2 p1)^[N] k = (cycIdx p2 p1)^[N'] k' :=
    nodup_getD_inj (isPerm_nodup h1)
      (by rw [isPerm_length h1]; exact cycIdx_iterate_lt h2 h1 hk8 N)
      (by rw [isPerm_length h1]; exact cycIdx_iterate_lt h2 h1 hk'8 N') hval
  rcases le_total N N' with hle | hle
  · exact pmx_chain_cancel h1 h2 hij hj hk8 hk'8 hki' hkj' hmemN' hle hk2 hiter
  · exact (pmx_chain_cancel h1 h2 hij hj hk'8 hk8 hki hkj hmemN hle hk2' hiter.symm).symm

theorem surj_of_inj_card {α : Type} [DecidableEq α] {f : α → α} {K G : Finset α}
    (hmaps : ∀ k ∈ K, f k ∈ G)
    (hinj : ∀ k ∈ K, ∀ k' ∈ K, f k = f k' → k = k')
    (hcard : G.card ≤ K.card) {q : α} (hqG : q ∈ G) : ∃ k ∈ K, f k = q := by
  have himg : Finset.image f K = G :=
    Finset.eq_of_subset_of_card_le
      (fun x hx => by obtain ⟨k, hk, rfl⟩ := Finset.mem_image.1 hx; exact hmaps k hk)
      (by
        rw [Finset.card_image_of_injOn
          (fun k hk k' hk' h => hinj k (Finset.mem_coe.1 hk) k' (Finset.mem_coe.1 hk') h)]
        exact hcard)
  rw [← himg] at hqG
  obtain ⟨k, hk, he⟩ := Finset.mem_image.1 hqG
  exact ⟨k, hk, he⟩

/-- Counting positions: as many processed segment positions as good
outside positions (both count the values that switch slices). -/
theorem pmx_card_eq {p1 p2 : List ℕ} (h1 : isPerm p1) (h2 : isPerm p2)
    {i j : ℕ} (hij : i ≤ j) (hj : j < 8) :
    ((Finset.range 8).filter
        (fun t => ¬(i ≤ t ∧ t ≤ j) ∧ p2.getD t 0 ∈ segList p1 i j)).card
      = ((Finset.range 8).filter
        (fun k => i ≤ k ∧ k ≤ j ∧ p2.getD k 0 ∉ segList p1 i j)).card := by
  have hSeg : ((Finset.range 8).filter (fun k => i ≤ k ∧ k ≤ j)).card = j + 1 - i := by
    have he : (Finset.range 8).filter (fun k => i ≤ k ∧ k ≤ j) = Finset.Icc i j := by
      ext t
      simp only [Finset.mem_filter, Finset.mem_range, Finset.mem_Icc]
      omega
    rw [he, Nat.card_Icc]
  have hsegnd : (segList p1 i j).Nodup :=
    (isPerm_nodup h1).sublist (segList_sublist p1 i j)
  have himgB : Finset.image (fun t => p2.getD t 0)
      ((Finset.range 8).filter (fun t => p2.getD t 0 ∈ segList p1 i j))
      = (segList p1 i j).toFinset := by
    ext x
    simp only [Finset.mem_image, Finset.mem_filter, Finset.mem_range, List.mem_toFinset]
    constructor
    · rintro ⟨t, ⟨ht8, htseg⟩, rfl⟩
      exact htseg
    · intro hx
      have hxp1 : x ∈ p1 := (segList_sublist p1 i j).subset hx
      have hb := (isPerm_mem h1).1 hxp1
      have hxp2 : x ∈ p2 := (isPerm_mem h2).2 hb
      obtain ⟨t, ht, hte⟩ := List.mem_iff_getElem.1 hxp2
      have ht8 : t < 8 := by rw [isPerm_length h2] at ht; omega
      have hgd : p2.getD t 0 = x := by rw [List.getD_eq_getElem _ _ ht, hte]
      exact ⟨t, ⟨ht8, by rw [hgd]; exact hx⟩, hgd⟩
  have hBcard : ((Finset.range 8).filter
      (fun t => p2.getD t 0 ∈ segList p1 i j)).card = j + 1 - i := by
    have hinjB : Set.InjOn (fun t => p2.getD t 0)
        ↑((Finset.range 8).filter (fun t => p2.getD t 0 ∈ segList p1 i j)) := by
      intro t ht t' ht' he
      have ht8 := (Finset.mem_filter.1 (Finset.mem_coe.1 ht)).1
      have ht8' := (Finset.mem_filter.1 (Finset.mem_coe.1 ht')).1
      rw [Finset.mem_range] at ht8 ht8'
      exact nodup_getD_inj (isPerm_nodup h2)
        (by rw [isPerm_length h2]; omega) (by rw [isPerm_length h2]; omega) he
    rw [← Finset.card_image_of_injOn hinjB, himgB,
      List.toFinset_card_of_nodup hsegnd, segList_length (isPerm_length h1) hj]
  have hs1 := @Finset.filter_card_add_filter_neg_card_eq_card ℕ
    ((Finset.range 8).filter (fun k => i ≤ k ∧ k ≤ j))
    (fun k => p2.getD k 0 ∈ segList p1 i j) (fun k => inferInstance) (fun k => inferInstance)
  have hs2 := @Finset.filter_card_add_filter_neg_card_eq_card ℕ
    ((Finset.range 8).filter (fun t => p2.getD t 0 ∈ segList p1 i j))
    (fun t => i ≤ t ∧ t ≤ j) (fun t => inferInstance) (fun t => inferInstance)
  have hKF : ((Finset.range 8).filter (fun k => i ≤ k ∧ k ≤ j)).filter
      (fun k => ¬(p2.getD k 0 ∈ segList p1 i j))
      = (Finset.range 8).filter (fun k => i ≤ k ∧ k ≤ j ∧ p2.getD k 0 ∉ segList p1 i j) := by
    ext t
    simp only [Finset.mem_filter, Finset.mem_range]
    tauto
  have hGF : ((Finset.range 8).filter (fun t => p2.getD t 0 ∈ segList p1 i j)).filter
      (fun t => ¬(i ≤ t ∧ t ≤ j))
      = (Finset.range 8).filter
        (fun t => ¬(i ≤ t ∧ t ≤ j) ∧ p2.getD t 0 ∈ segList p1 i j) := by
    ext t
    simp only [Finset.mem_filter, Finset.mem_range]
    tauto
  have hcross : ((Finset.range 8).filter (fun t => p2.getD t 0 ∈ segList p1 i j)).filter
      (fun t => i ≤ t ∧ t ≤ j)
      = ((Finset.range 8).filter (fun k => i ≤ k ∧ k ≤ j)).filter
        (fun k => p2.getD k 0 ∈ segList p1 i j) := by
    ext t
    simp only [Finset.mem_filter, Finset.mem_range]
    tauto
  rw [hKF] at hs1
  rw [hGF, hcross] at hs2
  rw [hSeg] at hs1
  rw [hBcard] at hs2
  omega

/-- Every good outside position receives a write: the chase-target map
is onto the positions whose `p2` value sits in `p1`'s slice. -/
theorem pmx_surj {p1 p2 : List ℕ} (h1 : isPerm p1) (h2 : isPerm p2)
    {i j : ℕ} (hij : i ≤ j) (hj : j < 8) {q : ℕ} (hq : q < 8)
    (hqout : ¬(i ≤ q ∧ q ≤ j)) (hqseg : p2.getD q 0 ∈ segList p1 i j) :
    ∃ k, (i ≤ k ∧ k ≤ j ∧ p2.getD k 0 ∉ segList p1 i j)
      ∧ pmxTarget p1 p2 i j 8 k = q := by
  have hmaps : ∀ k ∈ (Finset.range 8).filter
      (fun k => i ≤ k ∧ k ≤ j ∧ p2.getD k 0 ∉ segList p1 i j),
      pmxTarget p1 p2 i j 8 k ∈ (Finset.range 8).filter
        (fun t => ¬(i ≤ t ∧ t ≤ j) ∧ p2.getD t 0 ∈ segList p1 i j) := by
    intro k hk
    obtain ⟨hk8, hki, hkj, hk2⟩ := Finset.mem_filter.1 hk
    have hg := pmxTarget_good h1 h2 hij hj hki hkj hk2
    exact Finset.mem_filter.2 ⟨Finset.mem_range.2 hg.1, hg.2.1, hg.2.2⟩
  have hinj : ∀ k ∈ (Finset.range 8).filter
      (fun k => i ≤ k ∧ k ≤ j ∧ p2.getD k 0 ∉ segList p1 i j),
      ∀ k' ∈ (Finset.range 8).filter
        (fun k => i ≤ k ∧ k ≤ j ∧ p2.getD k 0 ∉ segList p1 i j),
      pmxTarget p1 p2 i j 8 k = pmxTarget p1 p2 i j 8 k' → k = k' := by
    intro k hk k' hk' he
    obtain ⟨_, hki, hkj, hk2⟩ := Finset.mem_filter.1 hk
    obtain ⟨_, hki', hkj', hk2'⟩ := Finset.mem_filter.1 hk'
    exact pmxTarget_inj h1 h2 hij hj hki hkj hk2 hki' hkj' hk2' he
  have hqG : q ∈ (Finset.range 8).filter
      (fun t => ¬(i ≤ t ∧ t ≤ j) ∧ p2.getD t 0 ∈ segList p1 i j) :=
    Finset.mem_filter.2 ⟨Finset.mem_range.2 hq, hqout, hqseg⟩
  obtain ⟨k, hk, he⟩ := surj_of_inj_card hmaps hinj
    (le_of_eq (pmx_card_eq h1 h2 hij hj)) hqG
  obtain ⟨_, hki, hkj, hk2⟩ := Finset.mem_filter.1 hk
  exact ⟨k, ⟨hki, hkj, hk2⟩, he⟩

/-- A PMX child is a valid permutation: the cut window keeps `p1`'s
values, chased writes carry the displaced `p2` values injectively to
good outside slots, and the fill pass copies `p2` elsewhere. -/
theorem pmxChild_isPerm {p1 p2 : List ℕ} (h1 : isPerm p1) (h2 : isPerm p2)
    {i j : ℕ} (hij : i ≤ j) (hj : j < 8) : isPerm (pmxChild p1 p2 i j) := by
  have hp1len := isPerm_length h1
  have hp2len := isPerm_length h2
  have hc0len : (pmxInit p1 i j).length = 8 := by simp [pmxInit]
  have hc1len : (pmxPlace p1 p2 i j (pmxInit p1 i j)).length = 8 := by
    rw [pmxPlace_eq]
    rw [foldl_set_map_length (fun k => pmxTarget p1 p2 i j 8 k) (fun k => p2.getD k 0)]
    exact hc0len
  have hAin : ∀ q, i ≤ q → q ≤ j →
      (pmxPlace p1 p2 i j (pmxInit p1 i j)).getD q 0 = p1.getD q 0 := by
    intro q hqi hqj
    have hne : ∀ k ∈ (List.range' i (j + 1 - i)).filter
        (fun k => decide (p2.getD k 0 ∉ segList p1 i j)),
        pmxTarget p1 p2 i j 8 k ≠ q := by
      intro k hk he
      obtain ⟨hki, hkj, hk2⟩ := (mem_pmxW hij).1 hk
      refine (pmxTarget_good h1 h2 hij hj hki hkj hk2).2.1 ?_
      rw [he]
      exact ⟨hqi, hqj⟩
    have e : (pmxPlace p1 p2 i j (pmxInit p1 i j)).getD q 0
        = (pmxInit p1 i j).getD q 0 := by
      rw [pmxPlace_eq]
      exact foldl_set_map_getD_notin (fun k => pmxTarget p1 p2 i j 8 k)
        (fun k => p2.getD k 0) _ _ q hne
    rw [e, pmxInit_getD, if_pos ⟨by omega, hqi, hqj⟩]
  have hBval : ∀ k, i ≤ k → k ≤ j → p2.getD k 0 ∉ segList p1 i j →
      (pmxPlace p1 p2 i j (pmxInit p1 i j)).getD (pmxTarget p1 p2 i j 8 k) 0
        = p2.getD k 0 := by
    intro k hki hkj hk2
    rw [pmxPlace_eq]
    refine foldl_set_map_getD_mem (fun k => pmxTarget p1 p2 i j 8 k)
      (fun k => p2.getD k 0) _ _ k ((mem_pmxW hij).2 ⟨hki, hkj, hk2⟩) ?_ ?_
    · intro k' hk' he
      obtain ⟨hki', hkj', hk2'⟩ := (mem_pmxW hij).1 hk'
      exact pmxTarget_inj h1 h2 hij hj hki' hkj' hk2' hki hkj hk2 he
    · rw [hc0len]
      exact (pmxTarget_good h1 h2 hij hj hki hkj hk2).1
  have hCval : ∀ q, q < 8 → ¬(i ≤ q ∧ q ≤ j) →
      (∀ k, i ≤ k → k ≤ j → p2.getD k 0 ∉ segList p1 i j →
        pmxTarget p1 p2 i j 8 k ≠ q) →
      (pmxPlace p1 p2 i j (pmxInit p1 i j)).getD q 0 = 0 := by
    intro q hq hqout hnone
    have hne : ∀ k ∈ (List.range' i (j + 1 - i)).filter
        (fun k => decide (p2.getD k 0 ∉ segList p1 i j)),
        pmxTarget p1 p2 i j 8 k ≠ q := by
      intro k hk
      obtain ⟨hki, hkj, hk2⟩ := (mem_pmxW hij).1 hk
      exact hnone k hki hkj hk2
    have e : (pmxPlace p1 p2 i j (pmxInit p1 i j)).getD q 0
        = (pmxInit p1 i j).getD q 0 := by
      rw [pmxPlace_eq]
      exact foldl_set_map_getD_notin (fun k => pmxTarget p1 p2 i j 8 k)
        (fun k => p2.getD k 0) _ _ q hne
    rw [e, pmxInit_getD, if_neg (by tauto)]
  have hfill : ∀ q, (pmxChild p1 p2 i j).getD q 0
      = if q ∈ List.range 8 ∧ q < (pmxPlace p1 p2 i j (pmxInit p1 i j)).length
          ∧ (pmxPlace p1 p2 i j (pmxInit p1 i j)).getD q 0 = 0
        then p2.getD q 0
        else (pmxPlace p1 p2 i j (pmxInit p1 i j)).getD q 0 := by
    intro q
    show (pmxFill p2 (pmxPlace p1 p2 i j (pmxInit p1 i j))).getD q 0 = _
    unfold pmxFill
    exact foldl_fill_getD p2 (List.range 8) _ q (List.nodup_range 8)
  have hA : ∀ q, q < 8 → i ≤ q → q ≤ j →
      (pmxChild p1 p2 i j).getD q 0 = p1.getD q 0 := by
    intro q hq hqi hqj
    rw [hfill q, hAin q hqi hqj]
    have hne0 : p1.getD q 0 ≠ 0 := by
      have hm : p1.getD q 0 ∈ p1 := getD_mem_of_lt (by rw [hp1len]; omega) 0
      have := (isPerm_mem h1).1 hm
      omega
    rw [if_neg (by tauto)]
  have hB : ∀ k, i ≤ k → k ≤ j → p2.getD k 0 ∉ segList p1 i j →
      (pmxChild p1 p2 i j).getD (pmxTarget p1 p2 i j 8 k) 0 = p2.getD k 0 := by
    intro k hki hkj hk2
    rw [hfill _, hBval k hki hkj hk2]
    have hk8 : k < 8 := by omega
    have hne0 : p2.getD k 0 ≠ 0 := by
      have hm : p2.getD k 0 ∈ p2 := getD_mem_of_lt (by rw [hp2len]; omega) 0
      have := (isPerm_mem h2).1 hm
      omega
    rw [if_neg (by tauto)]
  have hC : ∀ q, q < 8 → ¬(i ≤ q ∧ q ≤ j) →
      (∀ k, i ≤ k → k ≤ j → p2.getD k 0 ∉ segList p1 i j →
        pmxTarget p1 p2 i j 8 k ≠ q) →
      (pmxChild p1 p2 i j).getD q 0 = p2.getD q 0 := by
    intro q hq hqout hnone
    rw [hfill q, hCval q hq hqout hnone]
    rw [if_pos ⟨List.mem_range.2 hq, by rw [hc1len]; omega, rfl⟩]
  have hlen : (pmxChild p1 p2 i j).length = 8 := by
    show (pmxFill p2 (pmxPlace p1 p2 i j (pmxInit p1 i j))).length = 8
    unfold pmxFill
    rw [foldl_fill_length, hc1len]
  have hcases : ∀ q, q < 8 →
      ((i ≤ q ∧ q ≤ j) ∧ (pmxChild p1 p2 i j).getD q 0 = p1.getD q 0)
      ∨ (¬(i ≤ q ∧ q ≤ j) ∧ ∃ k, (i ≤ k ∧ k ≤ j ∧ p2.getD k 0 ∉ segList p1 i j)
          ∧ pmxTarget p1 p2 i j 8 k = q
          ∧ (pmxChild p1 p2 i j).getD q 0 = p2.getD k 0)
      ∨ (¬(i ≤ q ∧ q ≤ j) ∧ p2.getD q 0 ∉ segList p1 i j
          ∧ (pmxChild p1 p2 i j).getD q 0 = p2.getD q 0) := by
    intro q hq
    by_cases hseg : i ≤ q ∧ q ≤ j
    · exact Or.inl ⟨hseg, hA q hq hseg.1 hseg.2⟩
    · by_cases hpre : ∃ k, (i ≤ k ∧ k ≤ j ∧ p2.getD k 0 ∉ segList p1 i j)
          ∧ pmxTarget p1 p2 i j 8 k = q
      · obtain ⟨k, hkP, hkt⟩ := hpre
        refine Or.inr (Or.inl ⟨hseg, k, hkP, hkt, ?_⟩)
        rw [← hkt]
        exact hB k hkP.1 hkP.2.1 hkP.2.2
      · push_neg at hpre
        have hnone : ∀ k, i ≤ k → k ≤ j → p2.getD k 0 ∉ segList p1 i j →
            pmxTarget p1 p2 i j 8 k ≠ q := fun k ha hb hc => hpre k ⟨ha, hb, hc⟩
        refine Or.inr (Or.inr ⟨hseg, ?_, hC q hq hseg hnone⟩)
        intro hqseg
        obtain ⟨k, hkP, hkt⟩ := pmx_surj h1 h2 hij hj hq hseg hqseg
        exact hpre k hkP hkt
  have hnd : (pmxChild p1 p2 i j).Nodup := by
    rw [eq_map_getD hlen]
    refine List.Nodup.map_on ?_ (List.nodup_range _)
    intro x hx y hy hxy
    rw [List.mem_range] at hx hy
    have hxy' : (pmxChild p1 p2 i j).getD x 0 = (pmxChild p1 p2 i j).getD y 0 := hxy
    rcases hcases x hx with ⟨hxseg, hxval⟩ | ⟨hxout, k, hkP, hkt, hxval⟩
      | ⟨hxout, hxns, hxval⟩
    · rcases hcases y hy with ⟨hyseg, hyval⟩ | ⟨hyout, k', hkP', hkt', hyval⟩
        | ⟨hyout, hyns, hyval⟩
      · have he : p1.getD x 0 = p1.getD y 0 := by
          rw [← hxval, ← hyval]; exact hxy'
        exact nodup_getD_inj (isPerm_nodup h1)
          (by rw [hp1len]; omega) (by rw [hp1len]; omega) he
      · have he : p1.getD x 0 = p2.getD k' 0 := by
          rw [← hxval, ← hyval]; exact hxy'
        have hm : p1.getD x 0 ∈ segList p1 i j :=
          (getD_self_mem_segList_iff h1 hij hj hx).2 hxseg
        rw [he] at hm
        exact absurd hm hkP'.2.2
      · have he : p1.getD x 0 = p2.getD y 0 := by
          rw [← hxval, ← hyval]; exact hxy'
        have hm : p1.getD x 0 ∈ segList p1 i j :=
          (getD_self_mem_segList_iff h1 hij hj hx).2 hxseg
        rw [he] at hm
        exact absurd hm hyns
    · rcases hcases y hy with ⟨hyseg, hyval⟩ | ⟨hyout, k', hkP', hkt', hyval⟩
        | ⟨hyout, hyns, hyval⟩
      · have he : p2.getD k 0 = p1.getD y 0 := by
          rw [← hxval, ← hyval]; exact hxy'
        have hm : p1.getD y 0 ∈ segList p1 i j :=
          (getD_self_mem_segList_iff h1 hij hj hy).2 hyseg
        rw [← he] at hm
        exact absurd hm hkP.2.2
      · have he : p2.getD k 0 = p2.getD k' 0 := by
          rw [← hxval, ← hyval]; exact hxy'
        have hkk : k = k' := nodup_getD_inj (isPerm_nodup h2)
          (by rw [hp2len]; omega) (by rw [hp2len]; omega) he
        rw [← hkt, ← hkt', hkk]
      · have he : p2.getD k 0 = p2.getD y 0 := by
          rw [← hxval, ← hyval]; exact hxy'
        have hky : k = y := nodup_getD_inj (isPerm_nodup h2)
          (by rw [hp2len]; omega) (by rw [hp2len]; omega) he
        have hyin : i ≤ y ∧ y ≤ j := by
          rw [← hky]; exact ⟨hkP.1, hkP.2.1⟩
        exact absurd hyin hyout
    · rcases hcases y hy with ⟨hyseg, hyval⟩ | ⟨hyout, k', hkP', hkt', hyval⟩
        | ⟨hyout, hyns, hyval⟩
      · have he : p2.getD x 0 = p1.getD y 0 := by
          rw [← hxval, ← hyval]; exact hxy'
        have hm : p1.getD y 0 ∈ segList p1 i j :=
          (getD_self_mem_segList_iff h1 hij hj hy).2 hyseg
        rw [← he] at hm
        exact absurd hm hxns
      · have he : p2.getD x 0 = p2.getD k' 0 := by
          rw [← hxval, ← hyval]; exact hxy'
        have hxk : x = k' := nodup_getD_inj (isPerm_nodup h2)
          (by rw [hp2len]; omega) (by rw [hp2len]; omega) he
        have hxin : i ≤ x ∧ x ≤ j := by
          rw [hxk]; exact ⟨hkP'.1, hkP'.2.1⟩
        exact absurd hxin hxout
      · have he : p2.getD x 0 = p2.getD y 0 := by
          rw [← hxval, ← hyval]; exact hxy'
        exact nodup_getD_inj (isPerm_nodup h2)
          (by rw [hp2len]; omega) (by rw [hp2len]; omega) he
  refine isPerm_of _ hlen hnd ?_
  intro x hx
  obtain ⟨r, hr, hre⟩ := List.mem_iff_getElem.1 hx
  have hr8 : r < 8 := by rw [hlen] at hr; omega
  have hvx : (pmxChild p1 p2 i j).getD r 0 = x := by
    rw [List.getD_eq_getElem _ _ hr, hre]
  rcases hcases r hr8 with ⟨hseg, hv⟩ | ⟨hout, k, hkP, hkt, hv⟩ | ⟨hout, hns, hv⟩
  · have hxe : x = p1.getD r 0 := by rw [← hvx, hv]
    have hm : p1.getD r 0 ∈ p1 := getD_mem_of_lt (by rw [hp1len]; omega) 0
    have := (isPerm_mem h1).1 hm
    omega
  · have hxe : x = p2.getD k 0 := by rw [← hvx, hv]
    have hk8 : k < 8 := by omega
    have hm : p2.getD k 0 ∈ p2 := getD_mem_of_lt (by rw [hp2len]; omega) 0
    have := (isPerm_mem h2).1 hm
    omega
  · have hxe : x = p2.getD r 0 := by rw [← hvx, hv]
    have hm : p2.getD r 0 ∈ p2 := getD_mem_of_lt (by rw [hp2len]; omega) 0
    have := (isPerm_mem h2).1 hm
    omega

/-- `pmx_crossover` preserves validity of both children. -/
theorem pmx_crossover_isPerm {p1 p2 : List ℕ} (u pc : ℚ) {i0 j0 : ℕ}
    (hi0 : i0 < 8) (hj0 : j0 < 8) (hne : i0 ≠ j0)
    (h1 : isPerm p1) (h2 : isPerm p2) :
    isPerm (pmx_crossover u pc i0 j0 p1 p2).1
    ∧ isPerm (pmx_crossover u pc i0 j0 p1 p2).2 := by
  by_cases hu : u < pc
  · have hfst : (pmx_crossover u pc i0 j0 p1 p2).1
        = pmxChild p1 p2 (if i0 > j0 then j0 else i0) (if i0 > j0 then i0 else j0) := by
      unfold pmx_crossover
      rw [if_pos hu]
    have hsnd : (pmx_crossover u pc i0 j0 p1 p2).2
        = pmxChild p2 p1 (if i0 > j0 then j0 else i0) (if i0 > j0 then i0 else j0) := by
      unfold pmx_crossover
      rw [if_pos hu]
    rw [hfst, hsnd]
    exact ⟨pmxChild_isPerm h1 h2
        (by split_ifs with h <;> omega) (by split_ifs with h <;> omega),
      pmxChild_isPerm h2 h1
        (by split_ifs with h <;> omega) (by split_ifs with h <;> omega)⟩
  · have hfst : (pmx_crossover u pc i0 j0 p1 p2).1 = p1 := by
      unfold pmx_crossover
      rw [if_neg hu]
    have hsnd : (pmx_crossover u pc i0 j0 p1 p2).2 = p2 := by
      unfold pmx_crossover
      rw [if_neg hu]
    rw [hfst, hsnd]
    exact ⟨h1, h2⟩

/-- C2 counterexample: the recombination operators do not all run
without error on valid parents.  With parents `[1..8]` and
`[3,4,5,6,1,8,2,7]` (both valid permutations), the crossover firing,
and the reachable draws `edgeErrorDraws` (start element `4`, then
tie-break picks growing the child `4, 3, 7, 6, 5`), the neighbor list
of the current element empties while `{1, 2, 8}` are still unused, so
`select_next` reaches `rng.choice(set(edge_table.keys()) -
set(current_child))`: `numpy.random.Generator.choice` applied to a
Python set raises `ValueError: a must be at least 1-dimensional`
(embedded as `none`). -/
theorem edge_crossover_raises_value_error :
    isPerm [1, 2, 3, 4, 5, 6, 7, 8] ∧ isPerm [3, 4, 5, 6, 1, 8, 2, 7]
    ∧ edge_crossover 0 1 edgeErrorDraws edgeErrorDraws
        [1, 2, 3, 4, 5, 6, 7, 8] [3, 4, 5, 6, 1, 8, 2, 7] = none := by
  refine ⟨by decide, by decide, ?_⟩
  unfold edge_crossover
  rw [if_pos (by norm_num : (0 : ℚ) < 1)]
  decide

/-- C2 (amended): for every pair of parents that are valid
permutations of `[1,8]` and arbitrary random draws, cut-and-crossfill,
PMX and cycle crossover return two children that are valid
permutations, each of the four mutation operators (swap, insert,
scramble, inversion) maps any valid permutation to a valid
permutation, and edge recombination returns two valid permutations
*whenever it completes* — but its empty-neighbor-list branch calls
`rng.choice` on a Python set, which raises `ValueError`, so edge
recombination is not error-free (see
`edge_crossover_raises_value_error`). -/
theorem operators_preserve_validity
    (p1 p2 child shuffled : List ℕ) (u pc pm : ℚ) (icut i0 j0 : ℕ)
    (ds1 ds2 : ℕ → ℕ)
    (h1 : isPerm p1) (h2 : isPerm p2) (hc : isPerm child)
    (hi0 : i0 < 8) (hj0 : j0 < 8) (hne : i0 ≠ j0)
    (hs : shuffled.Perm ((child.drop (if j0 < i0 then j0 else i0)).take
      ((if j0 < i0 then i0 else j0) + 1 - (if j0 < i0 then j0 else i0)))) :
    (isPerm (cut_and_crossfill_crossover u pc icut p1 p2).1
      ∧ isPerm (cut_and_crossfill_crossover u pc icut p1 p2).2)
    ∧ (isPerm (pmx_crossover u pc i0 j0 p1 p2).1
      ∧ isPerm (pmx_crossover u pc i0 j0 p1 p2).2)
    ∧ (∀ c1 c2, edge_crossover u pc ds1 ds2 p1 p2 = some (c1, c2) →
      isPerm c1 ∧ isPerm c2)
    ∧ (isPerm (cyclic_crossover u pc p1 p2).1
      ∧ isPerm (cyclic_crossover u pc p1 p2).2)
    ∧ isPerm (swap_mutation u pm i0 j0 child)
    ∧ isPerm (insert_mutation u pm i0 j0 child)
    ∧ isPerm (scramble_mutation u pm i0 j0 shuffled child)
    ∧ isPerm (inversion_mutation u pm i0 j0 child) :=
  ⟨cut_and_crossfill_isPerm u pc icut h1 h2,
   pmx_crossover_isPerm u pc hi0 hj0 hne h1 h2,
   edge_crossover_isPerm u pc ds1 ds2 h1 h2,
   cyclic_crossover_isPerm u pc h1 h2,
   swap_mutation_isPerm u pm hi0 hj0 hne hc,
   insert_mutation_isPerm u pm hi0 hj0 hne hc,
   scramble_mutation_isPerm u pm i0 j0 hc hs,
   inversion_mutation_isPerm u pm i0 j0 hc⟩

/-- Witness for C2 at concrete parents, child, draws and shuffle. -/
theorem operators_preserve_validity_witness :
    (isPerm [1, 2, 3, 4, 5, 6, 7, 8] ∧ isPerm [8, 7, 6, 5, 4, 3, 2, 1]
      ∧ isPerm [2, 4, 6, 8, 3, 1, 7, 5]
      ∧ (2 : ℕ) < 8 ∧ (5 : ℕ) < 8 ∧ (2 : ℕ) ≠ 5
      ∧ ([1, 3, 8, 6] : List ℕ).Perm
          ((([2, 4, 6, 8, 3, 1, 7, 5] : List ℕ).drop (if 5 < 2 then 5 else 2)).take
            ((if 5 < 2 then 2 else 5) + 1 - (if 5 < 2 then 5 else 2))))
    ∧ isPerm (swap_mutation 0 1 2 5 [2, 4, 6, 8, 3, 1, 7, 5]) :=
  ⟨⟨by decide, by decide, by decide, by decide, by decide, by decide, by decide⟩,
   (operators_preserve_validity [1, 2, 3, 4, 5, 6, 7, 8] [8, 7, 6, 5, 4, 3, 2, 1]
     [2, 4, 6, 8, 3, 1, 7, 5] [1, 3, 8, 6] 0 1 1 3 2 5 (fun _ => 0) (fun _ => 0)
     (by decide) (by decide) (by decide) (by decide) (by decide) (by decide)
     (by decide)).2.2.2.2.1⟩

/-! ### Evaluation-counter bookkeeping -/

/-- Helper to evaluate `fitnessVal` at concrete boards: the conflict
count is a decidable natural-number computation, after which the
rational is `1/(n+1)`. -/
theorem fitnessVal_eq_of_conflicts {t : List ℕ} {n : ℕ} (h : conflicts t = n) :
    fitnessVal t = 1 / ((n : ℚ) + 1) := by
  unfold fitnessVal
  rw [h]

/-- `argmax` of a two-element list whose second entry is larger. -/
theorem argmaxIdx_two {a b : ℚ} (h : a < b) : argmaxIdx [a, b] = 1 := by
  unfold argmaxIdx argmaxAux
  rw [if_pos h]
  rfl

theorem evalAll_counter : ∀ (xs : List (List ℕ)) (n : ℕ),
    (evalAll xs n).2 = n + xs.length := by
  intro xs
  induction xs with
  | nil => intro n; rfl
  | cons x xs ih =>
    intro n
    simp only [evalAll, ih, List.length_cons]
    omega

theorem select_2_out_5_state (idxs : ℕ → ℕ) (s : SGAState) :
    (select_2_out_5 idxs s).2.num_fitness_eval = s.num_fitness_eval + 5
    ∧ (select_2_out_5 idxs s).2.population = s.population
    ∧ (select_2_out_5 idxs s).2.pop_fitness = s.pop_fitness := by
  refine ⟨?_, rfl, rfl⟩
  show (evalAll ((List.range 5).map (fun m => s.population.getD (idxs m) []))
    s.num_fitness_eval).2 = s.num_fitness_eval + 5
  rw [evalAll_counter]
  simp

theorem replace_worst_counter (c1 c2 : List ℕ) (s : SGAState) :
    (replace_worst c1 c2 s).num_fitness_eval = s.num_fitness_eval + 2 := rfl

theorem genStep_counter (ps : ParentSelOp) (ss : SurvivorSelOp)
    (rm : List ℕ → List ℕ → List ℕ × List ℕ) (d : GenDraws) (s : SGAState) :
    (genStep ps ss rm d s).num_fitness_eval = s.num_fitness_eval
      + (match ps with | .best2of5 => 5 | .rouletteSel => 0)
      + (match ss with | .replaceWorstSel => 2 | .replaceParentsSel => 0) := by
  cases ps <;> cases ss <;>
    simp [genStep, replace_worst_counter, replace_parents_by_childs_state,
      (select_2_out_5_state _ _).1, roulette_selection]

/-- **C6.** Every `fitness` call bumps the evaluation counter by exactly
one and changes nothing else; parent selection by tournament makes
exactly its 5 candidate evaluations, roulette none, replace-worst
survivor selection exactly its 2 child evaluations,
replace-parents-by-children none; population initialization makes one
evaluation per individual; and a full generation changes the counter by
exactly the number of fitness calls its selection operators make. -/
theorem fitness_counter_frame :
    (∀ t s, (fitnessM t s).2.num_fitness_eval = s.num_fitness_eval + 1
      ∧ (fitnessM t s).2.population = s.population
      ∧ (fitnessM t s).2.pop_fitness = s.pop_fitness
      ∧ (fitnessM t s).1 = fitnessVal t)
    ∧ (∀ idxs s, (select_2_out_5 idxs s).2.num_fitness_eval = s.num_fitness_eval + 5
      ∧ (select_2_out_5 idxs s).2.population = s.population
      ∧ (select_2_out_5 idxs s).2.pop_fitness = s.pop_fitness)
    ∧ (∀ r1 r2 s, (roulette_selection r1 r2 s).2 = s)
    ∧ (∀ c1 c2 s, (replace_worst c1 c2 s).num_fitness_eval = s.num_fitness_eval + 2)
    ∧ (∀ c1 c2 p1 p2 s, (replace_parents_by_childs_state c1 c2 p1 p2 s).num_fitness_eval
        = s.num_fitness_eval)
    ∧ (∀ perms n k, (random_init_population perms n k).num_fitness_eval = k + n)
    ∧ (∀ ps ss rm d s, (genStep ps ss rm d s).num_fitness_eval = s.num_fitness_eval
        + (match ps with | .best2of5 => 5 | .rouletteSel => 0)
        + (match ss with | .replaceWorstSel => 2 | .replaceParentsSel => 0)) := by
  refine ⟨fun t s => ⟨rfl, rfl, rfl, rfl⟩, select_2_out_5_state,
    fun r1 r2 s => rfl, replace_worst_counter, fun c1 c2 p1 p2 s => rfl,
    fun perms n k => ?_, genStep_counter⟩
  show (evalAll ((List.range n).map perms) k).2 = k + n
  rw [evalAll_counter]
  simp

/-- **C4.** `replace_parents_by_childs` overwrites population slots but
never refreshes `pop_fitness`: replacing parent `[1..8]` (fitness 1/29)
by the zero-conflict child `[4,2,7,3,6,8,5,1]` (fitness 1) leaves
`pop_fitness[0]` at the stale parent value, violating
`fitness_table[i] == fitness(population[i])`. -/
theorem replace_parents_leaves_stale_fitness :
    (replace_parents_by_childs_state [4,2,7,3,6,8,5,1] [4,2,7,3,6,8,5,1]
        [1,2,3,4,5,6,7,8] [8,7,6,5,4,3,2,1] c4State).pop_fitness.getD 0 0
      ≠ fitnessVal ((replace_parents_by_childs_state [4,2,7,3,6,8,5,1] [4,2,7,3,6,8,5,1]
        [1,2,3,4,5,6,7,8] [8,7,6,5,4,3,2,1] c4State).population.getD 0 []) := by
  show fitnessVal [1,2,3,4,5,6,7,8] ≠ fitnessVal [4,2,7,3,6,8,5,1]
  rw [fitnessVal_eq_of_conflicts (show conflicts [1,2,3,4,5,6,7,8] = 28 by decide),
    fitnessVal_eq_of_conflicts (show conflicts [4,2,7,3,6,8,5,1] = 0 by decide)]
  norm_num

theorem decode_toBinaryInd (p : List ℕ) : (toBinaryInd p).map decodePyVal = p := by
  unfold toBinaryInd toBinaryString
  rw [List.map_map, List.map_map]
  have : (decodePyVal ∘ PyVal.strV) ∘ format3b = id := funext binToNat_format3b
  rw [this, List.map_id]

theorem c9Fits_eq :
    c9Fits = [fitnessVal [1,2,3,4,5,6,7,8], fitnessVal [4,2,7,3,6,8,5,1]] := by
  show [fitnessValB (toBinaryInd [1,2,3,4,5,6,7,8]),
        fitnessValB (toBinaryInd [4,2,7,3,6,8,5,1])] = _
  unfold fitnessValB
  rw [decode_toBinaryInd, decode_toBinaryInd]

theorem c9_argmax : argmaxIdx c9Fits = 1 := by
  rw [c9Fits_eq]
  apply argmaxIdx_two
  rw [fitnessVal_eq_of_conflicts (show conflicts [1,2,3,4,5,6,7,8] = 28 by decide),
    fitnessVal_eq_of_conflicts (show conflicts [4,2,7,3,6,8,5,1] = 0 by decide)]
  norm_num

/-- **C9, counterexample.** Under the binary-string representation the
`solution` field of the report is `self.population[argmax]` verbatim —
a list of bit strings, not a sequence of 8 integers: no decoding
happens. -/
theorem report_solution_is_not_integer_sequence :
    ¬ IsIntSeq (makeReport c9Pop c9Fits 2).solution := by
  have hsol : (makeReport c9Pop c9Fits 2).solution = toBinaryInd [4,2,7,3,6,8,5,1] := by
    show c9Pop.getD (argmaxIdx c9Fits) [] = toBinaryInd [4,2,7,3,6,8,5,1]
    rw [c9_argmax]
    rfl
  rw [hsol]
  decide

/-- **C9, amended.** The report contains the evaluation count, the
convergence flag (`best fitness == 1`), the count of population members
tied at the best fitness, and the best individual exactly as stored:
under the binary-string representation that is the undecoded list of
bit strings (whose element-wise decode is the canonical permutation),
not a sequence of 8 integers. -/
theorem report_contents (perms : List (List ℕ)) (fits : List ℚ) (n : ℕ)
    (hA : argmaxIdx fits < perms.length) :
    (makeReport (perms.map toBinaryInd) fits n).num_fitness_eval = n
    ∧ (makeReport (perms.map toBinaryInd) fits n).convergence
        = decide (maxFit fits = 1)
    ∧ (makeReport (perms.map toBinaryInd) fits n).num_solutions
        = (fits.filter (fun p => p = maxFit fits)).length
    ∧ (makeReport (perms.map toBinaryInd) fits n).solution
        = toBinaryInd (perms.getD (argmaxIdx fits) [])
    ∧ ((makeReport (perms.map toBinaryInd) fits n).solution).map decodePyVal
        = perms.getD (argmaxIdx fits) [] := by
  have hsol : (makeReport (perms.map toBinaryInd) fits n).solution
      = toBinaryInd (perms.getD (argmaxIdx fits) []) := by
    show (perms.map toBinaryInd).getD (argmaxIdx fits) []
      = toBinaryInd (perms.getD (argmaxIdx fits) [])
    rw [List.getD_eq_getElem?_getD, List.getElem?_map,
      List.getElem?_eq_getElem hA, List.getD_eq_getElem?_getD,
      List.getElem?_eq_getElem hA]
    rfl
  exact ⟨rfl, rfl, rfl, hsol, by rw [hsol, decode_toBinaryInd]⟩

/-- Witness for `report_contents` on the two concrete individuals. -/
theorem report_contents_witness :
    (makeReport (c9Perms.map toBinaryInd) c9Fits 2).num_fitness_eval = 2
    ∧ (makeReport (c9Perms.map toBinaryInd) c9Fits 2).convergence
        = decide (maxFit c9Fits = 1)
    ∧ (makeReport (c9Perms.map toBinaryInd) c9Fits 2).num_solutions
        = (c9Fits.filter (fun p => p = maxFit c9Fits)).length
    ∧ (makeReport (c9Perms.map toBinaryInd) c9Fits 2).solution
        = toBinaryInd (c9Perms.getD (argmaxIdx c9Fits) [])
    ∧ ((makeReport (c9Perms.map toBinaryInd) c9Fits 2).solution).map decodePyVal
        = c9Perms.getD (argmaxIdx c9Fits) [] :=
  report_contents c9Perms c9Fits 2 (by rw [c9_argmax]; decide)

theorem c3_roulette :
    roulette_selection 0 0 c4State = (([1,2,3,4,5,6,7,8], [1,2,3,4,5,6,7,8]), c4State) := by
  have hsumv : c4State.pop_fitness.sum = 2 / 29 := by
    show (fitnessVal [1,2,3,4,5,6,7,8] :: [fitnessVal [8,7,6,5,4,3,2,1]]).sum = 2 / 29
    rw [List.sum_cons, List.sum_cons, List.sum_nil,
      fitnessVal_eq_of_conflicts (show conflicts [1,2,3,4,5,6,7,8] = 28 by decide),
      fitnessVal_eq_of_conflicts (show conflicts [8,7,6,5,4,3,2,1] = 28 by decide)]
    norm_num
  have hcond : (0 : ℚ) < 0 + fitnessVal [1,2,3,4,5,6,7,8] / c4State.pop_fitness.sum := by
    rw [hsumv,
      fitnessVal_eq_of_conflicts (show conflicts [1,2,3,4,5,6,7,8] = 28 by decide)]
    norm_num
  have haux : rouletteAux c4State.pop_fitness.sum 0 c4State.pop_fitness 0 0 = some 0 := by
    show rouletteAux c4State.pop_fitness.sum 0
      (fitnessVal [1,2,3,4,5,6,7,8] :: [fitnessVal [8,7,6,5,4,3,2,1]]) 0 0 = some 0
    unfold rouletteAux
    rw [if_pos hcond]
  unfold roulette_selection
  simp only [haux]
  rfl

theorem c3_fix : c3Step c4State = c4State := by
  have hrm : rmC3 [1,2,3,4,5,6,7,8] [1,2,3,4,5,6,7,8]
      = ([1,2,3,4,5,6,7,8], [1,2,3,4,5,6,7,8]) := by
    norm_num [rmC3, cut_and_crossfill_crossover, swap_mutation]
  have hrep : replace_parents_by_childs c4State.population
      [1,2,3,4,5,6,7,8] [1,2,3,4,5,6,7,8] [1,2,3,4,5,6,7,8] [1,2,3,4,5,6,7,8]
      = c4State.population := by decide
  show genStep ParentSelOp.rouletteSel SurvivorSelOp.replaceParentsSel rmC3 c3Draws c4State
    = c4State
  unfold genStep c3Draws
  simp only [c3_roulette, hrm]
  unfold replace_parents_by_childs_state
  rw [hrep]

/-- **C3, counterexample.** With roulette parent selection and
replace-parents-by-children survivor selection (a valid configuration),
no generation evaluates fitness and the stale fitness table never
reaches 1, so from the concrete post-initialization state `c4State`
(counter 2, best fitness 1/29) the guard holds forever: the run loop
does not terminate. -/
theorem run_loop_can_run_forever :
    ¬ LoopTerminates (fun _ => c3Step) c4State := by
  have htrace : ∀ n, runTrace (fun _ => c3Step) c4State n = c4State := by
    intro n
    induction n with
    | zero => rfl
    | succ n ih => simp [runTrace, ih, c3_fix]
  have hguard : loopGuard c4State := by
    constructor
    · show (2 : ℕ) < 10000
      decide
    · show maxFit c4State.pop_fitness < 1
      have : c4State.pop_fitness = [fitnessVal [1,2,3,4,5,6,7,8],
          fitnessVal [8,7,6,5,4,3,2,1]] := rfl
      rw [this,
        fitnessVal_eq_of_conflicts (show conflicts [1,2,3,4,5,6,7,8] = 28 by decide),
        fitnessVal_eq_of_conflicts (show conflicts [8,7,6,5,4,3,2,1] = 28 by decide)]
      unfold maxFit
      norm_num
  rintro ⟨n, hn⟩
  rw [htrace n] at hn
  exact hn hguard

/-- **C3, amended.** For every configuration in which each generation
performs at least one fitness evaluation — tournament parent selection
or replace-worst survivor selection — the run loop terminates, and it
stops exactly at the first generation boundary where the guard
(`num_fitness_eval < 10000 and max fitness < 1`) fails: the guard holds
after every earlier generation and fails at the final one. -/
theorem run_loop_terminates_with_budget (ps : ParentSelOp) (ss : SurvivorSelOp)
    (rm : List ℕ → List ℕ → List ℕ × List ℕ) (draws : ℕ → GenDraws) (s : SGAState)
    (h : ps = ParentSelOp.best2of5 ∨ ss = SurvivorSelOp.replaceWorstSel) :
    ∃ n, (∀ m, m < n → loopGuard (runTrace (fun k => genStep ps ss rm (draws k)) s m))
      ∧ ¬ loopGuard (runTrace (fun k => genStep ps ss rm (draws k)) s n) := by
  have hstep : ∀ k st, st.num_fitness_eval + 1
      ≤ (genStep ps ss rm (draws k) st).num_fitness_eval := by
    intro k st
    have hcnt := genStep_counter ps ss rm (draws k) st
    rcases h with h | h
    · subst h
      cases ss <;> simp at hcnt <;> omega
    · subst h
      cases ps <;> simp at hcnt <;> omega
  have hmono : ∀ n, s.num_fitness_eval + n
      ≤ (runTrace (fun k => genStep ps ss rm (draws k)) s n).num_fitness_eval := by
    intro n
    induction n with
    | zero => simp [runTrace]
    | succ n ih =>
      have := hstep n (runTrace (fun k => genStep ps ss rm (draws k)) s n)
      simp only [runTrace]
      omega
  have hex : ∃ n, ¬ loopGuard (runTrace (fun k => genStep ps ss rm (draws k)) s n) := by
    refine ⟨10000, ?_⟩
    have := hmono 10000
    unfold loopGuard
    omega
  refine ⟨Nat.find hex, fun m hm => ?_, Nat.find_spec hex⟩
  exact not_not.1 (Nat.find_min hex hm)

/-- Witness for `run_loop_terminates_with_budget`: tournament parent
selection with replace-worst survivor selection from the concrete state
`c4State`. -/
theorem run_loop_terminates_with_budget_witness :
    ∃ n, (∀ m, m < n → loopGuard (runTrace
        (fun _ => genStep ParentSelOp.best2of5 SurvivorSelOp.replaceWorstSel rmC3
          c3Draws) c4State m))
      ∧ ¬ loopGuard (runTrace
        (fun _ => genStep ParentSelOp.best2of5 SurvivorSelOp.replaceWorstSel rmC3
          c3Draws) c4State n) :=
  run_loop_terminates_with_budget ParentSelOp.best2of5 SurvivorSelOp.replaceWorstSel
    rmC3 (fun _ => c3Draws) c4State (Or.inl rfl)

end SGA8Queens
